import Mathlib

/-! The program jsonminify: a verification development.

The program (`main.go`) reads JSON from standard input or from named files,
compacts it with `encoding/json.Compact` and writes the result to standard
output or to a sibling file `<stem>_output<ext>`.

The embedding below follows the Go code function by function:

* `minifyJSON`, `FormatJson`, `FromStdin`, `main`, `ShowHelp`, `ShowVersion`
  are the functions of `main.go`;
* `json.Compact` is the Go standard library routine that `minifyJSON` calls. Its
  scanner (`encoding/json/scanner.go`) and its copy loop
  (`encoding/json/indent.go`) are embedded state function by state function;
* `filepath.Ext` (`path/filepath/path.go`) is embedded for the output path;
* the `os` calls act on an explicit file-system value: a tree of directories,
  files and symbolic links, in which a path is resolved component by component.

A byte is a natural number and a byte sequence is a `List Nat`; the comments
give the ASCII character of every literal.
-/

namespace JsonMinify

/-! ## encoding/json: scanner.go -/

/-- The error type `json.SyntaxError`: either the message
`invalid character <c> <context>` or `unexpected end of JSON input`. -/
inductive SyntaxError where
  | invalidCharacter (c : Nat) (context : String)
  | unexpectedEnd
  deriving DecidableEq, Repr

/-- Scan result `scanContinue`: uninteresting byte. -/
def scanContinue : Nat := 0
/-- Scan result `scanBeginLiteral`. -/
def scanBeginLiteral : Nat := 1
/-- Scan result `scanBeginObject`. -/
def scanBeginObject : Nat := 2
/-- Scan result `scanObjectKey`: just finished object key. -/
def scanObjectKey : Nat := 3
/-- Scan result `scanObjectValue`: just finished non-last object value. -/
def scanObjectValue : Nat := 4
/-- Scan result `scanEndObject`. -/
def scanEndObject : Nat := 5
/-- Scan result `scanBeginArray`. -/
def scanBeginArray : Nat := 6
/-- Scan result `scanArrayValue`: just finished array value. -/
def scanArrayValue : Nat := 7
/-- Scan result `scanEndArray`. -/
def scanEndArray : Nat := 8
/-- Scan result `scanSkipSpace`: space byte, last of the continue results. -/
def scanSkipSpace : Nat := 9
/-- Scan result `scanEnd`: top-level value ended before this byte. -/
def scanEnd : Nat := 10
/-- Scan result `scanError`. -/
def scanError : Nat := 11

/-- Parse state `parseObjectKey`: parsing object key (before colon). -/
def parseObjectKey : Nat := 0
/-- Parse state `parseObjectValue`: parsing object value (after colon). -/
def parseObjectValue : Nat := 1
/-- Parse state `parseArrayValue`: parsing array value. -/
def parseArrayValue : Nat := 2

/-- The constant `maxNestingDepth` of scanner.go. -/
def maxNestingDepth : Nat := 10000

/-- The value of the scanner field `step`: which state function runs next. -/
inductive StepFn where
  | stateBeginValueOrEmpty | stateBeginValue | stateBeginStringOrEmpty
  | stateBeginString | stateEndValue | stateEndTop
  | stateInString | stateInStringEsc | stateInStringEscU | stateInStringEscU1
  | stateInStringEscU12 | stateInStringEscU123
  | stateNeg | state1 | state0 | stateDot | stateDot0 | stateE | stateESign | stateE0
  | stateT | stateTr | stateTru
  | stateF | stateFa | stateFal | stateFals
  | stateN | stateNu | stateNul
  | stateError
  deriving DecidableEq, Repr

/-- The struct `scanner`. The slice `parseState` is kept with its top (its last
element in Go) at the head of the list. The field `bytes` is not kept: the
copy loop of `Compact` never advances it and nothing reads it. -/
structure Scanner where
  step : StepFn
  endTop : Bool
  parseState : List Nat
  err : Option SyntaxError
  deriving DecidableEq, Repr

/-- The function `isSpace`. -/
def isSpace (c : Nat) : Bool :=
  decide (c ≤ 32) && (c == 32 || c == 9 || c == 13 || c == 10)

/-- The method `scanner.reset` applied to a fresh scanner (`newScanner`). -/
def newScanner : Scanner :=
  { step := .stateBeginValue, endTop := false, parseState := [], err := none }

/-! The `context` strings that the state functions pass to `scanner.error`. -/

/-- The error context `exceeded max depth`. -/
def ctxMaxDepth : String := "exceeded max depth"
/-- The error context `after top-level value`. -/
def ctxAfterTop : String := "after top-level value"
/-- The error context `after object key`. -/
def ctxAfterObjectKey : String := "after object key"
/-- The error context `after object key:value pair`. -/
def ctxAfterPair : String := "after object key:value pair"
/-- The error context `after array element`. -/
def ctxAfterArrayElement : String := "after array element"
/-- The error context `(empty)`. -/
def ctxEmpty : String := ""
/-- The error context `looking for beginning of value`. -/
def ctxBeginValue : String := "looking for beginning of value"
/-- The error context `looking for beginning of object key string`. -/
def ctxBeginString : String := "looking for beginning of object key string"
/-- The error context `in string literal`. -/
def ctxInString : String := "in string literal"
/-- The error context `in string escape code`. -/
def ctxInStringEsc : String := "in string escape code"
/-- The error context `in \u hexadecimal character escape`. -/
def ctxInStringEscU : String := "in \\u hexadecimal character escape"
/-- The error context `in numeric literal`. -/
def ctxNeg : String := "in numeric literal"
/-- The error context `after decimal point in numeric literal`. -/
def ctxDot : String := "after decimal point in numeric literal"
/-- The error context `in exponent of numeric literal`. -/
def ctxESign : String := "in exponent of numeric literal"
/-- The error context `in literal true (expecting 'r')`. -/
def ctxTrueR : String := "in literal true (expecting 'r')"
/-- The error context `in literal true (expecting 'u')`. -/
def ctxTrueU : String := "in literal true (expecting 'u')"
/-- The error context `in literal true (expecting 'e')`. -/
def ctxTrueE : String := "in literal true (expecting 'e')"
/-- The error context `in literal false (expecting 'a')`. -/
def ctxFalseA : String := "in literal false (expecting 'a')"
/-- The error context `in literal false (expecting 'l')`. -/
def ctxFalseL : String := "in literal false (expecting 'l')"
/-- The error context `in literal false (expecting 's')`. -/
def ctxFalseS : String := "in literal false (expecting 's')"
/-- The error context `in literal false (expecting 'e')`. -/
def ctxFalseE : String := "in literal false (expecting 'e')"
/-- The error context `in literal null (expecting 'u')`. -/
def ctxNullU : String := "in literal null (expecting 'u')"
/-- The error context `in literal null (expecting 'l')`. -/
def ctxNullL : String := "in literal null (expecting 'l')"

/-- The method `scanner.error`: records the error and kills the scanner. -/
def Scanner.error (s : Scanner) (c : Nat) (context : String) : Scanner × Nat :=
  ({ s with step := .stateError, err := some (.invalidCharacter c context) }, scanError)

/-- The method `scanner.pushParseState`. -/
def Scanner.pushParseState (s : Scanner) (c : Nat) (newParseState : Nat)
    (successState : Nat) : Scanner × Nat :=
  let s1 := { s with parseState := newParseState :: s.parseState }
  if s1.parseState.length ≤ maxNestingDepth then (s1, successState)
  else s1.error c ctxMaxDepth

/-- The method `scanner.popParseState`. -/
def Scanner.popParseState (s : Scanner) : Scanner :=
  let n := s.parseState.length - 1
  let s1 := { s with parseState := s.parseState.tail }
  if n == 0 then { s1 with step := .stateEndTop, endTop := true }
  else { s1 with step := .stateEndValue }

/-- The state function `stateError`. -/
def stateError (s : Scanner) (_c : Nat) : Scanner × Nat := (s, scanError)

/-- The state function `stateEndTop`. -/
def stateEndTop (s : Scanner) (c : Nat) : Scanner × Nat :=
  if !isSpace c then ((s.error c ctxAfterTop).1, scanEnd)
  else (s, scanEnd)

/-- The state function `stateEndValue`. -/
def stateEndValue (s : Scanner) (c : Nat) : Scanner × Nat :=
  let n := s.parseState.length
  if n == 0 then
    stateEndTop { s with step := .stateEndTop, endTop := true } c
  else if isSpace c then
    ({ s with step := .stateEndValue }, scanSkipSpace)
  else
    let ps := s.parseState.headD 0
    if ps == parseObjectKey then
      if c == 58 then -- ':'
        ({ s with parseState := parseObjectValue :: s.parseState.tail,
                  step := .stateBeginValue }, scanObjectKey)
      else s.error c ctxAfterObjectKey
    else if ps == parseObjectValue then
      if c == 44 then -- ','
        ({ s with parseState := parseObjectKey :: s.parseState.tail,
                  step := .stateBeginString }, scanObjectValue)
      else if c == 125 then -- '}'
        (s.popParseState, scanEndObject)
      else s.error c ctxAfterPair
    else if ps == parseArrayValue then
      if c == 44 then -- ','
        ({ s with step := .stateBeginValue }, scanArrayValue)
      else if c == 93 then -- ']'
        (s.popParseState, scanEndArray)
      else s.error c ctxAfterArrayElement
    else s.error c ctxEmpty

/-- The state function `stateBeginValue`. -/
def stateBeginValue (s : Scanner) (c : Nat) : Scanner × Nat :=
  if isSpace c then (s, scanSkipSpace)
  else if c == 123 then -- '{'
    Scanner.pushParseState { s with step := .stateBeginStringOrEmpty } c
      parseObjectKey scanBeginObject
  else if c == 91 then -- '['
    Scanner.pushParseState { s with step := .stateBeginValueOrEmpty } c
      parseArrayValue scanBeginArray
  else if c == 34 then -- '"'
    ({ s with step := .stateInString }, scanBeginLiteral)
  else if c == 45 then -- '-'
    ({ s with step := .stateNeg }, scanBeginLiteral)
  else if c == 48 then -- '0'
    ({ s with step := .state0 }, scanBeginLiteral)
  else if c == 116 then -- 't'
    ({ s with step := .stateT }, scanBeginLiteral)
  else if c == 102 then -- 'f'
    ({ s with step := .stateF }, scanBeginLiteral)
  else if c == 110 then -- 'n'
    ({ s with step := .stateN }, scanBeginLiteral)
  else if 49 ≤ c ∧ c ≤ 57 then -- '1' .. '9'
    ({ s with step := .state1 }, scanBeginLiteral)
  else s.error c ctxBeginValue

/-- The state function `stateBeginValueOrEmpty`. -/
def stateBeginValueOrEmpty (s : Scanner) (c : Nat) : Scanner × Nat :=
  if isSpace c then (s, scanSkipSpace)
  else if c == 93 then -- ']'
    stateEndValue s c
  else stateBeginValue s c

/-- The state function `stateBeginString`. -/
def stateBeginString (s : Scanner) (c : Nat) : Scanner × Nat :=
  if isSpace c then (s, scanSkipSpace)
  else if c == 34 then -- '"'
    ({ s with step := .stateInString }, scanBeginLiteral)
  else s.error c ctxBeginString

/-- The state function `stateBeginStringOrEmpty`. -/
def stateBeginStringOrEmpty (s : Scanner) (c : Nat) : Scanner × Nat :=
  if isSpace c then (s, scanSkipSpace)
  else if c == 125 then -- '}'
    stateEndValue { s with parseState := parseObjectValue :: s.parseState.tail } c
  else stateBeginString s c

/-- The state function `stateInString`. -/
def stateInString (s : Scanner) (c : Nat) : Scanner × Nat :=
  if c == 34 then -- '"'
    ({ s with step := .stateEndValue }, scanContinue)
  else if c == 92 then -- '\\'
    ({ s with step := .stateInStringEsc }, scanContinue)
  else if c < 32 then s.error c ctxInString
  else (s, scanContinue)

/-- The state function `stateInStringEsc`. -/
def stateInStringEsc (s : Scanner) (c : Nat) : Scanner × Nat :=
  -- 'b', 'f', 'n', 'r', 't', '\\', '/', '"'
  if c == 98 || c == 102 || c == 110 || c == 114 || c == 116 || c == 92 || c == 47
      || c == 34 then
    ({ s with step := .stateInString }, scanContinue)
  else if c == 117 then -- 'u'
    ({ s with step := .stateInStringEscU }, scanContinue)
  else s.error c ctxInStringEsc

/-- The test `'0' <= c && c <= '9' || 'a' <= c && c <= 'f' || 'A' <= c && c <= 'F'`
shared by the four `\u` state functions. -/
def isHex (c : Nat) : Bool :=
  (decide (48 ≤ c) && decide (c ≤ 57)) || (decide (97 ≤ c) && decide (c ≤ 102))
    || (decide (65 ≤ c) && decide (c ≤ 70))

/-- The state function `stateInStringEscU`. -/
def stateInStringEscU (s : Scanner) (c : Nat) : Scanner × Nat :=
  if isHex c then ({ s with step := .stateInStringEscU1 }, scanContinue)
  else s.error c ctxInStringEscU

/-- The state function `stateInStringEscU1`. -/
def stateInStringEscU1 (s : Scanner) (c : Nat) : Scanner × Nat :=
  if isHex c then ({ s with step := .stateInStringEscU12 }, scanContinue)
  else s.error c ctxInStringEscU

/-- The state function `stateInStringEscU12`. -/
def stateInStringEscU12 (s : Scanner) (c : Nat) : Scanner × Nat :=
  if isHex c then ({ s with step := .stateInStringEscU123 }, scanContinue)
  else s.error c ctxInStringEscU

/-- The state function `stateInStringEscU123`. -/
def stateInStringEscU123 (s : Scanner) (c : Nat) : Scanner × Nat :=
  if isHex c then ({ s with step := .stateInString }, scanContinue)
  else s.error c ctxInStringEscU

/-- The state function `stateNeg`. -/
def stateNeg (s : Scanner) (c : Nat) : Scanner × Nat :=
  if c == 48 then ({ s with step := .state0 }, scanContinue) -- '0'
  else if 49 ≤ c ∧ c ≤ 57 then ({ s with step := .state1 }, scanContinue)
  else s.error c ctxNeg

/-- The state function `state0`. -/
def state0 (s : Scanner) (c : Nat) : Scanner × Nat :=
  if c == 46 then ({ s with step := .stateDot }, scanContinue) -- '.'
  else if c == 101 || c == 69 then ({ s with step := .stateE }, scanContinue) -- 'e', 'E'
  else stateEndValue s c

/-- The state function `state1`. -/
def state1 (s : Scanner) (c : Nat) : Scanner × Nat :=
  if 48 ≤ c ∧ c ≤ 57 then ({ s with step := .state1 }, scanContinue)
  else state0 s c

/-- The state function `stateDot`. -/
def stateDot (s : Scanner) (c : Nat) : Scanner × Nat :=
  if 48 ≤ c ∧ c ≤ 57 then ({ s with step := .stateDot0 }, scanContinue)
  else s.error c ctxDot

/-- The state function `stateDot0`. -/
def stateDot0 (s : Scanner) (c : Nat) : Scanner × Nat :=
  if 48 ≤ c ∧ c ≤ 57 then (s, scanContinue)
  else if c == 101 || c == 69 then ({ s with step := .stateE }, scanContinue)
  else stateEndValue s c

/-- The state function `stateESign`. -/
def stateESign (s : Scanner) (c : Nat) : Scanner × Nat :=
  if 48 ≤ c ∧ c ≤ 57 then ({ s with step := .stateE0 }, scanContinue)
  else s.error c ctxESign

/-- The state function `stateE`. -/
def stateE (s : Scanner) (c : Nat) : Scanner × Nat :=
  if c == 43 || c == 45 then ({ s with step := .stateESign }, scanContinue) -- '+', '-'
  else stateESign s c

/-- The state function `stateE0`. -/
def stateE0 (s : Scanner) (c : Nat) : Scanner × Nat :=
  if 48 ≤ c ∧ c ≤ 57 then (s, scanContinue)
  else stateEndValue s c

/-- The shape shared by the literal state functions `stateT` ... `stateNul`:
the expected byte moves to the next state function, any other byte is an
error with the given context. -/
def expectByte (s : Scanner) (c : Nat) (want : Nat) (next : StepFn)
    (context : String) : Scanner × Nat :=
  if c == want then ({ s with step := next }, scanContinue)
  else s.error c context

/-- The state function `stateT`. -/
def stateT (s : Scanner) (c : Nat) : Scanner × Nat :=
  expectByte s c 114 .stateTr ctxTrueR -- 'r'

/-- The state function `stateTr`. -/
def stateTr (s : Scanner) (c : Nat) : Scanner × Nat :=
  expectByte s c 117 .stateTru ctxTrueU -- 'u'

/-- The state function `stateTru`. -/
def stateTru (s : Scanner) (c : Nat) : Scanner × Nat :=
  expectByte s c 101 .stateEndValue ctxTrueE -- 'e'

/-- The state function `stateF`. -/
def stateF (s : Scanner) (c : Nat) : Scanner × Nat :=
  expectByte s c 97 .stateFa ctxFalseA -- 'a'

/-- The state function `stateFa`. -/
def stateFa (s : Scanner) (c : Nat) : Scanner × Nat :=
  expectByte s c 108 .stateFal ctxFalseL -- 'l'

/-- The state function `stateFal`. -/
def stateFal (s : Scanner) (c : Nat) : Scanner × Nat :=
  expectByte s c 115 .stateFals ctxFalseS -- 's'

/-- The state function `stateFals`. -/
def stateFals (s : Scanner) (c : Nat) : Scanner × Nat :=
  expectByte s c 101 .stateEndValue ctxFalseE -- 'e'

/-- The state function `stateN`. -/
def stateN (s : Scanner) (c : Nat) : Scanner × Nat :=
  expectByte s c 117 .stateNu ctxNullU -- 'u'

/-- The state function `stateNu`. -/
def stateNu (s : Scanner) (c : Nat) : Scanner × Nat :=
  expectByte s c 108 .stateNul ctxNullL -- 'l'

/-- The state function `stateNul`. -/
def stateNul (s : Scanner) (c : Nat) : Scanner × Nat :=
  expectByte s c 108 .stateEndValue ctxNullL -- 'l'

/-- The call `s.step(s, c)`: runs the state function the field `step` holds. -/
def Scanner.call (s : Scanner) (c : Nat) : Scanner × Nat :=
  match s.step with
  | .stateBeginValueOrEmpty => stateBeginValueOrEmpty s c
  | .stateBeginValue => stateBeginValue s c
  | .stateBeginStringOrEmpty => stateBeginStringOrEmpty s c
  | .stateBeginString => stateBeginString s c
  | .stateEndValue => stateEndValue s c
  | .stateEndTop => stateEndTop s c
  | .stateInString => stateInString s c
  | .stateInStringEsc => stateInStringEsc s c
  | .stateInStringEscU => stateInStringEscU s c
  | .stateInStringEscU1 => stateInStringEscU1 s c
  | .stateInStringEscU12 => stateInStringEscU12 s c
  | .stateInStringEscU123 => stateInStringEscU123 s c
  | .stateNeg => stateNeg s c
  | .state1 => state1 s c
  | .state0 => state0 s c
  | .stateDot => stateDot s c
  | .stateDot0 => stateDot0 s c
  | .stateE => stateE s c
  | .stateESign => stateESign s c
  | .stateE0 => stateE0 s c
  | .stateT => stateT s c
  | .stateTr => stateTr s c
  | .stateTru => stateTru s c
  | .stateF => stateF s c
  | .stateFa => stateFa s c
  | .stateFal => stateFal s c
  | .stateFals => stateFals s c
  | .stateN => stateN s c
  | .stateNu => stateNu s c
  | .stateNul => stateNul s c
  | .stateError => stateError s c

/-- The method `scanner.eof`. -/
def Scanner.eof (s : Scanner) : Scanner × Nat :=
  if s.err.isSome then (s, scanError)
  else if s.endTop then (s, scanEnd)
  else
    let s1 := (s.call 32).1 -- s.step(s, ' ')
    if s1.endTop then (s1, scanEnd)
    else if s1.err.isNone then ({ s1 with err := some .unexpectedEnd }, scanError)
    else (s1, scanError)

/-! ## encoding/json: indent.go -/

instance instDecidableEqExcept {ε α : Type} [DecidableEq ε] [DecidableEq α] :
    DecidableEq (Except ε α)
  | .ok a, .ok b => if h : a = b then isTrue (by rw [h]) else isFalse (by
      intro h1; cases h1; exact h rfl)
  | .error a, .error b => if h : a = b then isTrue (by rw [h]) else isFalse (by
      intro h1; cases h1; exact h rfl)
  | .ok _, .error _ => isFalse (by intro h; cases h)
  | .error _, .ok _ => isFalse (by intro h; cases h)

/-- The slice expression `src[lo:hi]`. -/
def slice (src : List Nat) (lo hi : Nat) : List Nat := (src.take hi).drop lo

/-- The loop `for i, c := range src` of `compact` (with `escape` false), from
index `i` on, `rest` being `src[i:]`. It returns the scanner, `start` and the
destination buffer at the end of the loop or at the `break`. -/
def compactLoop (src : List Nat) :
    List Nat → Nat → Scanner → Nat → List Nat → Scanner × Nat × List Nat
  | [], _, scan, start, dst => (scan, start, dst)
  | c :: rest, i, scan, start, dst =>
    let r := scan.call c
    if r.2 ≥ scanSkipSpace then
      if r.2 == scanError then (r.1, start, dst)
      else compactLoop src rest (i + 1) r.1 (i + 1) (dst ++ slice src start i)
    else compactLoop src rest (i + 1) r.1 start dst

/-- The function `json.Compact` on an empty destination buffer: the compacted
bytes, or the scanner's error with the buffer truncated to its original
(zero) length. -/
def Compact (src : List Nat) : Except SyntaxError (List Nat) :=
  let (scan, start, dst) := compactLoop src src 0 newScanner 0 []
  let r := scan.eof
  if r.2 == scanError then .error (r.1.err.getD .unexpectedEnd)
  else .ok (dst ++ slice src start src.length)

/-! ## main.go -/

/-- The function `minifyJSON`: `json.Compact` into a fresh buffer. On an error
the Go code returns `nil` bytes together with the error. -/
def minifyJSON (input : List Nat) : Except SyntaxError (List Nat) :=
  match Compact input with
  | .error err => .error err
  | .ok buffer => .ok buffer

/-- The bytes of an ASCII string. -/
def bytesOf (s : String) : List Nat := s.toList.map Char.toNat

/-! ## Whitespace outside string literals, as the specification words it -/

/-- Where a byte of a JSON text lies: outside any string literal, inside one,
or right after a backslash inside one. -/
inductive Lex where
  | outside | inString | escaped
  deriving DecidableEq, Repr

/-- The four insignificant whitespace bytes: space, tab, line feed, carriage
return. -/
def isWhitespace (c : Nat) : Bool := c == 32 || c == 9 || c == 10 || c == 13

/-- Deletes every whitespace byte lying outside a string literal and keeps
every other byte, reading the text from position `q`. -/
def stripFrom : Lex → List Nat → List Nat
  | _, [] => []
  | .outside, c :: l =>
    if isWhitespace c then stripFrom .outside l
    else if c == 34 then c :: stripFrom .inString l
    else c :: stripFrom .outside l
  | .inString, c :: l =>
    if c == 34 then c :: stripFrom .outside l
    else if c == 92 then c :: stripFrom .escaped l
    else c :: stripFrom .inString l
  | .escaped, c :: l => c :: stripFrom .inString l

/-- The text with every space, tab, line feed and carriage return outside a
string literal deleted, and nothing else changed. -/
def stripWhitespace (D : List Nat) : List Nat := stripFrom .outside D

/-- The position in the text that a state function of the scanner stands for. -/
def StepFn.lex : StepFn → Lex
  | .stateInString | .stateInStringEscU | .stateInStringEscU1
  | .stateInStringEscU12 | .stateInStringEscU123 => .inString
  | .stateInStringEsc => .escaped
  | _ => .outside

/-! ## The scanner as a transition relation -/

/-- The scanner with no error recorded, `step` equal to `st` and parse stack
`ps`; `endTop` is set exactly in `stateEndTop`. -/
def mkScanner (st : StepFn) (ps : List Nat) : Scanner :=
  { step := st, endTop := st == .stateEndTop, parseState := ps, err := none }

/-- The `step` that `popParseState` leaves when the remaining stack is `t`. -/
def popStep (t : List Nat) : StepFn :=
  if t = [] then .stateEndTop else .stateEndValue

/-- The error-free moves of `stateBeginValue` on a byte that is not a space:
stack before, byte, `step` and stack after, scan result. -/
inductive BeginValueTrans (ps : List Nat) : Nat → StepFn → List Nat → Nat → Prop
  | beginObject (h : ps.length < maxNestingDepth) :
      BeginValueTrans ps 123 .stateBeginStringOrEmpty (parseObjectKey :: ps) scanBeginObject
  | beginArray (h : ps.length < maxNestingDepth) :
      BeginValueTrans ps 91 .stateBeginValueOrEmpty (parseArrayValue :: ps) scanBeginArray
  | quote : BeginValueTrans ps 34 .stateInString ps scanBeginLiteral
  | minus : BeginValueTrans ps 45 .stateNeg ps scanBeginLiteral
  | zero : BeginValueTrans ps 48 .state0 ps scanBeginLiteral
  | t : BeginValueTrans ps 116 .stateT ps scanBeginLiteral
  | f : BeginValueTrans ps 102 .stateF ps scanBeginLiteral
  | n : BeginValueTrans ps 110 .stateN ps scanBeginLiteral
  | digit (c : Nat) (h1 : 49 ≤ c) (h2 : c ≤ 57) :
      BeginValueTrans ps c .state1 ps scanBeginLiteral

/-- The error-free moves of `stateEndValue`. -/
inductive EndValueTrans : List Nat → Nat → StepFn → List Nat → Nat → Prop
  | topSpace (c : Nat) (hw : isWhitespace c = true) :
      EndValueTrans [] c .stateEndTop [] scanEnd
  | space (p : Nat) (t : List Nat) (c : Nat) (hw : isWhitespace c = true) :
      EndValueTrans (p :: t) c .stateEndValue (p :: t) scanSkipSpace
  | colon (t : List Nat) :
      EndValueTrans (parseObjectKey :: t) 58 .stateBeginValue (parseObjectValue :: t)
        scanObjectKey
  | objectComma (t : List Nat) :
      EndValueTrans (parseObjectValue :: t) 44 .stateBeginString (parseObjectKey :: t)
        scanObjectValue
  | endObject (t : List Nat) :
      EndValueTrans (parseObjectValue :: t) 125 (popStep t) t scanEndObject
  | arrayComma (t : List Nat) :
      EndValueTrans (parseArrayValue :: t) 44 .stateBeginValue (parseArrayValue :: t)
        scanArrayValue
  | endArray (t : List Nat) :
      EndValueTrans (parseArrayValue :: t) 93 (popStep t) t scanEndArray

/-- The error-free moves of the scanner: `step` and stack before, byte, `step`
and stack after, scan result. -/
inductive Trans : StepFn → List Nat → Nat → StepFn → List Nat → Nat → Prop
  | beginValueSpace (ps c) (hw : isWhitespace c = true) :
      Trans .stateBeginValue ps c .stateBeginValue ps scanSkipSpace
  | beginValue (ps c st ps1 op) (hw : isWhitespace c = false)
      (h : BeginValueTrans ps c st ps1 op) : Trans .stateBeginValue ps c st ps1 op
  | orEmptySpace (ps c) (hw : isWhitespace c = true) :
      Trans .stateBeginValueOrEmpty ps c .stateBeginValueOrEmpty ps scanSkipSpace
  | orEmptyEnd (ps st ps1 op) (h : EndValueTrans ps 93 st ps1 op) :
      Trans .stateBeginValueOrEmpty ps 93 st ps1 op
  | orEmptyValue (ps c st ps1 op) (hw : isWhitespace c = false)
      (h : BeginValueTrans ps c st ps1 op) : Trans .stateBeginValueOrEmpty ps c st ps1 op
  | stringOrEmptySpace (ps c) (hw : isWhitespace c = true) :
      Trans .stateBeginStringOrEmpty ps c .stateBeginStringOrEmpty ps scanSkipSpace
  | stringOrEmptyEnd (ps st ps1 op)
      (h : EndValueTrans (parseObjectValue :: ps.tail) 125 st ps1 op) :
      Trans .stateBeginStringOrEmpty ps 125 st ps1 op
  | stringOrEmptyQuote (ps) :
      Trans .stateBeginStringOrEmpty ps 34 .stateInString ps scanBeginLiteral
  | beginStringSpace (ps c) (hw : isWhitespace c = true) :
      Trans .stateBeginString ps c .stateBeginString ps scanSkipSpace
  | beginStringQuote (ps) :
      Trans .stateBeginString ps 34 .stateInString ps scanBeginLiteral
  | endValue (ps c st ps1 op) (h : EndValueTrans ps c st ps1 op) :
      Trans .stateEndValue ps c st ps1 op
  | endTop (ps c) (hw : isWhitespace c = true) :
      Trans .stateEndTop ps c .stateEndTop ps scanEnd
  | stringEnd (ps) : Trans .stateInString ps 34 .stateEndValue ps scanContinue
  | stringBackslash (ps) : Trans .stateInString ps 92 .stateInStringEsc ps scanContinue
  | stringByte (ps c) (h1 : c ≠ 34) (h2 : c ≠ 92) (h3 : 32 ≤ c) :
      Trans .stateInString ps c .stateInString ps scanContinue
  | esc (ps c)
      (h : c = 98 ∨ c = 102 ∨ c = 110 ∨ c = 114 ∨ c = 116 ∨ c = 92 ∨ c = 47 ∨ c = 34) :
      Trans .stateInStringEsc ps c .stateInString ps scanContinue
  | escU (ps) : Trans .stateInStringEsc ps 117 .stateInStringEscU ps scanContinue
  | hex1 (ps c) (h : isHex c = true) :
      Trans .stateInStringEscU ps c .stateInStringEscU1 ps scanContinue
  | hex2 (ps c) (h : isHex c = true) :
      Trans .stateInStringEscU1 ps c .stateInStringEscU12 ps scanContinue
  | hex3 (ps c) (h : isHex c = true) :
      Trans .stateInStringEscU12 ps c .stateInStringEscU123 ps scanContinue
  | hex4 (ps c) (h : isHex c = true) :
      Trans .stateInStringEscU123 ps c .stateInString ps scanContinue
  | negZero (ps) : Trans .stateNeg ps 48 .state0 ps scanContinue
  | negDigit (ps c) (h1 : 49 ≤ c) (h2 : c ≤ 57) : Trans .stateNeg ps c .state1 ps scanContinue
  | intDigit (ps c) (h1 : 48 ≤ c) (h2 : c ≤ 57) : Trans .state1 ps c .state1 ps scanContinue
  | intDot (ps) : Trans .state1 ps 46 .stateDot ps scanContinue
  | intExp (ps c) (h : c = 101 ∨ c = 69) : Trans .state1 ps c .stateE ps scanContinue
  | intEnd (ps c st ps1 op) (h : EndValueTrans ps c st ps1 op) : Trans .state1 ps c st ps1 op
  | zeroDot (ps) : Trans .state0 ps 46 .stateDot ps scanContinue
  | zeroExp (ps c) (h : c = 101 ∨ c = 69) : Trans .state0 ps c .stateE ps scanContinue
  | zeroEnd (ps c st ps1 op) (h : EndValueTrans ps c st ps1 op) : Trans .state0 ps c st ps1 op
  | dotDigit (ps c) (h1 : 48 ≤ c) (h2 : c ≤ 57) : Trans .stateDot ps c .stateDot0 ps scanContinue
  | fracDigit (ps c) (h1 : 48 ≤ c) (h2 : c ≤ 57) :
      Trans .stateDot0 ps c .stateDot0 ps scanContinue
  | fracExp (ps c) (h : c = 101 ∨ c = 69) : Trans .stateDot0 ps c .stateE ps scanContinue
  | fracEnd (ps c st ps1 op) (h : EndValueTrans ps c st ps1 op) :
      Trans .stateDot0 ps c st ps1 op
  | expSign (ps c) (h : c = 43 ∨ c = 45) : Trans .stateE ps c .stateESign ps scanContinue
  | expDigit (ps c) (h1 : 48 ≤ c) (h2 : c ≤ 57) : Trans .stateE ps c .stateE0 ps scanContinue
  | signDigit (ps c) (h1 : 48 ≤ c) (h2 : c ≤ 57) :
      Trans .stateESign ps c .stateE0 ps scanContinue
  | exp0Digit (ps c) (h1 : 48 ≤ c) (h2 : c ≤ 57) : Trans .stateE0 ps c .stateE0 ps scanContinue
  | exp0End (ps c st ps1 op) (h : EndValueTrans ps c st ps1 op) : Trans .stateE0 ps c st ps1 op
  | litT (ps) : Trans .stateT ps 114 .stateTr ps scanContinue
  | litTr (ps) : Trans .stateTr ps 117 .stateTru ps scanContinue
  | litTru (ps) : Trans .stateTru ps 101 .stateEndValue ps scanContinue
  | litF (ps) : Trans .stateF ps 97 .stateFa ps scanContinue
  | litFa (ps) : Trans .stateFa ps 108 .stateFal ps scanContinue
  | litFal (ps) : Trans .stateFal ps 115 .stateFals ps scanContinue
  | litFals (ps) : Trans .stateFals ps 101 .stateEndValue ps scanContinue
  | litN (ps) : Trans .stateN ps 117 .stateNu ps scanContinue
  | litNu (ps) : Trans .stateNu ps 108 .stateNul ps scanContinue
  | litNul (ps) : Trans .stateNul ps 108 .stateEndValue ps scanContinue

/-! ## Runs of the scanner and the copy loop -/

/-- An error-free run: from `step` `st` and stack `ps` the bytes `l` lead to
`st1` and `ps1`, and `out` are the bytes of `l` whose scan result is below
`scanSkipSpace`. -/
inductive Run : StepFn → List Nat → List Nat → StepFn → List Nat → List Nat → Prop
  | nil (st ps) : Run st ps [] st ps []
  | cons {st ps c st1 ps1 op l st2 ps2 out} (h : Trans st ps c st1 ps1 op)
      (r : Run st1 ps1 l st2 ps2 out) :
      Run st ps (c :: l) st2 ps2 (if scanSkipSpace ≤ op then out else c :: out)

/-- The states in which `scanner.eof` reports no error: the top-level value has
ended, or ends on the space that `eof` feeds. -/
def Accepting (st : StepFn) (ps : List Nat) : Prop :=
  st = .stateEndTop ∨ ∃ ps1 op, Trans st ps 32 .stateEndTop ps1 op

/-- A scanner call on byte `c` either records no error or leaves the scanner in
`stateError` with an error recorded; `endTop` then keeps its value `e0`, unless
`c` is not a space. -/
def ErrOK (e0 : Bool) (c : Nat) (r : Scanner × Nat) : Prop :=
  r.1.err = none ∨
    (r.1.step = .stateError ∧ r.1.err.isSome = true ∧ (r.1.endTop = e0 ∨ isSpace c = false))

/-! ## The kept bytes are the text without its outer whitespace -/

/-- The position after a byte `c` read at position `q`. -/
def Lex.next (q : Lex) (c : Nat) : Lex :=
  match q with
  | .outside => if isWhitespace c then .outside else if c == 34 then .inString else .outside
  | .inString => if c == 34 then .outside else if c == 92 then .escaped else .inString
  | .escaped => .inString

/-- What a move contributes to the lexical reading: it is skipped exactly when
it is whitespace outside a string, and the position moves as `Lex.next` says. -/
def LexStep (q : Lex) (c : Nat) (st1 : StepFn) (op : Nat) : Prop :=
  (scanSkipSpace ≤ op ↔ (q = .outside ∧ isWhitespace c = true)) ∧ st1.lex = q.next c

/-! ## The JSON grammar (RFC 8259) on byte sequences -/

/-- A parsed JSON value. Numbers and strings keep their text as written (the
digits of the literal, the bytes between the quotes), so two equal values have
the same number formatting and the same string escapes; arrays and objects keep
the order of their elements and members. -/
inductive JValue where
  | null
  | true
  | false
  | number (text : List Nat)
  | string (body : List Nat)
  | array (elems : List JValue)
  | object (members : List (List Nat × JValue))

/-- Whitespace `ws`: any run of space, tab, line feed and carriage return. -/
def IsWs (w : List Nat) : Prop := ∀ c ∈ w, isWhitespace c = true

/-- A run of decimal digits. -/
def IsDigits (ds : List Nat) : Prop := ∀ c ∈ ds, 48 ≤ c ∧ c ≤ 57

/-- A hexadecimal digit. -/
def IsHexDigit (c : Nat) : Prop :=
  (48 ≤ c ∧ c ≤ 57) ∨ (65 ≤ c ∧ c ≤ 70) ∨ (97 ≤ c ∧ c ≤ 102)

/-- The bytes between the quotes of a string: unescaped bytes from 0x20 on
other than the quote and the backslash, two-byte escapes, and `\u` followed by
four hexadecimal digits. -/
inductive StringBody : List Nat → Prop
  | nil : StringBody []
  | byte (c : Nat) (l : List Nat) (h1 : 32 ≤ c) (h2 : c ≠ 34) (h3 : c ≠ 92)
      (h : StringBody l) : StringBody (c :: l)
  | esc (e : Nat) (l : List Nat)
      (he : e = 34 ∨ e = 92 ∨ e = 47 ∨ e = 98 ∨ e = 102 ∨ e = 110 ∨ e = 114 ∨ e = 116)
      (h : StringBody l) : StringBody (92 :: e :: l)
  | unicode (a b c d : Nat) (l : List Nat) (ha : IsHexDigit a) (hb : IsHexDigit b)
      (hc : IsHexDigit c) (hd : IsHexDigit d) (h : StringBody l) :
      StringBody (92 :: 117 :: a :: b :: c :: d :: l)

/-- The integer part `int`: a single zero, or a nonzero digit and more digits. -/
def IsInt (i : List Nat) : Prop :=
  i = [48] ∨ ∃ d ds, i = d :: ds ∧ 49 ≤ d ∧ d ≤ 57 ∧ IsDigits ds

/-- The optional fraction `frac`: a dot and at least one digit. -/
def IsFrac (f : List Nat) : Prop :=
  f = [] ∨ ∃ ds, f = 46 :: ds ∧ ds ≠ [] ∧ IsDigits ds

/-- The optional exponent `exp`: `e` or `E`, an optional sign, at least one digit. -/
def IsExp (e : List Nat) : Prop :=
  e = [] ∨ ∃ x sign ds, e = x :: (sign ++ ds) ∧ (x = 101 ∨ x = 69) ∧
    (sign = [] ∨ sign = [43] ∨ sign = [45]) ∧ ds ≠ [] ∧ IsDigits ds

/-- A number literal: optional minus, `int`, optional `frac`, optional `exp`. -/
def IsNumber (n : List Nat) : Prop :=
  ∃ sign i f e, n = sign ++ i ++ f ++ e ∧ (sign = [] ∨ sign = [45]) ∧
    IsInt i ∧ IsFrac f ∧ IsExp e

/-- An array element as written: whitespace, the text of a value, whitespace. -/
structure Element where
  pre : List Nat
  text : List Nat
  post : List Nat
  val : JValue

/-- The bytes of an element. -/
def Element.bytes (e : Element) : List Nat := e.pre ++ e.text ++ e.post

/-- An object member as written: whitespace, the quoted key, whitespace, a
colon, and an element. -/
structure Member where
  pre : List Nat
  key : List Nat
  mid : List Nat
  pre2 : List Nat
  text : List Nat
  post : List Nat
  val : JValue

/-- The bytes of a member. -/
def Member.bytes (m : Member) : List Nat :=
  m.pre ++ 34 :: (m.key ++ 34 :: (m.mid ++ 58 :: (m.pre2 ++ m.text ++ m.post)))

/-- The texts `xs` separated by commas. -/
def joinComma : List (List Nat) → List Nat
  | [] => []
  | [x] => x
  | x :: y :: r => x ++ 44 :: joinComma (y :: r)

/-- `Value d t v`: the bytes `t` are a JSON value (without surrounding
whitespace) that parses to `v` and nests arrays and objects at most `d` deep. -/
inductive Value : Nat → List Nat → JValue → Prop
  | null (d : Nat) : Value d [110, 117, 108, 108] .null
  | true (d : Nat) : Value d [116, 114, 117, 101] .true
  | false (d : Nat) : Value d [102, 97, 108, 115, 101] .false
  | number (d : Nat) (n : List Nat) (h : IsNumber n) : Value d n (.number n)
  | string (d : Nat) (b : List Nat) (h : StringBody b) :
      Value d (34 :: (b ++ [34])) (.string b)
  | emptyArray (d : Nat) (w : List Nat) (hw : IsWs w) :
      Value (d + 1) (91 :: (w ++ [93])) (.array [])
  | array (d : Nat) (es : List Element) (hne : es ≠ [])
      (hws : ∀ e ∈ es, IsWs e.pre ∧ IsWs e.post)
      (h : ∀ e ∈ es, Value d e.text e.val) :
      Value (d + 1) (91 :: (joinComma (es.map Element.bytes) ++ [93]))
        (.array (es.map Element.val))
  | emptyObject (d : Nat) (w : List Nat) (hw : IsWs w) :
      Value (d + 1) (123 :: (w ++ [125])) (.object [])
  | object (d : Nat) (ms : List Member) (hne : ms ≠ [])
      (hws : ∀ m ∈ ms, IsWs m.pre ∧ IsWs m.mid ∧ IsWs m.pre2 ∧ IsWs m.post ∧
        StringBody m.key)
      (h : ∀ m ∈ ms, Value d m.text m.val) :
      Value (d + 1) (123 :: (joinComma (ms.map Member.bytes) ++ [125]))
        (.object (ms.map fun m => (m.key, m.val)))

/-- `Document d D v`: the byte sequence `D` is a JSON text (a value with
optional whitespace around it) that parses to `v` and nests at most `d` deep. -/
def Document (d : Nat) (D : List Nat) (v : JValue) : Prop :=
  ∃ pre body post, D = pre ++ body ++ post ∧ IsWs pre ∧ IsWs post ∧ Value d body v

/-- The byte sequence `D` is syntactically valid JSON. -/
def ValidJSON (D : List Nat) : Prop := ∃ d v, Document d D v

/-! ## Completeness: the scanner accepts every valid text within the depth limit -/

/-- Some error-free run leads from `st`, `ps` over `l` to `st1`, `ps1`. -/
def Steps (st : StepFn) (ps l : List Nat) (st1 : StepFn) (ps1 : List Nat) : Prop :=
  ∃ out, Run st ps l st1 ps1 out

/-- The states in which a value may begin. -/
def BeginLike (st : StepFn) : Prop :=
  st = .stateBeginValue ∨ st = .stateBeginValueOrEmpty

/-- The states right after a complete value at stack `ps`. -/
def AfterValue (st : StepFn) (ps : List Nat) : Prop :=
  st = .stateEndValue ∨ st = .state0 ∨ st = .state1 ∨ st = .stateDot0 ∨ st = .stateE0 ∨
    (st = .stateEndTop ∧ ps = [])

/-- The states that skip whitespace and stay where they are. -/
def SpaceStable (st : StepFn) : Prop :=
  st = .stateBeginValue ∨ st = .stateBeginValueOrEmpty ∨ st = .stateBeginStringOrEmpty ∨
    st = .stateBeginString ∨ st = .stateEndTop

/-- The states of a number literal in which digits may go on. -/
def DigitLoop (st : StepFn) : Prop := st = .state1 ∨ st = .stateDot0 ∨ st = .stateE0

/-- The states of a number literal in which an exponent may begin. -/
def NumEnd (st : StepFn) : Prop := st = .state0 ∨ st = .state1 ∨ st = .stateDot0

/-- The scanner reads the value text `t` from any state where a value may begin
and any stack that leaves room for `d` more levels, and ends right after a
value with the same stack. -/
def Scans (d : Nat) (t : List Nat) : Prop :=
  ∀ (ps : List Nat) (st : StepFn), BeginLike st → ps.length + d ≤ maxNestingDepth →
    ∃ st1, Steps st ps t st1 ps ∧ AfterValue st1 ps

/-- The states in which an object key may begin. -/
def KeyLike (st : StepFn) : Prop :=
  st = .stateBeginStringOrEmpty ∨ st = .stateBeginString

/-! ## Deleting the outer whitespace of a valid text -/

/-- The text `t1` is the compact writing of the same value: `t` with its
whitespace outside strings deleted, whatever follows. -/
def StripsTo (d : Nat) (t : List Nat) (v : JValue) (t1 : List Nat) : Prop :=
  Value d t1 v ∧ ∀ r, stripFrom .outside (t ++ r) = t1 ++ stripFrom .outside r

/-! ## Soundness: whatever the scanner accepts is a valid text -/

/-- Further elements of an array, each after its comma. -/
def commaElems : List Element → List Nat
  | [] => []
  | e :: r => 44 :: (e.bytes ++ commaElems r)

/-- Further members of an object, each after its comma. -/
def commaMembers : List Member → List Nat
  | [] => []
  | m :: r => 44 :: (m.bytes ++ commaMembers r)

/-- A well-formed element of some depth. -/
def ElemOK (e : Element) : Prop :=
  IsWs e.pre ∧ IsWs e.post ∧ ∃ d, Value d e.text e.val

/-- A well-formed member of some depth. -/
def MemOK (m : Member) : Prop :=
  (IsWs m.pre ∧ IsWs m.mid ∧ IsWs m.pre2 ∧ IsWs m.post ∧ StringBody m.key) ∧
    ∃ d, Value d m.text m.val

/-- `After ps r`: the text `r` may follow a complete value (or, on a stack
topped by `parseObjectKey`, a complete key) when the stack is `ps`: it closes
every open array and object and ends the text. -/
def After : List Nat → List Nat → Prop
  | [], r => IsWs r
  | p :: t, r =>
    if p = parseArrayValue then
      ∃ w es r1, r = w ++ (commaElems es ++ 93 :: r1) ∧ IsWs w ∧ (∀ e ∈ es, ElemOK e) ∧
        After t r1
    else if p = parseObjectValue then
      ∃ w ms r1, r = w ++ (commaMembers ms ++ 125 :: r1) ∧ IsWs w ∧ (∀ m ∈ ms, MemOK m) ∧
        After t r1
    else if p = parseObjectKey then
      ∃ w pre2 text post v ms r1,
        r = w ++ 58 :: (pre2 ++ text ++ post ++ (commaMembers ms ++ 125 :: r1)) ∧
        IsWs w ∧ IsWs pre2 ∧ IsWs post ∧ (∃ d, Value d text v) ∧ (∀ m ∈ ms, MemOK m) ∧
        After t r1
    else False

/-- A value and then what may follow it. -/
def ValueThen (ps s : List Nat) : Prop :=
  ∃ w body r, s = w ++ (body ++ r) ∧ IsWs w ∧ (∃ d v, Value d body v) ∧ After ps r

/-- A quoted key and then what may follow it. -/
def KeyThen (ps s : List Nat) : Prop :=
  ∃ w key r, s = w ++ 34 :: (key ++ 34 :: r) ∧ IsWs w ∧ StringBody key ∧ After ps r

/-- The rest of a string body and then what may follow the string; `pre` is the
part of an escape sequence already read, given the hexadecimal digits `hs`. -/
def StringThen (pre : List Nat → List Nat) (k : Nat) (ps s : List Nat) : Prop :=
  ∃ b r, s = b ++ 34 :: r ∧
    (∀ hs : List Nat, hs.length = k → (∀ h ∈ hs, IsHexDigit h) → StringBody (pre hs ++ b)) ∧
    After ps r

/-- The rest of a number literal, by the state the scanner is in. -/
def NumTail : StepFn → List Nat → Prop
  | .stateNeg, n => ∃ i f e, n = i ++ (f ++ e) ∧ IsInt i ∧ IsFrac f ∧ IsExp e
  | .state0, n => ∃ f e, n = f ++ e ∧ IsFrac f ∧ IsExp e
  | .state1, n => ∃ ds f e, n = ds ++ (f ++ e) ∧ IsDigits ds ∧ IsFrac f ∧ IsExp e
  | .stateDot, n => ∃ ds e, n = ds ++ e ∧ ds ≠ [] ∧ IsDigits ds ∧ IsExp e
  | .stateDot0, n => ∃ ds e, n = ds ++ e ∧ IsDigits ds ∧ IsExp e
  | .stateE, n => ∃ sign ds, n = sign ++ ds ∧ (sign = [] ∨ sign = [43] ∨ sign = [45]) ∧
      ds ≠ [] ∧ IsDigits ds
  | .stateESign, n => n ≠ [] ∧ IsDigits n
  | .stateE0, n => IsDigits n
  | _, _ => False

/-- The rest of a number literal and then what may follow it. -/
def NumThen (st : StepFn) (ps s : List Nat) : Prop :=
  ∃ n r, s = n ++ r ∧ NumTail st n ∧ After ps r

/-- The given remaining letters of a literal name and then what may follow. -/
def LitThen (letters ps s : List Nat) : Prop :=
  ∃ r, s = letters ++ r ∧ After ps r

/-- `Suffix st ps s`: the text `s` completes a JSON text when the scanner is in
state `st` with stack `ps`. -/
def Suffix : StepFn → List Nat → List Nat → Prop
  | .stateBeginValue, ps, s => ValueThen ps s
  | .stateBeginValueOrEmpty, ps, s =>
    (∃ w r1, s = w ++ 93 :: r1 ∧ IsWs w ∧ ∃ t, ps = parseArrayValue :: t ∧ After t r1) ∨
      ValueThen ps s
  | .stateBeginStringOrEmpty, ps, s =>
    (∃ w r1, s = w ++ 125 :: r1 ∧ IsWs w ∧ After ps.tail r1) ∨ KeyThen ps s
  | .stateBeginString, ps, s => KeyThen ps s
  | .stateEndValue, ps, s => After ps s
  | .stateEndTop, _, s => IsWs s
  | .stateInString, ps, s => StringThen (fun _ => []) 0 ps s
  | .stateInStringEsc, ps, s => StringThen (fun _ => [92]) 0 ps s
  | .stateInStringEscU, ps, s => StringThen (fun _ => [92, 117]) 0 ps s
  | .stateInStringEscU1, ps, s => StringThen (fun hs => 92 :: 117 :: hs) 1 ps s
  | .stateInStringEscU12, ps, s => StringThen (fun hs => 92 :: 117 :: hs) 2 ps s
  | .stateInStringEscU123, ps, s => StringThen (fun hs => 92 :: 117 :: hs) 3 ps s
  | .stateNeg, ps, s => NumThen .stateNeg ps s
  | .state1, ps, s => NumThen .state1 ps s
  | .state0, ps, s => NumThen .state0 ps s
  | .stateDot, ps, s => NumThen .stateDot ps s
  | .stateDot0, ps, s => NumThen .stateDot0 ps s
  | .stateE, ps, s => NumThen .stateE ps s
  | .stateESign, ps, s => NumThen .stateESign ps s
  | .stateE0, ps, s => NumThen .stateE0 ps s
  | .stateT, ps, s => LitThen [114, 117, 101] ps s
  | .stateTr, ps, s => LitThen [117, 101] ps s
  | .stateTru, ps, s => LitThen [101] ps s
  | .stateF, ps, s => LitThen [97, 108, 115, 101] ps s
  | .stateFa, ps, s => LitThen [108, 115, 101] ps s
  | .stateFal, ps, s => LitThen [115, 101] ps s
  | .stateFals, ps, s => LitThen [101] ps s
  | .stateN, ps, s => LitThen [117, 108, 108] ps s
  | .stateNu, ps, s => LitThen [108, 108] ps s
  | .stateNul, ps, s => LitThen [108] ps s
  | .stateError, _, _ => False

/-! ## Nesting depth -/

/-- The text of `k + 1` nested arrays, the innermost empty: `k + 1` opening
brackets followed by `k + 1` closing brackets. -/
def nestedArrays : Nat → List Nat
  | 0 => [91, 93]
  | k + 1 => 91 :: (nestedArrays k ++ [93])

/-- The value of `nestedArrays k`. -/
def nestedValue : Nat → JValue
  | 0 => .array []
  | k + 1 => .array [nestedValue k]

/-! ## The grammar is unambiguous -/

/-- A byte that can occur in a number literal. -/
def NumChar (c : Nat) : Prop :=
  (48 ≤ c ∧ c ≤ 57) ∨ c = 43 ∨ c = 45 ∨ c = 46 ∨ c = 69 ∨ c = 101

/-- The text `r` is empty or begins with a byte outside `P`. -/
def StartsOutside (P : Nat → Prop) (r : List Nat) : Prop :=
  ∀ c t, r = c :: t → ¬ P c

/-- A byte that is whitespace. -/
def WsChar (c : Nat) : Prop := isWhitespace c = true

/-- A byte that can begin a value. -/
def ValHead (c : Nat) : Prop :=
  c = 110 ∨ c = 116 ∨ c = 102 ∨ c = 34 ∨ c = 91 ∨ c = 123 ∨ c = 45 ∨ (48 ≤ c ∧ c ≤ 57)

/-- The text `t` with value `v` is the only value text that a text beginning
with `t` can begin with, given that what follows cannot continue a number. -/
def UniqueAt (t : List Nat) (v : JValue) : Prop :=
  ∀ (d1 : Nat) (t1 : List Nat) (v1 : JValue) (r r1 : List Nat), Value d1 t1 v1 →
    t ++ r = t1 ++ r1 → StartsOutside NumChar r → StartsOutside NumChar r1 →
    t = t1 ∧ v = v1

/-- The text `s` begins with a comma or a closing bracket or brace. -/
def Delim (s : List Nat) : Prop :=
  ∃ c t, s = c :: t ∧ (c = 44 ∨ c = 93 ∨ c = 125)

/-! ## Paths -/

/-- The function `os.IsPathSeparator`: the slash, and on Windows the backslash
too. -/
def IsPathSeparator (windows : Bool) (c : Nat) : Bool :=
  c == 47 || (windows && c == 92)

/-- The loop of `filepath.Ext`,
`for i := len(path) - 1; i >= 0 && !os.IsPathSeparator(path[i]); i--`,
entered with `i + 1` as the argument. -/
def extLoop (windows : Bool) (path : List Nat) : Nat → List Nat
  | 0 => []
  | i + 1 =>
    if IsPathSeparator windows (path.getD i 0) then []
    else if path.getD i 0 == 46 then path.drop i
    else extLoop windows path i

/-- The function `filepath.Ext`. -/
def Ext (windows : Bool) (path : List Nat) : List Nat :=
  extLoop windows path path.length

/-- The output path of `FormatJson`:
`path[:len(path)-len(ext)] + "_output" + ext` with `ext := filepath.Ext(path)`. -/
def outputName (windows : Bool) (path : List Nat) : List Nat :=
  slice path 0 (path.length - (Ext windows path).length) ++ bytesOf "_output" ++
    Ext windows path

/-- The extension of a path as the specification words it: a suffix of the
path which is either empty, no separator-free suffix of the path (so the final
element) holding a dot, or a dot followed by bytes that are neither a dot nor
a separator. -/
def IsExtensionOf (windows : Bool) (path ext : List Nat) : Prop :=
  (∃ stem, path = stem ++ ext) ∧
  ((ext = [] ∧ ∀ dir el, path = dir ++ el →
      (∀ c ∈ el, IsPathSeparator windows c = false) → 46 ∉ el) ∨
   (∃ rest, ext = 46 :: rest ∧ 46 ∉ rest ∧
      ∀ c ∈ rest, IsPathSeparator windows c = false))

/-! ## The file system -/

/-- What a location holds: a regular file with its content, a directory, or a
symbolic link with its target path. -/
inductive Entry where
  | file (data : List Nat)
  | dir
  | symlink (target : List Nat)
  deriving DecidableEq, Repr

/-- The errors of the file operations. -/
inductive OSError where
  | notExist | isDirectory | notDirectory | invalid | tooManyLinks | readFailed
  deriving DecidableEq, Repr

/-- The place of an entry in the tree of directories: the names on the way
from the root directory down to it, the root being the empty list. Different
paths can lead to one location. -/
abbrev Loc := List (List Nat)

/-- A file system as a process sees it: what each location holds, the working
directory, the key under which a directory keeps a name (the name itself where
names are case-sensitive, its folded form elsewhere), and how many symbolic
links one path resolution may follow. -/
structure FileSystem where
  entries : Loc → Option Entry
  cwd : Loc
  fold : List Nat → List Nat
  linkLimit : Nat

/-- Whether the path `q` lies beneath the path `d` as a string: `q` is `d`, a
separator, and more. -/
def beneath (windows : Bool) (d q : List Nat) : Bool :=
  decide (d.length < q.length) && (q.take d.length == d) &&
    IsPathSeparator windows (q.getD d.length 0)

/-- The components of a path: the pieces between its separators. -/
def components (windows : Bool) : List Nat → List (List Nat)
  | [] => [[]]
  | c :: rest =>
    if IsPathSeparator windows c then [] :: components windows rest
    else
      match components windows rest with
      | [] => [[c]]
      | x :: xs => (c :: x) :: xs

/-- Where the resolution of a path starts: at the root for a path that begins
with a separator, at the directory `cur` otherwise. -/
def startOf (windows : Bool) (cur : Loc) (path : List Nat) : Loc :=
  match path with
  | [] => cur
  | c :: _ => if IsPathSeparator windows c then [] else cur

/-- What a path resolves to: an entry at a location, or a location that holds
nothing in a directory that exists. -/
inductive Resolved where
  | found (loc : Loc) (e : Entry)
  | absent (loc : Loc)
  deriving DecidableEq, Repr

/-- The location of a resolution. -/
def Resolved.loc : Resolved → Loc
  | .found loc _ => loc
  | .absent loc => loc

/-- Whether the location is a directory that exists; the root always is. -/
def isDirAt (entries : Loc → Option Entry) (cur : Loc) : Bool :=
  cur == [] || entries cur == some .dir

/-- Path resolution, component by component, from the directory `cur`: empty
components and `.` stay, `..` goes to the parent, a name goes to the entry of
that name. A directory is entered, a file or a missing name must be the last
component, and a symbolic link is handed to `onLink` with the components still
to come, unless it is the last component and links are not to be followed
there. -/
def walkList (entries : Loc → Option Entry) (fold : List Nat → List Nat) (follow : Bool)
    (onLink : Loc → List Nat → List (List Nat) → Except OSError Resolved) :
    Loc → List (List Nat) → Except OSError Resolved
  | cur, [] => if isDirAt entries cur then .ok (.found cur .dir) else .error .notExist
  | cur, c :: rest =>
    if !isDirAt entries cur then .error .notExist
    else if c == [] || c == [46] then walkList entries fold follow onLink cur rest
    else if c == [46, 46] then walkList entries fold follow onLink cur.dropLast rest
    else
      match entries (cur ++ [fold c]) with
      | none =>
        if rest.isEmpty then .ok (.absent (cur ++ [fold c])) else .error .notExist
      | some .dir => walkList entries fold follow onLink (cur ++ [fold c]) rest
      | some (.file data) =>
        if rest.isEmpty then .ok (.found (cur ++ [fold c]) (.file data))
        else .error .notDirectory
      | some (.symlink target) =>
        if rest.isEmpty && !follow then .ok (.found (cur ++ [fold c]) (.symlink target))
        else onLink cur target rest

/-- Path resolution that may follow `n` symbolic links: the target of a link
is resolved from the directory of the link (from the root when it begins with a
separator) and the components still to come follow it. -/
def walkN (windows : Bool) (entries : Loc → Option Entry) (fold : List Nat → List Nat)
    (follow : Bool) : Nat → Loc → List (List Nat) → Except OSError Resolved
  | 0 => walkList entries fold follow (fun _ _ _ => .error .tooManyLinks)
  | n + 1 => walkList entries fold follow (fun cur target rest =>
      if target.isEmpty then .error .notExist
      else walkN windows entries fold follow n (startOf windows cur target)
        (components windows target ++ rest))

/-- The resolution of a path by the operating system, following a symbolic
link in the last place when `follow` is set. -/
def resolve (windows : Bool) (fs : FileSystem) (follow : Bool) (path : List Nat) :
    Except OSError Resolved :=
  if path.isEmpty then .error .notExist
  else walkN windows fs.entries fs.fold follow fs.linkLimit
    (startOf windows fs.cwd path) (components windows path)

/-- The location a path names, a symbolic link in the last place not being
followed: where its entry is, or where it would be. -/
def entryNamed (windows : Bool) (fs : FileSystem) (path : List Nat) : Option Loc :=
  match resolve windows fs false path with
  | .ok r => some r.loc
  | .error _ => none

/-- The function `os.ReadFile`: the content of the file the path resolves to,
links followed. -/
def ReadFile (windows : Bool) (fs : FileSystem) (name : List Nat) :
    Except OSError (List Nat) :=
  match resolve windows fs true name with
  | .error err => .error err
  | .ok (.found _ (.file data)) => .ok data
  | .ok (.found _ .dir) => .error .isDirectory
  | .ok (.found _ (.symlink _)) => .error .tooManyLinks
  | .ok (.absent _) => .error .notExist

/-- The test `endsWithDot` of `os.RemoveAll`: the path is `.` or ends in a
separator and a dot. -/
def endsWithDot (windows : Bool) (path : List Nat) : Bool :=
  path == [46] ||
    (decide (2 ≤ path.length) && (path.getD (path.length - 1) 0 == 46) &&
      IsPathSeparator windows (path.getD (path.length - 2) 0))

/-- The function `os.RemoveAll`: nothing for the empty path, an error for a
path ending in a dot element, and otherwise the entry the path names (a link
in the last place is not followed) and everything beneath it are gone; a path
that names nothing is no error. -/
def RemoveAll (windows : Bool) (fs : FileSystem) (path : List Nat) :
    Except OSError FileSystem :=
  if path.isEmpty then .ok fs
  else if endsWithDot windows path then .error .invalid
  else
    match resolve windows fs false path with
    | .error .notExist => .ok fs
    | .error err => .error err
    | .ok (.absent _) => .ok fs
    | .ok (.found loc _) =>
      .ok { fs with entries := fun q => if loc.isPrefixOf q then none else fs.entries q }

/-- The function `os.WriteFile`: the file the name resolves to, links
followed, is created or truncated and holds `data`; it fails on a directory
and when the name does not resolve. The permission bits are left out. -/
def WriteFile (windows : Bool) (fs : FileSystem) (name data : List Nat) :
    Except OSError FileSystem :=
  match resolve windows fs true name with
  | .error err => .error err
  | .ok (.found _ .dir) => .error .isDirectory
  | .ok (.found _ (.symlink _)) => .error .tooManyLinks
  | .ok (.found loc (.file _)) =>
    .ok { fs with entries := fun q => if q == loc then some (.file data) else fs.entries q }
  | .ok (.absent loc) =>
    .ok { fs with entries := fun q => if q == loc then some (.file data) else fs.entries q }

/-! ## The process -/

/-- A line of the logger. The time and source position that the logger puts
in front are left out. -/
inductive LogEntry where
  | readFailed (err : OSError)
  | minifyFailed (err : SyntaxError)
  | converted (path name : List Nat)
  deriving DecidableEq, Repr

/-- What the program can change: the file system, standard output and the
log on standard error. -/
structure World where
  fs : FileSystem
  stdout : List Nat
  stderr : List LogEntry

/-- How a call ends: it returns, the process exits with a status
(`os.Exit`, and `log.Fatalf` with status 1), or it panics. -/
inductive Outcome (α : Type) where
  | returned (a : α)
  | exited (code : Nat)
  | panicked
  deriving DecidableEq, Repr

/-- The exit status of the process for an outcome of `main`. An uncaught panic
ends a Go program with status 2. -/
def Outcome.status {α : Type} : Outcome α → Nat
  | .returned _ => 0
  | .exited code => code
  | .panicked => 2

/-- The call `log.Fatalf`: a line on the log, then `os.Exit(1)`. -/
def logFatalf {α : Type} (w : World) (e : LogEntry) : World × Outcome α :=
  ({ w with stderr := w.stderr ++ [e] }, .exited 1)

/-- The call `log.Printf`. -/
def logPrintf (w : World) (e : LogEntry) : World :=
  { w with stderr := w.stderr ++ [e] }

/-- The call `fmt.Println` of one string: its bytes and a line feed. -/
def Println (w : World) (s : List Nat) : World :=
  { w with stdout := w.stdout ++ s ++ [10] }

/-- The function `FormatJson`. The result is the pair `(string, error)` of the
Go function, the string being empty beside an error. -/
def FormatJson (windows : Bool) (w : World) (path : List Nat) :
    World × Outcome (Except OSError (List Nat)) :=
  match ReadFile windows w.fs path with
  | .error err => (w, .returned (.error err))
  | .ok data =>
    match minifyJSON data with
    | .error err => logFatalf w (.minifyFailed err)
    | .ok minified =>
      let name := outputName windows path
      let w1 := logPrintf w (.converted path name)
      match RemoveAll windows w1.fs name with
      | .error err => (w1, .returned (.error err))
      | .ok fs1 =>
        match WriteFile windows fs1 name minified with
        | .error err => ({ w1 with fs := fs1 }, .returned (.error err))
        | .ok fs2 => ({ w1 with fs := fs2 }, .returned (.ok name))

/-- The function `FromStdin`; `stdin` is what `io.ReadAll(os.Stdin)` gives. -/
def FromStdin (w : World) (stdin : Except OSError (List Nat)) : World × Outcome Unit :=
  match stdin with
  | .error err => logFatalf w (.readFailed err)
  | .ok data =>
    match minifyJSON data with
    | .error err => logFatalf w (.minifyFailed err)
    | .ok minified => (Println w minified, .returned ())

/-- The struct `Args`. -/
structure Args where
  Input : List (List Nat)
  Debug : Bool
  Version : Bool

/-- What the program takes from its surroundings and from the argument
library: the platform, the error of `arg.NewParser` if any, the result of
`parser.Parse` on an argument list (the error by its message), the help text
that `ShowHelp` prints, and the line that `ShowVersion` prints. -/
structure Env where
  windows : Bool
  newParserErr : Option (List Nat)
  parse : List (List Nat) → Except String Args
  helpText : List Nat
  versionLine : List Nat

/-- The message of the library error for a help request. -/
def errHelp : String := "help requested by user"

/-- The message of the library error for a version request. -/
def errVersion : String := "version requested by user"

/-- The function `ShowHelp`: the help text and a line feed, the string `post`
on a line of its own unless empty, and `os.Exit(1)`. -/
def ShowHelp {α : Type} (env : Env) (w : World) (post : List Nat) : World × Outcome α :=
  let w1 : World := { w with stdout := w.stdout ++ env.helpText ++ [10] }
  let w2 := if post.length != 0 then Println w1 post else w1
  (w2, .exited 1)

/-- The function `ShowVersion`: the version line and `os.Exit(0)`. -/
def ShowVersion {α : Type} (env : Env) (w : World) : World × Outcome α :=
  ({ w with stdout := w.stdout ++ env.versionLine }, .exited 0)

/-- The loop `for _, in := range args.Input` of `main`. -/
def mainLoop (env : Env) (args : Args) : World → List (List Nat) → World × Outcome Unit
  | w, [] => (w, .returned ())
  | w, p :: rest =>
    match FormatJson env.windows w p with
    | (w1, .returned (.ok str)) =>
      mainLoop env args (if args.Debug then Println w1 str else w1) rest
    | (w1, .returned (.error _)) => (w1, .panicked)
    | (w1, .exited code) => (w1, .exited code)
    | (w1, .panicked) => (w1, .panicked)

/-- The function `main`, for the argument vector `osArgs` (`os.Args`). -/
def main (env : Env) (w : World) (osArgs : List (List Nat))
    (stdin : Except OSError (List Nat)) : World × Outcome Unit :=
  if osArgs.length == 1 then FromStdin w stdin
  else
    match env.newParserErr with
    | some msg => ShowHelp env w msg
    | none =>
      match env.parse (osArgs.drop 1) with
      | .error err =>
        if err == errHelp then ShowHelp env w []
        else if err == errVersion then ShowVersion env w
        else (w, .panicked)
      | .ok args =>
        if args.Version then ShowVersion env w
        else mainLoop env args w args.Input

/-! ## Path resolution -/

/-- The length of the last of the components. -/
def lastLen : List (List Nat) → Nat
  | [] => 0
  | [c] => c.length
  | _ :: y :: r => lastLen (y :: r)

/-- The last component is a name: not empty, not `.` and not `..`. -/
def properLast : List (List Nat) → Bool
  | [] => false
  | [c] => !(c == [] || c == [46] || c == [46, 46])
  | _ :: y :: r => properLast (y :: r)

/-- The result is a symbolic link that was not followed. -/
def IsLinkResult (r : Except OSError Resolved) : Prop :=
  ∃ l t, r = .ok (.found l (.symlink t))

/-- The result is an error or names the location `L` as holding nothing. -/
def FailsOrAbsent (L : Loc) (r : Except OSError Resolved) : Prop :=
  (∃ err, r = .error err) ∨ r = .ok (.absent L)

/-- The result is an entry found at the location `L`. -/
def FoundAt (L : Loc) (r : Except OSError Resolved) : Prop :=
  ∃ e, r = .ok (.found L e)

/-- A resolution to a file or to a missing name tells what the location
holds, and the location is not the root. -/
def Truthful (E : Loc → Option Entry) (r : Except OSError Resolved) : Prop :=
  (∀ l d, r = .ok (.found l (.file d)) → E l = some (.file d) ∧ l ≠ []) ∧
  (∀ l, r = .ok (.absent l) → E l = none ∧ l ≠ [])

/-- A resolution seen again after a file was written at `loc0`. -/
def adjust (loc0 : Loc) (m : List Nat) (res : Resolved) : Resolved :=
  if res.loc = loc0 then .found loc0 (.file m) else res

/-- Whatever the first resolution gives, the second gives the same seen after
the write. -/
def AfterWrite (loc0 : Loc) (m : List Nat) (r r1 : Except OSError Resolved) : Prop :=
  ∀ res, r = .ok res → r1 = .ok (adjust loc0 m res)

/-! ## The file operations -/

/-- The file system with the file `data` at the location `loc`. -/
def withFile (fs : FileSystem) (loc : Loc) (data : List Nat) : FileSystem :=
  { fs with entries := fun q => if q == loc then some (.file data) else fs.entries q }

/-- The file system without the entry at `loc` and what lies beneath it. -/
def without (fs : FileSystem) (loc : Loc) : FileSystem :=
  { fs with entries := fun q => if loc.isPrefixOf q then none else fs.entries q }

/-! ## Resolution away from a changed entry -/

/-- The second resolution gives what the first gives whenever the first starts
and ends away from `L`. -/
def SameOutside (L : Loc) (r r1 : Loc → Except OSError Resolved) : Prop :=
  ∀ cur res, L.isPrefixOf cur = false → r cur = .ok res →
    L.isPrefixOf res.loc = false → r1 cur = .ok res

/-! ## A sample document -/

/-- The sample input of the stdin mode: an object of two members over four
lines. -/
def sampleText : List Nat :=
  bytesOf "\x7b\n  \"a\": 1,\n  \"b\": [1, 2, 3]\n\x7d"

/-- The sample input without its insignificant whitespace. -/
def sampleCompact : List Nat := bytesOf "\x7b\"a\":1,\"b\":[1,2,3]\x7d"

/-- The value of the sample input. -/
def sampleValue : JValue :=
  .object [([97], .number [49]),
    ([98], .array [.number [49], .number [50], .number [51]])]

/-- The elements of the array of the sample input. -/
def sampleElements : List Element :=
  [⟨[], [49], [], .number [49]⟩, ⟨[32], [50], [], .number [50]⟩,
    ⟨[32], [51], [], .number [51]⟩]

/-- The members of the sample input. -/
def sampleMembers : List Member :=
  [⟨[10, 32, 32], [97], [], [32], [49], [], .number [49]⟩,
    ⟨[10, 32, 32], [98], [], [32], bytesOf "[1, 2, 3]", [10],
      .array [.number [49], .number [50], .number [51]]⟩]

/-! ## Invalid input -/

/-- A world with no file and nothing written. Names are case-sensitive, the
working directory is the root and 40 links may be followed. -/
def emptyWorld : World := ⟨⟨fun _ => none, [], id, 40⟩, [], []⟩

/-- An object whose member has no value. -/
def invalidNoValue : List Nat := bytesOf "\x7b\"a\":\x7d"

/-- An array cut off after a comma. -/
def invalidCutOff : List Nat := bytesOf "[1,2,"

/-- An object whose member has a space for a value. -/
def invalidSpaceValue : List Nat := bytesOf "\x7b\"a\": \x7d"

/-! ## The file system effects of `FormatJson` -/

/-- A file system with the working directory at the root, case-sensitive
names and room for 40 links. -/
def plainFS (entries : Loc → Option Entry) : FileSystem := ⟨entries, [], id, 40⟩

/-- A world where `x.json` holds `{"k": "v"}` and `x_output.json` holds
earlier content. -/
def sampleWorld : World :=
  ⟨plainFS fun q =>
    if q == [bytesOf "x.json"] then some (.file (bytesOf "\x7b\"k\": \"v\"\x7d"))
    else if q == [bytesOf "x_output.json"] then
      some (.file (bytesOf "earlier content, longer than the new content"))
    else none, [], []⟩

/-- A world where `x.json` holds `1`, `x_output.json` is a directory with a
file `keep` in it, and `notes.txt` is another file. -/
def dirWorld : World :=
  ⟨plainFS fun q =>
    if q == [bytesOf "x.json"] then some (.file [49])
    else if q == [bytesOf "x_output.json"] then some .dir
    else if q == [bytesOf "x_output.json", bytesOf "keep"] then some (.file [50])
    else if q == [bytesOf "notes.txt"] then some (.file [51])
    else none, [], []⟩

/-- A world where `x_output.json` holds `[ 1 ]` and `x.json` is a symbolic
link to it. -/
def linkWorld : World :=
  ⟨plainFS fun q =>
    if q == [bytesOf "x.json"] then some (.symlink (bytesOf "x_output.json"))
    else if q == [bytesOf "x_output.json"] then some (.file (bytesOf "[ 1 ]"))
    else none, [], []⟩

/-! ## Argument errors in `main` -/

/-- The message of a parser error for an argument that is not known. -/
def errUnknown : String := "unknown argument --frobnicate"

/-- An environment whose parser rejects every argument list and whose help
text is the line `Usage: jsonminify`. -/
def rejectingEnv : Env :=
  ⟨false, none, fun _ => .error errUnknown, bytesOf "Usage: jsonminify",
    bytesOf "jsonminify version 0.0.1\n"⟩

/-! ## Theorems -/

theorem isSpace_eq (c : Nat) : isSpace c = isWhitespace c := by
  unfold isSpace isWhitespace
  by_cases h : c ≤ 32
  · simp [h, Bool.or_comm, Bool.or_assoc, Bool.or_left_comm]
  · have h9 : c ≠ 9 := by omega
    have h10 : c ≠ 10 := by omega
    have h13 : c ≠ 13 := by omega
    have h32 : c ≠ 32 := by omega
    simp [h, h9, h10, h13, h32]

theorem isWhitespace_iff (c : Nat) :
    isWhitespace c = true ↔ c = 32 ∨ c = 9 ∨ c = 10 ∨ c = 13 := by
  simp [isWhitespace, or_assoc]

theorem popParseState_mk (st : StepFn) (h : st ≠ .stateEndTop) (p : Nat) (t : List Nat) :
    (mkScanner st (p :: t)).popParseState = mkScanner (popStep t) t := by
  cases t <;> simp [Scanner.popParseState, mkScanner, popStep, h]

theorem stateEndValue_of_trans {ps : List Nat} {c : Nat} {st : StepFn} {ps1 : List Nat}
    {op : Nat} (h : EndValueTrans ps c st ps1 op) (st0 : StepFn) (h0 : st0 ≠ .stateEndTop) :
    stateEndValue (mkScanner st0 ps) c = (mkScanner st ps1, op) := by
  have e0 : (st0 == StepFn.stateEndTop) = false := by simpa using h0
  cases h with
  | topSpace c hw =>
    simp [stateEndValue, stateEndTop, mkScanner, isSpace_eq, hw]
  | space p t c hw =>
    simp [stateEndValue, mkScanner, isSpace_eq, hw, e0]
  | colon t =>
    simp [stateEndValue, mkScanner, isSpace, parseObjectKey, e0]
  | objectComma t =>
    simp [stateEndValue, mkScanner, isSpace, parseObjectKey, parseObjectValue, e0]
  | endObject =>
    rw [← popParseState_mk st0 h0 parseObjectValue ps1]
    simp [stateEndValue, isSpace, parseObjectKey, parseObjectValue, mkScanner]
  | arrayComma t =>
    simp [stateEndValue, mkScanner, isSpace, parseObjectKey, parseObjectValue,
      parseArrayValue, e0]
  | endArray =>
    rw [← popParseState_mk st0 h0 parseArrayValue ps1]
    simp [stateEndValue, isSpace, parseObjectKey, parseObjectValue, parseArrayValue, mkScanner]

theorem stateEndValue_inv (st0 : StepFn) (ps : List Nat) (c : Nat)
    (h : (stateEndValue (mkScanner st0 ps) c).1.err = none) :
    ∃ st ps1 op, EndValueTrans ps c st ps1 op := by
  by_cases hw : isWhitespace c = true
  · cases ps with
    | nil => exact ⟨_, _, _, .topSpace c hw⟩
    | cons p t => exact ⟨_, _, _, .space p t c hw⟩
  · cases ps with
    | nil => simp [stateEndValue, stateEndTop, mkScanner, isSpace_eq, hw, Scanner.error] at h
    | cons p t =>
      by_cases hp0 : p = parseObjectKey
      · subst hp0
        by_cases hc : c = 58
        · subst hc; exact ⟨_, _, _, .colon t⟩
        · simp [stateEndValue, mkScanner, isSpace_eq, hw, hc, Scanner.error] at h
      · by_cases hp1 : p = parseObjectValue
        · subst hp1
          by_cases hc : c = 44
          · subst hc; exact ⟨_, _, _, .objectComma t⟩
          · by_cases hc2 : c = 125
            · subst hc2; exact ⟨_, _, _, .endObject t⟩
            · simp [stateEndValue, mkScanner, isSpace_eq, hw, hc, hc2, hp0, Scanner.error] at h
        · by_cases hp2 : p = parseArrayValue
          · subst hp2
            by_cases hc : c = 44
            · subst hc; exact ⟨_, _, _, .arrayComma t⟩
            · by_cases hc2 : c = 93
              · subst hc2; exact ⟨_, _, _, .endArray t⟩
              · simp [stateEndValue, mkScanner, isSpace_eq, hw, hc, hc2, hp0, hp1,
                  Scanner.error] at h
          · simp [stateEndValue, mkScanner, isSpace_eq, hw, hp0, hp1, hp2, Scanner.error] at h

theorem stateBeginValue_of_trans {ps : List Nat} {c : Nat} {st : StepFn} {ps1 : List Nat}
    {op : Nat} (h : BeginValueTrans ps c st ps1 op) (st0 : StepFn)
    (h0 : st0 ≠ .stateEndTop) :
    stateBeginValue (mkScanner st0 ps) c = (mkScanner st ps1, op) := by
  have e0 : (st0 == StepFn.stateEndTop) = false := by simpa using h0
  cases h with
  | beginObject h =>
    have h1 : ps.length + 1 ≤ maxNestingDepth := h
    simp [stateBeginValue, Scanner.pushParseState, mkScanner, isSpace, h1, e0]
  | beginArray h =>
    have h1 : ps.length + 1 ≤ maxNestingDepth := h
    simp [stateBeginValue, Scanner.pushParseState, mkScanner, isSpace, h1, e0]
  | quote => simp [stateBeginValue, mkScanner, isSpace, e0]
  | minus => simp [stateBeginValue, mkScanner, isSpace, e0]
  | zero => simp [stateBeginValue, mkScanner, isSpace, e0]
  | t => simp [stateBeginValue, mkScanner, isSpace, e0]
  | f => simp [stateBeginValue, mkScanner, isSpace, e0]
  | n => simp [stateBeginValue, mkScanner, isSpace, e0]
  | digit c h1 h2 =>
    have a1 : ¬ c ≤ 32 := by omega
    have a2 : c ≠ 123 := by omega
    have a3 : c ≠ 91 := by omega
    have a4 : c ≠ 34 := by omega
    have a5 : c ≠ 45 := by omega
    have a6 : c ≠ 48 := by omega
    have a7 : c ≠ 116 := by omega
    have a8 : c ≠ 102 := by omega
    have a9 : c ≠ 110 := by omega
    simp [stateBeginValue, mkScanner, isSpace, e0, a1, a2, a3, a4, a5, a6, a7, a8, a9, h1, h2]

theorem stateBeginValue_inv (st0 : StepFn) (ps : List Nat) (c : Nat)
    (hw : isWhitespace c = false)
    (h : (stateBeginValue (mkScanner st0 ps) c).1.err = none) :
    ∃ st ps1 op, BeginValueTrans ps c st ps1 op := by
  by_cases a2 : c = 123
  · subst a2
    by_cases hd : ps.length + 1 ≤ maxNestingDepth
    · exact ⟨_, _, _, .beginObject hd⟩
    · simp [stateBeginValue, Scanner.pushParseState, mkScanner, isSpace, hd,
        Scanner.error] at h
  by_cases a3 : c = 91
  · subst a3
    by_cases hd : ps.length + 1 ≤ maxNestingDepth
    · exact ⟨_, _, _, .beginArray hd⟩
    · simp [stateBeginValue, Scanner.pushParseState, mkScanner, isSpace, hd,
        Scanner.error] at h
  by_cases a4 : c = 34
  · subst a4; exact ⟨_, _, _, .quote⟩
  by_cases a5 : c = 45
  · subst a5; exact ⟨_, _, _, .minus⟩
  by_cases a6 : c = 48
  · subst a6; exact ⟨_, _, _, .zero⟩
  by_cases a7 : c = 116
  · subst a7; exact ⟨_, _, _, .t⟩
  by_cases a8 : c = 102
  · subst a8; exact ⟨_, _, _, .f⟩
  by_cases a9 : c = 110
  · subst a9; exact ⟨_, _, _, .n⟩
  by_cases hd : 49 ≤ c ∧ c ≤ 57
  · exact ⟨_, _, _, .digit c hd.1 hd.2⟩
  · simp [stateBeginValue, mkScanner, isSpace_eq, hw, a2, a3, a4, a5, a6, a7, a8, a9, hd,
      Scanner.error] at h

theorem beginValueTrans_ne {ps : List Nat} {c : Nat} {st : StepFn} {ps1 : List Nat} {op : Nat}
    (h : BeginValueTrans ps c st ps1 op) : c ≠ 93 ∧ c ≠ 125 := by
  cases h <;> first | decide | omega

theorem endValueTrans_char {ps : List Nat} {c : Nat} {st : StepFn} {ps1 : List Nat} {op : Nat}
    (h : EndValueTrans ps c st ps1 op) :
    ¬ (48 ≤ c ∧ c ≤ 57) ∧ c ≠ 46 ∧ c ≠ 101 ∧ c ≠ 69 := by
  cases h with
  | topSpace c hw =>
    rcases (isWhitespace_iff c).1 hw with h | h | h | h <;> subst h <;> decide
  | space p t c hw =>
    rcases (isWhitespace_iff c).1 hw with h | h | h | h <;> subst h <;> decide
  | colon t => decide
  | objectComma t => decide
  | endObject => decide
  | arrayComma t => decide
  | endArray => decide

theorem mkScanner_with_parseState (st : StepFn) (ps ps1 : List Nat) :
    { mkScanner st ps with parseState := ps1 } = mkScanner st ps1 := rfl

theorem call_of_trans {st : StepFn} {ps : List Nat} {c : Nat} {st1 : StepFn} {ps1 : List Nat}
    {op : Nat} (h : Trans st ps c st1 ps1 op) :
    (mkScanner st ps).call c = (mkScanner st1 ps1, op) := by
  cases h with
  | beginValueSpace ps c hw =>
    simp [Scanner.call, mkScanner, stateBeginValue, isSpace_eq, hw]
  | beginValue ps c st ps1 op hw h =>
    simpa [Scanner.call, mkScanner] using stateBeginValue_of_trans h .stateBeginValue (by decide)
  | orEmptySpace ps c hw =>
    simp [Scanner.call, mkScanner, stateBeginValueOrEmpty, isSpace_eq, hw]
  | orEmptyEnd ps st ps1 op h =>
    have := stateEndValue_of_trans h .stateBeginValueOrEmpty (by decide)
    simpa [Scanner.call, mkScanner, stateBeginValueOrEmpty, isSpace] using this
  | orEmptyValue ps c st ps1 op hw h =>
    have := stateBeginValue_of_trans h .stateBeginValueOrEmpty (by decide)
    have hne := (beginValueTrans_ne h).1
    simpa [Scanner.call, mkScanner, stateBeginValueOrEmpty, isSpace_eq, hw, hne] using this
  | stringOrEmptySpace ps c hw =>
    simp [Scanner.call, mkScanner, stateBeginStringOrEmpty, isSpace_eq, hw]
  | stringOrEmptyEnd ps st ps1 op h =>
    have := stateEndValue_of_trans h .stateBeginStringOrEmpty (by decide)
    simpa [Scanner.call, mkScanner, stateBeginStringOrEmpty, isSpace] using this
  | stringOrEmptyQuote ps =>
    simp [Scanner.call, mkScanner, stateBeginStringOrEmpty, stateBeginString, isSpace]
  | beginStringSpace ps c hw =>
    simp [Scanner.call, mkScanner, stateBeginString, isSpace_eq, hw]
  | beginStringQuote ps =>
    simp [Scanner.call, mkScanner, stateBeginString, isSpace]
  | endValue ps c st ps1 op h =>
    simpa [Scanner.call, mkScanner] using stateEndValue_of_trans h .stateEndValue (by decide)
  | endTop ps c hw =>
    simp [Scanner.call, mkScanner, stateEndTop, isSpace_eq, hw]
  | stringEnd ps => simp [Scanner.call, mkScanner, stateInString]
  | stringBackslash ps => simp [Scanner.call, mkScanner, stateInString]
  | stringByte ps c h1 h2 h3 =>
    have h4 : ¬ c < 32 := by omega
    simp [Scanner.call, mkScanner, stateInString, h1, h2, h4]
  | esc ps c h =>
    rcases h with h | h | h | h | h | h | h | h <;> subst h <;>
      simp [Scanner.call, mkScanner, stateInStringEsc]
  | escU ps => simp [Scanner.call, mkScanner, stateInStringEsc]
  | hex1 ps c h => simp [Scanner.call, mkScanner, stateInStringEscU, h]
  | hex2 ps c h => simp [Scanner.call, mkScanner, stateInStringEscU1, h]
  | hex3 ps c h => simp [Scanner.call, mkScanner, stateInStringEscU12, h]
  | hex4 ps c h => simp [Scanner.call, mkScanner, stateInStringEscU123, h]
  | negZero ps => simp [Scanner.call, mkScanner, stateNeg]
  | negDigit ps c h1 h2 =>
    have a : c ≠ 48 := by omega
    simp [Scanner.call, mkScanner, stateNeg, a, h1, h2]
  | intDigit ps c h1 h2 => simp [Scanner.call, mkScanner, state1, h1, h2]
  | intDot ps => simp [Scanner.call, mkScanner, state1, state0]
  | intExp ps c h =>
    rcases h with h | h <;> subst h <;> simp [Scanner.call, mkScanner, state1, state0]
  | intEnd ps c st ps1 op h =>
    have := stateEndValue_of_trans h .state1 (by decide)
    obtain ⟨b1, b2, b3, b4⟩ := endValueTrans_char h
    simpa [Scanner.call, mkScanner, state1, state0, b1, b2, b3, b4] using this
  | zeroDot ps => simp [Scanner.call, mkScanner, state0]
  | zeroExp ps c h =>
    rcases h with h | h <;> subst h <;> simp [Scanner.call, mkScanner, state0]
  | zeroEnd ps c st ps1 op h =>
    have := stateEndValue_of_trans h .state0 (by decide)
    obtain ⟨b1, b2, b3, b4⟩ := endValueTrans_char h
    simpa [Scanner.call, mkScanner, state0, b1, b2, b3, b4] using this
  | dotDigit ps c h1 h2 => simp [Scanner.call, mkScanner, stateDot, h1, h2]
  | fracDigit ps c h1 h2 => simp [Scanner.call, mkScanner, stateDot0, h1, h2]
  | fracExp ps c h =>
    rcases h with h | h <;> subst h <;> simp [Scanner.call, mkScanner, stateDot0]
  | fracEnd ps c st ps1 op h =>
    have := stateEndValue_of_trans h .stateDot0 (by decide)
    obtain ⟨b1, b2, b3, b4⟩ := endValueTrans_char h
    simpa [Scanner.call, mkScanner, stateDot0, b1, b2, b3, b4] using this
  | expSign ps c h =>
    rcases h with h | h <;> subst h <;> simp [Scanner.call, mkScanner, stateE]
  | expDigit ps c h1 h2 =>
    have a1 : c ≠ 43 := by omega
    have a2 : c ≠ 45 := by omega
    simp [Scanner.call, mkScanner, stateE, stateESign, a1, a2, h1, h2]
  | signDigit ps c h1 h2 => simp [Scanner.call, mkScanner, stateESign, h1, h2]
  | exp0Digit ps c h1 h2 => simp [Scanner.call, mkScanner, stateE0, h1, h2]
  | exp0End ps c st ps1 op h =>
    have := stateEndValue_of_trans h .stateE0 (by decide)
    obtain ⟨b1, b2, b3, b4⟩ := endValueTrans_char h
    simpa [Scanner.call, mkScanner, stateE0, b1, b2, b3, b4] using this
  | litT ps => simp [Scanner.call, mkScanner, stateT, expectByte]
  | litTr ps => simp [Scanner.call, mkScanner, stateTr, expectByte]
  | litTru ps => simp [Scanner.call, mkScanner, stateTru, expectByte]
  | litF ps => simp [Scanner.call, mkScanner, stateF, expectByte]
  | litFa ps => simp [Scanner.call, mkScanner, stateFa, expectByte]
  | litFal ps => simp [Scanner.call, mkScanner, stateFal, expectByte]
  | litFals ps => simp [Scanner.call, mkScanner, stateFals, expectByte]
  | litN ps => simp [Scanner.call, mkScanner, stateN, expectByte]
  | litNu ps => simp [Scanner.call, mkScanner, stateNu, expectByte]
  | litNul ps => simp [Scanner.call, mkScanner, stateNul, expectByte]

theorem isWhitespace_false_of_ne (c : Nat) (h : ¬ isWhitespace c = true) :
    isWhitespace c = false := by simpa using h

theorem expectByte_inv (s : Scanner) (c want : Nat) (next : StepFn) (context : String)
    (h : (expectByte s c want next context).1.err = none) : c = want := by
  by_contra hc
  simp [expectByte, hc, Scanner.error] at h

theorem call_inv (st : StepFn) (ps : List Nat) (c : Nat) (hst : st ≠ .stateError)
    (h : ((mkScanner st ps).call c).1.err = none) :
    ∃ st1 ps1 op, Trans st ps c st1 ps1 op := by
  cases st with
  | stateError => exact absurd rfl hst
  | stateBeginValue =>
    by_cases hw : isWhitespace c = true
    · exact ⟨_, _, _, .beginValueSpace ps c hw⟩
    · have hw1 := isWhitespace_false_of_ne c hw
      obtain ⟨st1, ps1, op, ht⟩ := stateBeginValue_inv .stateBeginValue ps c hw1 h
      exact ⟨_, _, _, .beginValue ps c st1 ps1 op hw1 ht⟩
  | stateBeginValueOrEmpty =>
    by_cases hw : isWhitespace c = true
    · exact ⟨_, _, _, .orEmptySpace ps c hw⟩
    · have hw1 := isWhitespace_false_of_ne c hw
      by_cases hc : c = 93
      · subst hc
        have h1 : (stateEndValue (mkScanner .stateBeginValueOrEmpty ps) 93).1.err = none := by
          simpa [Scanner.call, mkScanner, stateBeginValueOrEmpty, isSpace] using h
        obtain ⟨st1, ps1, op, ht⟩ := stateEndValue_inv _ ps 93 h1
        exact ⟨_, _, _, .orEmptyEnd ps st1 ps1 op ht⟩
      · have h1 : (stateBeginValue (mkScanner .stateBeginValueOrEmpty ps) c).1.err = none := by
          simpa [Scanner.call, mkScanner, stateBeginValueOrEmpty, isSpace_eq, hw1, hc] using h
        obtain ⟨st1, ps1, op, ht⟩ := stateBeginValue_inv _ ps c hw1 h1
        exact ⟨_, _, _, .orEmptyValue ps c st1 ps1 op hw1 ht⟩
  | stateBeginStringOrEmpty =>
    by_cases hw : isWhitespace c = true
    · exact ⟨_, _, _, .stringOrEmptySpace ps c hw⟩
    · have hw1 := isWhitespace_false_of_ne c hw
      by_cases hc : c = 125
      · subst hc
        have h1 : (stateEndValue (mkScanner .stateBeginStringOrEmpty
            (parseObjectValue :: ps.tail)) 125).1.err = none := by
          simpa [Scanner.call, mkScanner, stateBeginStringOrEmpty, isSpace] using h
        obtain ⟨st1, ps1, op, ht⟩ := stateEndValue_inv _ _ 125 h1
        exact ⟨_, _, _, .stringOrEmptyEnd ps st1 ps1 op ht⟩
      · by_cases hq : c = 34
        · subst hq; exact ⟨_, _, _, .stringOrEmptyQuote ps⟩
        · simp [Scanner.call, mkScanner, stateBeginStringOrEmpty, stateBeginString, isSpace_eq,
            hw1, hc, hq, Scanner.error] at h
  | stateBeginString =>
    by_cases hw : isWhitespace c = true
    · exact ⟨_, _, _, .beginStringSpace ps c hw⟩
    · have hw1 := isWhitespace_false_of_ne c hw
      by_cases hq : c = 34
      · subst hq; exact ⟨_, _, _, .beginStringQuote ps⟩
      · simp [Scanner.call, mkScanner, stateBeginString, isSpace_eq, hw1, hq,
          Scanner.error] at h
  | stateEndValue =>
    obtain ⟨st1, ps1, op, ht⟩ := stateEndValue_inv .stateEndValue ps c h
    exact ⟨_, _, _, .endValue ps c st1 ps1 op ht⟩
  | stateEndTop =>
    by_cases hw : isWhitespace c = true
    · exact ⟨_, _, _, .endTop ps c hw⟩
    · have hw1 := isWhitespace_false_of_ne c hw
      simp [Scanner.call, mkScanner, stateEndTop, isSpace_eq, hw1, Scanner.error] at h
  | stateInString =>
    by_cases h1 : c = 34
    · subst h1; exact ⟨_, _, _, .stringEnd ps⟩
    by_cases h2 : c = 92
    · subst h2; exact ⟨_, _, _, .stringBackslash ps⟩
    by_cases h3 : c < 32
    · simp [Scanner.call, mkScanner, stateInString, h1, h2, h3, Scanner.error] at h
    · exact ⟨_, _, _, .stringByte ps c h1 h2 (by omega)⟩
  | stateInStringEsc =>
    by_cases h1 : c = 98 ∨ c = 102 ∨ c = 110 ∨ c = 114 ∨ c = 116 ∨ c = 92 ∨ c = 47 ∨ c = 34
    · exact ⟨_, _, _, .esc ps c h1⟩
    by_cases h2 : c = 117
    · subst h2; exact ⟨_, _, _, .escU ps⟩
    · simp only [not_or] at h1
      simp [Scanner.call, mkScanner, stateInStringEsc, h1, h2, Scanner.error] at h
  | stateInStringEscU =>
    by_cases h1 : isHex c = true
    · exact ⟨_, _, _, .hex1 ps c h1⟩
    · simp [Scanner.call, mkScanner, stateInStringEscU, h1, Scanner.error] at h
  | stateInStringEscU1 =>
    by_cases h1 : isHex c = true
    · exact ⟨_, _, _, .hex2 ps c h1⟩
    · simp [Scanner.call, mkScanner, stateInStringEscU1, h1, Scanner.error] at h
  | stateInStringEscU12 =>
    by_cases h1 : isHex c = true
    · exact ⟨_, _, _, .hex3 ps c h1⟩
    · simp [Scanner.call, mkScanner, stateInStringEscU12, h1, Scanner.error] at h
  | stateInStringEscU123 =>
    by_cases h1 : isHex c = true
    · exact ⟨_, _, _, .hex4 ps c h1⟩
    · simp [Scanner.call, mkScanner, stateInStringEscU123, h1, Scanner.error] at h
  | stateNeg =>
    by_cases h1 : c = 48
    · subst h1; exact ⟨_, _, _, .negZero ps⟩
    by_cases h2 : 49 ≤ c ∧ c ≤ 57
    · exact ⟨_, _, _, .negDigit ps c h2.1 h2.2⟩
    · simp [Scanner.call, mkScanner, stateNeg, h1, h2, Scanner.error] at h
  | state1 =>
    by_cases h1 : 48 ≤ c ∧ c ≤ 57
    · exact ⟨_, _, _, .intDigit ps c h1.1 h1.2⟩
    by_cases h2 : c = 46
    · subst h2; exact ⟨_, _, _, .intDot ps⟩
    by_cases h3 : c = 101 ∨ c = 69
    · exact ⟨_, _, _, .intExp ps c h3⟩
    · simp only [not_or] at h3
      have h4 : (stateEndValue (mkScanner .state1 ps) c).1.err = none := by
        simpa [Scanner.call, mkScanner, state1, state0, h1, h2, h3] using h
      obtain ⟨st1, ps1, op, ht⟩ := stateEndValue_inv _ ps c h4
      exact ⟨_, _, _, .intEnd ps c st1 ps1 op ht⟩
  | state0 =>
    by_cases h2 : c = 46
    · subst h2; exact ⟨_, _, _, .zeroDot ps⟩
    by_cases h3 : c = 101 ∨ c = 69
    · exact ⟨_, _, _, .zeroExp ps c h3⟩
    · simp only [not_or] at h3
      have h4 : (stateEndValue (mkScanner .state0 ps) c).1.err = none := by
        simpa [Scanner.call, mkScanner, state0, h2, h3] using h
      obtain ⟨st1, ps1, op, ht⟩ := stateEndValue_inv _ ps c h4
      exact ⟨_, _, _, .zeroEnd ps c st1 ps1 op ht⟩
  | stateDot =>
    by_cases h1 : 48 ≤ c ∧ c ≤ 57
    · exact ⟨_, _, _, .dotDigit ps c h1.1 h1.2⟩
    · simp [Scanner.call, mkScanner, stateDot, h1, Scanner.error] at h
  | stateDot0 =>
    by_cases h1 : 48 ≤ c ∧ c ≤ 57
    · exact ⟨_, _, _, .fracDigit ps c h1.1 h1.2⟩
    by_cases h3 : c = 101 ∨ c = 69
    · exact ⟨_, _, _, .fracExp ps c h3⟩
    · simp only [not_or] at h3
      have h4 : (stateEndValue (mkScanner .stateDot0 ps) c).1.err = none := by
        simpa [Scanner.call, mkScanner, stateDot0, h1, h3] using h
      obtain ⟨st1, ps1, op, ht⟩ := stateEndValue_inv _ ps c h4
      exact ⟨_, _, _, .fracEnd ps c st1 ps1 op ht⟩
  | stateE =>
    by_cases h1 : c = 43 ∨ c = 45
    · exact ⟨_, _, _, .expSign ps c h1⟩
    by_cases h2 : 48 ≤ c ∧ c ≤ 57
    · exact ⟨_, _, _, .expDigit ps c h2.1 h2.2⟩
    · simp only [not_or] at h1
      simp [Scanner.call, mkScanner, stateE, stateESign, h1, h2, Scanner.error] at h
  | stateESign =>
    by_cases h2 : 48 ≤ c ∧ c ≤ 57
    · exact ⟨_, _, _, .signDigit ps c h2.1 h2.2⟩
    · simp [Scanner.call, mkScanner, stateESign, h2, Scanner.error] at h
  | stateE0 =>
    by_cases h1 : 48 ≤ c ∧ c ≤ 57
    · exact ⟨_, _, _, .exp0Digit ps c h1.1 h1.2⟩
    · have h4 : (stateEndValue (mkScanner .stateE0 ps) c).1.err = none := by
        simpa [Scanner.call, mkScanner, stateE0, h1] using h
      obtain ⟨st1, ps1, op, ht⟩ := stateEndValue_inv _ ps c h4
      exact ⟨_, _, _, .exp0End ps c st1 ps1 op ht⟩
  | stateT =>
    have := expectByte_inv _ _ _ _ _ h; subst this; exact ⟨_, _, _, .litT ps⟩
  | stateTr =>
    have := expectByte_inv _ _ _ _ _ h; subst this; exact ⟨_, _, _, .litTr ps⟩
  | stateTru =>
    have := expectByte_inv _ _ _ _ _ h; subst this; exact ⟨_, _, _, .litTru ps⟩
  | stateF =>
    have := expectByte_inv _ _ _ _ _ h; subst this; exact ⟨_, _, _, .litF ps⟩
  | stateFa =>
    have := expectByte_inv _ _ _ _ _ h; subst this; exact ⟨_, _, _, .litFa ps⟩
  | stateFal =>
    have := expectByte_inv _ _ _ _ _ h; subst this; exact ⟨_, _, _, .litFal ps⟩
  | stateFals =>
    have := expectByte_inv _ _ _ _ _ h; subst this; exact ⟨_, _, _, .litFals ps⟩
  | stateN =>
    have := expectByte_inv _ _ _ _ _ h; subst this; exact ⟨_, _, _, .litN ps⟩
  | stateNu =>
    have := expectByte_inv _ _ _ _ _ h; subst this; exact ⟨_, _, _, .litNu ps⟩
  | stateNul =>
    have := expectByte_inv _ _ _ _ _ h; subst this; exact ⟨_, _, _, .litNul ps⟩

theorem endValueTrans_op {ps : List Nat} {c : Nat} {st : StepFn} {ps1 : List Nat} {op : Nat}
    (h : EndValueTrans ps c st ps1 op) : op ≠ scanError ∧ st ≠ .stateError := by
  cases h <;> simp [scanError, scanEnd, scanSkipSpace, scanObjectKey, scanObjectValue,
    scanEndObject, scanArrayValue, scanEndArray, popStep] <;> split <;> simp

theorem beginValueTrans_op {ps : List Nat} {c : Nat} {st : StepFn} {ps1 : List Nat} {op : Nat}
    (h : BeginValueTrans ps c st ps1 op) : op ≠ scanError ∧ st ≠ .stateError := by
  cases h <;> simp [scanError, scanBeginObject, scanBeginArray, scanBeginLiteral]

theorem trans_op {st : StepFn} {ps : List Nat} {c : Nat} {st1 : StepFn} {ps1 : List Nat}
    {op : Nat} (h : Trans st ps c st1 ps1 op) : op ≠ scanError ∧ st1 ≠ .stateError := by
  cases h <;>
    first
    | (exact endValueTrans_op (by assumption))
    | (exact beginValueTrans_op (by assumption))
    | simp [scanError, scanEnd, scanSkipSpace, scanContinue, scanBeginLiteral]

theorem slice_self (src : List Nat) (i : Nat) : slice src i i = [] := by
  simp [slice, List.drop_eq_nil_iff, List.length_take]

theorem slice_snoc (pre : List Nat) (c : Nat) (l : List Nat) (start : Nat)
    (h : start ≤ pre.length) :
    slice (pre ++ c :: l) start (pre.length + 1) = slice (pre ++ c :: l) start pre.length ++ [c] := by
  have h1 : (pre ++ c :: l).take (pre.length + 1) = pre ++ [c] := by
    rw [show pre ++ c :: l = (pre ++ [c]) ++ l by simp]
    rw [List.take_left' (by simp)]
  have h2 : (pre ++ c :: l).take pre.length = pre := List.take_left' rfl
  simp only [slice, h1, h2]
  exact List.drop_append_of_le_length h

theorem compactLoop_run {st : StepFn} {ps rest : List Nat} {st1 : StepFn} {ps1 out : List Nat}
    (h : Run st ps rest st1 ps1 out) :
    ∀ (pre : List Nat) (start : Nat) (dst : List Nat), start ≤ pre.length →
      ∃ start1 dst1,
        compactLoop (pre ++ rest) rest pre.length (mkScanner st ps) start dst
          = (mkScanner st1 ps1, start1, dst1) ∧
        dst1 ++ slice (pre ++ rest) start1 (pre ++ rest).length
          = dst ++ slice (pre ++ rest) start pre.length ++ out := by
  induction h with
  | nil st ps =>
    intro pre start dst _
    exact ⟨start, dst, by simp [compactLoop], by simp⟩
  | @cons st ps c st1 ps1 op l st2 ps2 out ht _ ih =>
    intro pre start dst hs
    have hcall := call_of_trans ht
    have hop := (trans_op ht).1
    have hsrc : pre ++ c :: l = (pre ++ [c]) ++ l := by simp
    have hlen : (pre ++ [c]).length = pre.length + 1 := by simp
    by_cases hskip : scanSkipSpace ≤ op
    · obtain ⟨start1, dst1, e1, e2⟩ :=
        ih (pre ++ [c]) (pre.length + 1) (dst ++ slice (pre ++ c :: l) start pre.length)
          (by simp)
      refine ⟨start1, dst1, ?_, ?_⟩
      · rw [← hsrc, hlen] at e1
        simp only [compactLoop, hcall, ge_iff_le, hskip, if_true]
        simpa [hop] using e1
      · rw [← hsrc, hlen] at e2
        rw [e2, slice_self]
        simp [hskip]
    · obtain ⟨start1, dst1, e1, e2⟩ := ih (pre ++ [c]) start dst (by simp; omega)
      refine ⟨start1, dst1, ?_, ?_⟩
      · rw [← hsrc, hlen] at e1
        simp only [compactLoop, hcall, ge_iff_le, hskip, if_false]
        exact e1
      · rw [← hsrc, hlen] at e2
        rw [e2, slice_snoc pre c l start hs]
        simp [hskip]

theorem ErrOK_ite (e0 : Bool) (c : Nat) (p : Prop) [Decidable p] (a b : Scanner × Nat)
    (ha : ErrOK e0 c a) (hb : ErrOK e0 c b) : ErrOK e0 c (if p then a else b) := by
  by_cases h : p
  · rw [if_pos h]; exact ha
  · rw [if_neg h]; exact hb

theorem ErrOK_error (s : Scanner) (c : Nat) (context : String) :
    ErrOK s.endTop c (s.error c context) := Or.inr ⟨rfl, rfl, Or.inl rfl⟩

theorem ErrOK_stateEndTop (s : Scanner) (e0 : Bool) (c : Nat) (hs : s.err = none) :
    ErrOK e0 c (stateEndTop s c) := by
  unfold stateEndTop
  by_cases h : (!isSpace c) = true
  · rw [if_pos h]
    exact Or.inr ⟨rfl, rfl, Or.inr (by simpa using h)⟩
  · rw [if_neg h]
    exact Or.inl hs

theorem ErrOK_popParseState (s : Scanner) (e0 : Bool) (c op : Nat) (hs : s.err = none) :
    ErrOK e0 c (s.popParseState, op) := by
  unfold Scanner.popParseState
  by_cases h : (s.parseState.length - 1 == 0) = true
  · simp only [h, if_true]; exact Or.inl hs
  · simp only [h, if_false]; exact Or.inl hs

theorem ErrOK_pushParseState (s : Scanner) (c n op : Nat) (hs : s.err = none) :
    ErrOK s.endTop c (s.pushParseState c n op) := by
  unfold Scanner.pushParseState
  apply ErrOK_ite
  · exact Or.inl hs
  · exact ErrOK_error _ _ _

theorem ErrOK_stateEndValue (s : Scanner) (c : Nat) (hs : s.err = none) :
    ErrOK s.endTop c (stateEndValue s c) := by
  unfold stateEndValue
  dsimp only
  repeat'
    first
    | exact ErrOK_popParseState _ _ _ _ hs
    | exact ErrOK_stateEndTop _ _ _ hs
    | apply ErrOK_ite
    | exact ErrOK_error _ _ _
    | exact Or.inl hs

theorem ErrOK_stateBeginValue (s : Scanner) (c : Nat) (hs : s.err = none) :
    ErrOK s.endTop c (stateBeginValue s c) := by
  unfold stateBeginValue
  repeat'
    first
    | exact ErrOK_pushParseState _ _ _ _ hs
    | apply ErrOK_ite
    | exact ErrOK_error _ _ _
    | exact Or.inl hs

theorem ErrOK_expectByte (s : Scanner) (c want : Nat) (next : StepFn) (context : String)
    (hs : s.err = none) : ErrOK s.endTop c (expectByte s c want next context) := by
  unfold expectByte
  apply ErrOK_ite
  · exact Or.inl hs
  · exact ErrOK_error _ _ _

theorem ErrOK_stateBeginValueOrEmpty (s : Scanner) (c : Nat) (hs : s.err = none) :
    ErrOK s.endTop c (stateBeginValueOrEmpty s c) := by
  unfold stateBeginValueOrEmpty
  repeat'
    first
    | exact ErrOK_stateEndValue _ _ hs
    | exact ErrOK_stateBeginValue _ _ hs
    | apply ErrOK_ite
    | exact ErrOK_error _ _ _
    | exact Or.inl hs

theorem ErrOK_stateBeginString (s : Scanner) (c : Nat) (hs : s.err = none) :
    ErrOK s.endTop c (stateBeginString s c) := by
  unfold stateBeginString
  repeat'
    first
    | apply ErrOK_ite
    | exact ErrOK_error _ _ _
    | exact Or.inl hs

theorem ErrOK_stateBeginStringOrEmpty (s : Scanner) (c : Nat) (hs : s.err = none) :
    ErrOK s.endTop c (stateBeginStringOrEmpty s c) := by
  unfold stateBeginStringOrEmpty
  repeat'
    first
    | exact ErrOK_stateEndValue _ _ hs
    | exact ErrOK_stateBeginString _ _ hs
    | apply ErrOK_ite
    | exact ErrOK_error _ _ _
    | exact Or.inl hs

theorem ErrOK_stateInString (s : Scanner) (c : Nat) (hs : s.err = none) :
    ErrOK s.endTop c (stateInString s c) := by
  unfold stateInString
  repeat'
    first
    | apply ErrOK_ite
    | exact ErrOK_error _ _ _
    | exact Or.inl hs

theorem ErrOK_stateInStringEsc (s : Scanner) (c : Nat) (hs : s.err = none) :
    ErrOK s.endTop c (stateInStringEsc s c) := by
  unfold stateInStringEsc
  repeat'
    first
    | apply ErrOK_ite
    | exact ErrOK_error _ _ _
    | exact Or.inl hs

theorem ErrOK_stateInStringEscU (s : Scanner) (c : Nat) (hs : s.err = none) :
    ErrOK s.endTop c (stateInStringEscU s c) := by
  unfold stateInStringEscU
  repeat'
    first
    | apply ErrOK_ite
    | exact ErrOK_error _ _ _
    | exact Or.inl hs

theorem ErrOK_stateInStringEscU1 (s : Scanner) (c : Nat) (hs : s.err = none) :
    ErrOK s.endTop c (stateInStringEscU1 s c) := by
  unfold stateInStringEscU1
  repeat'
    first
    | apply ErrOK_ite
    | exact ErrOK_error _ _ _
    | exact Or.inl hs

theorem ErrOK_stateInStringEscU12 (s : Scanner) (c : Nat) (hs : s.err = none) :
    ErrOK s.endTop c (stateInStringEscU12 s c) := by
  unfold stateInStringEscU12
  repeat'
    first
    | apply ErrOK_ite
    | exact ErrOK_error _ _ _
    | exact Or.inl hs

theorem ErrOK_stateInStringEscU123 (s : Scanner) (c : Nat) (hs : s.err = none) :
    ErrOK s.endTop c (stateInStringEscU123 s c) := by
  unfold stateInStringEscU123
  repeat'
    first
    | apply ErrOK_ite
    | exact ErrOK_error _ _ _
    | exact Or.inl hs

theorem ErrOK_stateNeg (s : Scanner) (c : Nat) (hs : s.err = none) :
    ErrOK s.endTop c (stateNeg s c) := by
  unfold stateNeg
  repeat'
    first
    | apply ErrOK_ite
    | exact ErrOK_error _ _ _
    | exact Or.inl hs

theorem ErrOK_state0 (s : Scanner) (c : Nat) (hs : s.err = none) :
    ErrOK s.endTop c (state0 s c) := by
  unfold state0
  repeat'
    first
    | exact ErrOK_stateEndValue _ _ hs
    | apply ErrOK_ite
    | exact ErrOK_error _ _ _
    | exact Or.inl hs

theorem ErrOK_state1 (s : Scanner) (c : Nat) (hs : s.err = none) :
    ErrOK s.endTop c (state1 s c) := by
  unfold state1
  repeat'
    first
    | exact ErrOK_state0 _ _ hs
    | apply ErrOK_ite
    | exact ErrOK_error _ _ _
    | exact Or.inl hs

theorem ErrOK_stateDot (s : Scanner) (c : Nat) (hs : s.err = none) :
    ErrOK s.endTop c (stateDot s c) := by
  unfold stateDot
  repeat'
    first
    | apply ErrOK_ite
    | exact ErrOK_error _ _ _
    | exact Or.inl hs

theorem ErrOK_stateDot0 (s : Scanner) (c : Nat) (hs : s.err = none) :
    ErrOK s.endTop c (stateDot0 s c) := by
  unfold stateDot0
  repeat'
    first
    | exact ErrOK_stateEndValue _ _ hs
    | apply ErrOK_ite
    | exact ErrOK_error _ _ _
    | exact Or.inl hs

theorem ErrOK_stateESign (s : Scanner) (c : Nat) (hs : s.err = none) :
    ErrOK s.endTop c (stateESign s c) := by
  unfold stateESign
  repeat'
    first
    | apply ErrOK_ite
    | exact ErrOK_error _ _ _
    | exact Or.inl hs

theorem ErrOK_stateE (s : Scanner) (c : Nat) (hs : s.err = none) :
    ErrOK s.endTop c (stateE s c) := by
  unfold stateE
  repeat'
    first
    | exact ErrOK_stateESign _ _ hs
    | apply ErrOK_ite
    | exact ErrOK_error _ _ _
    | exact Or.inl hs

theorem ErrOK_stateE0 (s : Scanner) (c : Nat) (hs : s.err = none) :
    ErrOK s.endTop c (stateE0 s c) := by
  unfold stateE0
  repeat'
    first
    | exact ErrOK_stateEndValue _ _ hs
    | apply ErrOK_ite
    | exact ErrOK_error _ _ _
    | exact Or.inl hs

theorem ErrOK_call (s : Scanner) (c : Nat) (hs : s.err = none) (hst : s.step ≠ .stateError) :
    ErrOK s.endTop c (s.call c) := by
  rcases s with ⟨step, endTop, ps, err⟩
  cases step with
  | stateBeginValueOrEmpty => exact ErrOK_stateBeginValueOrEmpty _ _ hs
  | stateBeginValue => exact ErrOK_stateBeginValue _ _ hs
  | stateBeginStringOrEmpty => exact ErrOK_stateBeginStringOrEmpty _ _ hs
  | stateBeginString => exact ErrOK_stateBeginString _ _ hs
  | stateEndValue => exact ErrOK_stateEndValue _ _ hs
  | stateEndTop => exact ErrOK_stateEndTop _ _ _ hs
  | stateInString => exact ErrOK_stateInString _ _ hs
  | stateInStringEsc => exact ErrOK_stateInStringEsc _ _ hs
  | stateInStringEscU => exact ErrOK_stateInStringEscU _ _ hs
  | stateInStringEscU1 => exact ErrOK_stateInStringEscU1 _ _ hs
  | stateInStringEscU12 => exact ErrOK_stateInStringEscU12 _ _ hs
  | stateInStringEscU123 => exact ErrOK_stateInStringEscU123 _ _ hs
  | stateNeg => exact ErrOK_stateNeg _ _ hs
  | state1 => exact ErrOK_state1 _ _ hs
  | state0 => exact ErrOK_state0 _ _ hs
  | stateDot => exact ErrOK_stateDot _ _ hs
  | stateDot0 => exact ErrOK_stateDot0 _ _ hs
  | stateE => exact ErrOK_stateE _ _ hs
  | stateESign => exact ErrOK_stateESign _ _ hs
  | stateE0 => exact ErrOK_stateE0 _ _ hs
  | stateT => exact ErrOK_expectByte _ _ _ _ _ hs
  | stateTr => exact ErrOK_expectByte _ _ _ _ _ hs
  | stateTru => exact ErrOK_expectByte _ _ _ _ _ hs
  | stateF => exact ErrOK_expectByte _ _ _ _ _ hs
  | stateFa => exact ErrOK_expectByte _ _ _ _ _ hs
  | stateFal => exact ErrOK_expectByte _ _ _ _ _ hs
  | stateFals => exact ErrOK_expectByte _ _ _ _ _ hs
  | stateN => exact ErrOK_expectByte _ _ _ _ _ hs
  | stateNu => exact ErrOK_expectByte _ _ _ _ _ hs
  | stateNul => exact ErrOK_expectByte _ _ _ _ _ hs
  | stateError => exact absurd rfl hst

theorem compactLoop_err (src : List Nat) (rest : List Nat) (i : Nat) (s : Scanner)
    (start : Nat) (dst : List Nat) (h1 : s.step = .stateError) (h2 : s.err.isSome = true) :
    (compactLoop src rest i s start dst).1.err.isSome = true := by
  cases rest with
  | nil => simpa [compactLoop] using h2
  | cons c l =>
    have hc : s.call c = (s, scanError) := by
      simp [Scanner.call, h1, stateError]
    simp [compactLoop, hc, scanError, scanSkipSpace, h2]

theorem call_mk_cases (st : StepFn) (ps : List Nat) (c : Nat) (hst : st ≠ .stateError) :
    (∃ st1 ps1 op, Trans st ps c st1 ps1 op ∧
        (mkScanner st ps).call c = (mkScanner st1 ps1, op)) ∨
      (((mkScanner st ps).call c).1.step = .stateError ∧
        ((mkScanner st ps).call c).1.err.isSome = true ∧
        (((mkScanner st ps).call c).1.endTop = (st == .stateEndTop) ∨ isSpace c = false)) := by
  rcases ErrOK_call (mkScanner st ps) c rfl hst with h | h
  · obtain ⟨st1, ps1, op, ht⟩ := call_inv st ps c hst h
    exact Or.inl ⟨st1, ps1, op, ht, call_of_trans ht⟩
  · exact Or.inr h

theorem compactLoop_inv (src : List Nat) :
    ∀ (rest : List Nat) (i : Nat) (st : StepFn) (ps : List Nat) (start : Nat) (dst : List Nat),
      st ≠ .stateError →
      (compactLoop src rest i (mkScanner st ps) start dst).1.err = none →
      ∃ st1 ps1 out, Run st ps rest st1 ps1 out := by
  intro rest
  induction rest with
  | nil => intro i st ps start dst _ _; exact ⟨st, ps, [], Run.nil st ps⟩
  | cons c l ih =>
    intro i st ps start dst hst h
    rcases call_mk_cases st ps c hst with ⟨st1, ps1, op, ht, hc⟩ | ⟨h1, h2, _⟩
    · have hop := trans_op ht
      by_cases hskip : scanSkipSpace ≤ op
      · have h' : (compactLoop src l (i + 1) (mkScanner st1 ps1) (i + 1)
            (dst ++ slice src start i)).1.err = none := by
          simpa [compactLoop, hc, hskip, hop.1] using h
        obtain ⟨st2, ps2, out, hr⟩ := ih _ _ _ _ _ hop.2 h'
        exact ⟨st2, ps2, _, Run.cons ht hr⟩
      · have h' : (compactLoop src l (i + 1) (mkScanner st1 ps1) start dst).1.err = none := by
          simpa [compactLoop, hc, hskip] using h
        obtain ⟨st2, ps2, out, hr⟩ := ih _ _ _ _ _ hop.2 h'
        exact ⟨st2, ps2, _, Run.cons ht hr⟩
    · exfalso
      have key : (compactLoop src (c :: l) i (mkScanner st ps) start dst).1.err.isSome
          = true := by
        simp only [compactLoop]
        by_cases hskip : ((mkScanner st ps).call c).2 ≥ scanSkipSpace
        · rw [if_pos hskip]
          by_cases he : (((mkScanner st ps).call c).2 == scanError) = true
          · rw [if_pos he]; exact h2
          · rw [if_neg he]; exact compactLoop_err _ _ _ _ _ _ h1 h2
        · rw [if_neg hskip]; exact compactLoop_err _ _ _ _ _ _ h1 h2
      rw [h] at key
      exact absurd key (by simp)

theorem eof_mk (st : StepFn) (ps : List Nat) (hst : st ≠ .stateError) :
    (mkScanner st ps).eof.2 ≠ scanError ↔ Accepting st ps := by
  have e1 : (mkScanner st ps).err.isSome = false := rfl
  by_cases he : st = .stateEndTop
  · subst he
    simp [Scanner.eof, mkScanner, Accepting, scanEnd, scanError]
  · have he' : (st == StepFn.stateEndTop) = false := by simpa using he
    have e2 : (mkScanner st ps).endTop = false := he'
    rcases call_mk_cases st ps 32 hst with ⟨st1, ps1, op, ht, hc⟩ | ⟨h1, h2, h3⟩
    · by_cases h1 : st1 = .stateEndTop
      · subst h1
        have : Accepting st ps := Or.inr ⟨ps1, op, ht⟩
        simp only [this, iff_true]
        simp only [Scanner.eof, e1, e2, hc]
        simp [mkScanner, scanEnd, scanError]
      · have h1' : (st1 == StepFn.stateEndTop) = false := by simpa using h1
        have hna : ¬ Accepting st ps := by
          rintro (h | ⟨ps2, op2, ht2⟩)
          · exact he h
          · have := call_of_trans ht2
            rw [hc] at this
            have := congrArg (fun r => r.1.step) this
            exact h1 (by simpa [mkScanner] using this)
        simp only [hna, iff_false, not_not]
        simp only [Scanner.eof, e1, e2, hc]
        simp [mkScanner, h1']
    · have hna : ¬ Accepting st ps := by
        rintro (h | ⟨ps2, op2, ht2⟩)
        · exact he h
        · have := call_of_trans ht2
          rw [this] at h2
          simp [mkScanner] at h2
      have h4 : ((mkScanner st ps).call 32).1.endTop = false := by
        rcases h3 with h3 | h3
        · rw [h3, he']
        · simp [isSpace] at h3
      simp only [hna, iff_false, not_not]
      have h5 : ((mkScanner st ps).call 32).1.err.isNone = false := by
        cases h6 : ((mkScanner st ps).call 32).1.err with
        | none => rw [h6] at h2; simp at h2
        | some e => rfl
      simp only [Scanner.eof, e1, e2, h4, h5]
      simp

theorem run_ne_error {st : StepFn} {ps l : List Nat} {st1 : StepFn} {ps1 out : List Nat}
    (h : Run st ps l st1 ps1 out) (hst : st ≠ .stateError) : st1 ≠ .stateError := by
  induction h with
  | nil st ps => exact hst
  | cons ht _ ih => exact ih (trans_op ht).2

theorem trans_det {st : StepFn} {ps : List Nat} {c : Nat} {st1 st2 : StepFn}
    {ps1 ps2 : List Nat} {op1 op2 : Nat} (h1 : Trans st ps c st1 ps1 op1)
    (h2 : Trans st ps c st2 ps2 op2) : st1 = st2 ∧ ps1 = ps2 ∧ op1 = op2 := by
  have e := (call_of_trans h1).symm.trans (call_of_trans h2)
  have e1 := congrArg (fun r => r.1.step) e
  have e2 := congrArg (fun r => r.1.parseState) e
  have e3 := congrArg (fun r => r.2) e
  exact ⟨e1, e2, e3⟩

theorem run_det {st : StepFn} {ps l : List Nat} {st1 : StepFn} {ps1 out1 : List Nat}
    (h1 : Run st ps l st1 ps1 out1) :
    ∀ {st2 : StepFn} {ps2 out2 : List Nat}, Run st ps l st2 ps2 out2 →
      st1 = st2 ∧ ps1 = ps2 ∧ out1 = out2 := by
  induction h1 with
  | nil st ps => intro st2 ps2 out2 h2; cases h2; exact ⟨rfl, rfl, rfl⟩
  | cons ht _ ih =>
    intro st2 ps2 out2 h2
    cases h2 with
    | cons ht2 r2 =>
      obtain ⟨a, b, c⟩ := trans_det ht ht2
      subst a; subst b; subst c
      obtain ⟨a, b, c⟩ := ih r2
      subst a; subst b; subst c
      exact ⟨rfl, rfl, rfl⟩

theorem Compact_of_run {src : List Nat} {st : StepFn} {ps out : List Nat}
    (h : Run .stateBeginValue [] src st ps out) :
    (Accepting st ps → Compact src = .ok out) ∧
      (¬ Accepting st ps → ∃ e, Compact src = .error e) := by
  obtain ⟨start1, dst1, e1, e2⟩ := compactLoop_run h [] 0 [] (le_refl _)
  have hst := run_ne_error h (by decide)
  have e1' : compactLoop src src 0 newScanner 0 [] = (mkScanner st ps, start1, dst1) := by
    simpa using e1
  have e2' : dst1 ++ slice src start1 src.length = out := by
    simpa [slice_self] using e2
  have hacc := eof_mk st ps hst
  unfold Compact
  rw [e1']
  constructor
  · intro ha
    have h1 := hacc.2 ha
    have h2 : ((mkScanner st ps).eof.2 == scanError) = false := by simpa using h1
    simp only [h2, e2']
    simp
  · intro ha
    have h1 : (mkScanner st ps).eof.2 = scanError := by
      by_contra hne; exact ha (hacc.1 hne)
    simp only [h1]
    exact ⟨_, if_pos rfl⟩

theorem Compact_error_of_no_run {src : List Nat}
    (h : ¬ ∃ st ps out, Run .stateBeginValue [] src st ps out) :
    ∃ e, Compact src = .error e := by
  have h1 : (compactLoop src src 0 newScanner 0 []).1.err ≠ none := by
    intro hn
    exact h (compactLoop_inv src src 0 .stateBeginValue [] 0 [] (by decide) hn)
  unfold Compact
  rcases hr : compactLoop src src 0 newScanner 0 [] with ⟨scan, start, dst⟩
  rw [hr] at h1
  have h2 : scan.err.isSome = true := by
    cases hs : scan.err with
    | none => exact absurd hs h1
    | some e => rfl
  have h3 : scan.eof = (scan, scanError) := by simp [Scanner.eof, h2]
  simp only [h3]
  exact ⟨_, if_pos rfl⟩

/-- `minifyJSON` succeeds with `out` exactly when the scanner has an error-free
run over the input that keeps the bytes `out` and ends in an accepting state. -/
theorem minifyJSON_ok_iff (src out : List Nat) :
    minifyJSON src = .ok out ↔
      ∃ st ps, Run .stateBeginValue [] src st ps out ∧ Accepting st ps := by
  have hm : minifyJSON src = Compact src := by
    unfold minifyJSON; cases Compact src <;> rfl
  rw [hm]
  constructor
  · intro h
    by_cases hr : ∃ st ps out, Run .stateBeginValue [] src st ps out
    · obtain ⟨st, ps, out1, hrun⟩ := hr
      by_cases ha : Accepting st ps
      · rw [(Compact_of_run hrun).1 ha] at h
        injection h with h
        subst h
        exact ⟨st, ps, hrun, ha⟩
      · obtain ⟨e, he⟩ := (Compact_of_run hrun).2 ha
        rw [he] at h
        cases h
    · obtain ⟨e, he⟩ := Compact_error_of_no_run hr
      rw [he] at h
      cases h
  · rintro ⟨st, ps, hrun, ha⟩
    exact (Compact_of_run hrun).1 ha

theorem minifyJSON_error_iff (src : List Nat) :
    (∃ e, minifyJSON src = .error e) ↔
      ¬ ∃ out st ps, Run .stateBeginValue [] src st ps out ∧ Accepting st ps := by
  constructor
  · rintro ⟨e, he⟩ ⟨out, st, ps, h⟩
    have := (minifyJSON_ok_iff src out).2 ⟨st, ps, h⟩
    rw [he] at this
    cases this
  · intro h
    cases hm : minifyJSON src with
    | error e => exact ⟨e, rfl⟩
    | ok out =>
      exact absurd ((minifyJSON_ok_iff src out).1 hm) (fun ⟨st, ps, hh⟩ => h ⟨out, st, ps, hh⟩)

theorem stripFrom_cons (q : Lex) (c : Nat) (l : List Nat) :
    stripFrom q (c :: l) =
      if q = .outside ∧ isWhitespace c = true then stripFrom (q.next c) l
      else c :: stripFrom (q.next c) l := by
  cases q with
  | outside =>
    by_cases hw : isWhitespace c = true
    · simp [stripFrom, Lex.next, hw]
    · by_cases hq : c = 34
      · subst hq; simp [stripFrom, Lex.next, isWhitespace]
      · simp [stripFrom, Lex.next, hw, hq]
  | inString =>
    by_cases hq : c = 34
    · subst hq; simp [stripFrom, Lex.next]
    · by_cases hb : c = 92
      · subst hb; simp [stripFrom, Lex.next]
      · simp [stripFrom, Lex.next, hq, hb]
  | escaped => simp [stripFrom, Lex.next]

theorem popStep_lex (t : List Nat) : (popStep t).lex = .outside := by
  unfold popStep; split <;> rfl

theorem endValueTrans_lex {ps : List Nat} {c : Nat} {st : StepFn} {ps1 : List Nat} {op : Nat}
    (h : EndValueTrans ps c st ps1 op) : LexStep .outside c st op := by
  cases h with
  | topSpace c hw => simp [LexStep, Lex.next, hw, StepFn.lex, scanSkipSpace, scanEnd]
  | space p t c hw => simp [LexStep, Lex.next, hw, StepFn.lex, scanSkipSpace]
  | colon t => simp [LexStep, Lex.next, isWhitespace, StepFn.lex, scanSkipSpace, scanObjectKey]
  | objectComma t =>
    simp [LexStep, Lex.next, isWhitespace, StepFn.lex, scanSkipSpace, scanObjectValue]
  | endObject =>
    simp [LexStep, Lex.next, isWhitespace, popStep_lex, scanSkipSpace, scanEndObject]
  | arrayComma t =>
    simp [LexStep, Lex.next, isWhitespace, StepFn.lex, scanSkipSpace, scanArrayValue]
  | endArray =>
    simp [LexStep, Lex.next, isWhitespace, popStep_lex, scanSkipSpace, scanEndArray]

theorem beginValueTrans_lex {ps : List Nat} {c : Nat} {st : StepFn} {ps1 : List Nat} {op : Nat}
    (h : BeginValueTrans ps c st ps1 op) : LexStep .outside c st op := by
  cases h with
  | digit c h1 h2 =>
    have hw : isWhitespace c = false := by
      have a1 : c ≠ 32 := by omega
      have a2 : c ≠ 9 := by omega
      have a3 : c ≠ 10 := by omega
      have a4 : c ≠ 13 := by omega
      simp [isWhitespace, a1, a2, a3, a4]
    have hq : c ≠ 34 := by omega
    simp [LexStep, Lex.next, hw, hq, StepFn.lex, scanSkipSpace, scanBeginLiteral]
  | _ =>
    simp [LexStep, Lex.next, isWhitespace, StepFn.lex, scanSkipSpace, scanBeginLiteral,
      scanBeginObject, scanBeginArray]

theorem isWhitespace_false_of_ge {c : Nat} (h : 43 ≤ c) : isWhitespace c = false := by
  have a1 : c ≠ 32 := by omega
  have a2 : c ≠ 9 := by omega
  have a3 : c ≠ 10 := by omega
  have a4 : c ≠ 13 := by omega
  simp [isWhitespace, a1, a2, a3, a4]

theorem trans_lex {st : StepFn} {ps : List Nat} {c : Nat} {st1 : StepFn} {ps1 : List Nat}
    {op : Nat} (h : Trans st ps c st1 ps1 op) : LexStep st.lex c st1 op := by
  cases h with
  | beginValueSpace ps c hw => simp [LexStep, Lex.next, hw, StepFn.lex, scanSkipSpace]
  | beginValue ps c st ps1 op hw h => exact beginValueTrans_lex h
  | orEmptySpace ps c hw => simp [LexStep, Lex.next, hw, StepFn.lex, scanSkipSpace]
  | orEmptyEnd ps st ps1 op h => exact endValueTrans_lex h
  | orEmptyValue ps c st ps1 op hw h => exact beginValueTrans_lex h
  | stringOrEmptySpace ps c hw => simp [LexStep, Lex.next, hw, StepFn.lex, scanSkipSpace]
  | stringOrEmptyEnd ps st ps1 op h => exact endValueTrans_lex h
  | stringOrEmptyQuote ps =>
    simp [LexStep, Lex.next, isWhitespace, StepFn.lex, scanSkipSpace, scanBeginLiteral]
  | beginStringSpace ps c hw => simp [LexStep, Lex.next, hw, StepFn.lex, scanSkipSpace]
  | beginStringQuote ps =>
    simp [LexStep, Lex.next, isWhitespace, StepFn.lex, scanSkipSpace, scanBeginLiteral]
  | endValue ps c st ps1 op h => exact endValueTrans_lex h
  | endTop ps c hw => simp [LexStep, Lex.next, hw, StepFn.lex, scanSkipSpace, scanEnd]
  | stringEnd ps => simp [LexStep, Lex.next, StepFn.lex, scanSkipSpace, scanContinue]
  | stringBackslash ps => simp [LexStep, Lex.next, StepFn.lex, scanSkipSpace, scanContinue]
  | stringByte ps c h1 h2 h3 =>
    simp [LexStep, Lex.next, StepFn.lex, scanSkipSpace, scanContinue, h1, h2]
  | esc ps c h => simp [LexStep, Lex.next, StepFn.lex, scanSkipSpace, scanContinue]
  | escU ps => simp [LexStep, Lex.next, StepFn.lex, scanSkipSpace, scanContinue]
  | hex1 ps c h =>
    have a1 : c ≠ 34 := by rintro rfl; simp [isHex] at h
    have a2 : c ≠ 92 := by rintro rfl; simp [isHex] at h
    simp [LexStep, Lex.next, StepFn.lex, scanSkipSpace, scanContinue, a1, a2]
  | hex2 ps c h =>
    have a1 : c ≠ 34 := by rintro rfl; simp [isHex] at h
    have a2 : c ≠ 92 := by rintro rfl; simp [isHex] at h
    simp [LexStep, Lex.next, StepFn.lex, scanSkipSpace, scanContinue, a1, a2]
  | hex3 ps c h =>
    have a1 : c ≠ 34 := by rintro rfl; simp [isHex] at h
    have a2 : c ≠ 92 := by rintro rfl; simp [isHex] at h
    simp [LexStep, Lex.next, StepFn.lex, scanSkipSpace, scanContinue, a1, a2]
  | hex4 ps c h =>
    have a1 : c ≠ 34 := by rintro rfl; simp [isHex] at h
    have a2 : c ≠ 92 := by rintro rfl; simp [isHex] at h
    simp [LexStep, Lex.next, StepFn.lex, scanSkipSpace, scanContinue, a1, a2]
  | negZero ps =>
    simp [LexStep, Lex.next, isWhitespace, StepFn.lex, scanSkipSpace, scanContinue]
  | negDigit ps c h1 h2 =>
    have hw := isWhitespace_false_of_ge (c := c) (by omega)
    have hq : c ≠ 34 := by omega
    simp [LexStep, Lex.next, hw, hq, StepFn.lex, scanSkipSpace, scanContinue]
  | intDigit ps c h1 h2 =>
    have hw := isWhitespace_false_of_ge (c := c) (by omega)
    have hq : c ≠ 34 := by omega
    simp [LexStep, Lex.next, hw, hq, StepFn.lex, scanSkipSpace, scanContinue]
  | intDot ps =>
    simp [LexStep, Lex.next, isWhitespace, StepFn.lex, scanSkipSpace, scanContinue]
  | intExp ps c h =>
    rcases h with h | h <;> subst h <;>
      simp [LexStep, Lex.next, isWhitespace, StepFn.lex, scanSkipSpace, scanContinue]
  | intEnd ps c st ps1 op h => exact endValueTrans_lex h
  | zeroDot ps =>
    simp [LexStep, Lex.next, isWhitespace, StepFn.lex, scanSkipSpace, scanContinue]
  | zeroExp ps c h =>
    rcases h with h | h <;> subst h <;>
      simp [LexStep, Lex.next, isWhitespace, StepFn.lex, scanSkipSpace, scanContinue]
  | zeroEnd ps c st ps1 op h => exact endValueTrans_lex h
  | dotDigit ps c h1 h2 =>
    have hw := isWhitespace_false_of_ge (c := c) (by omega)
    have hq : c ≠ 34 := by omega
    simp [LexStep, Lex.next, hw, hq, StepFn.lex, scanSkipSpace, scanContinue]
  | fracDigit ps c h1 h2 =>
    have hw := isWhitespace_false_of_ge (c := c) (by omega)
    have hq : c ≠ 34 := by omega
    simp [LexStep, Lex.next, hw, hq, StepFn.lex, scanSkipSpace, scanContinue]
  | fracExp ps c h =>
    rcases h with h | h <;> subst h <;>
      simp [LexStep, Lex.next, isWhitespace, StepFn.lex, scanSkipSpace, scanContinue]
  | fracEnd ps c st ps1 op h => exact endValueTrans_lex h
  | expSign ps c h =>
    rcases h with h | h <;> subst h <;>
      simp [LexStep, Lex.next, isWhitespace, StepFn.lex, scanSkipSpace, scanContinue]
  | expDigit ps c h1 h2 =>
    have hw := isWhitespace_false_of_ge (c := c) (by omega)
    have hq : c ≠ 34 := by omega
    simp [LexStep, Lex.next, hw, hq, StepFn.lex, scanSkipSpace, scanContinue]
  | signDigit ps c h1 h2 =>
    have hw := isWhitespace_false_of_ge (c := c) (by omega)
    have hq : c ≠ 34 := by omega
    simp [LexStep, Lex.next, hw, hq, StepFn.lex, scanSkipSpace, scanContinue]
  | exp0Digit ps c h1 h2 =>
    have hw := isWhitespace_false_of_ge (c := c) (by omega)
    have hq : c ≠ 34 := by omega
    simp [LexStep, Lex.next, hw, hq, StepFn.lex, scanSkipSpace, scanContinue]
  | exp0End ps c st ps1 op h => exact endValueTrans_lex h
  | _ => simp [LexStep, Lex.next, isWhitespace, StepFn.lex, scanSkipSpace, scanContinue]

theorem run_strip {st : StepFn} {ps l : List Nat} {st1 : StepFn} {ps1 out : List Nat}
    (h : Run st ps l st1 ps1 out) : out = stripFrom st.lex l := by
  induction h with
  | nil st ps => cases st.lex <;> rfl
  | @cons st ps c st1 ps1 op l st2 ps2 out ht _ ih =>
    obtain ⟨h1, h2⟩ := trans_lex ht
    rw [stripFrom_cons, ← h2, ← ih]
    by_cases hs : scanSkipSpace ≤ op
    · rw [if_pos hs, if_pos (h1.1 hs)]
    · rw [if_neg hs, if_neg (fun hh => hs (h1.2 hh))]

/-- Whenever `minifyJSON` succeeds, its result is the input with every space,
tab, line feed and carriage return outside string literals deleted. -/
theorem minifyJSON_eq_strip {src out : List Nat} (h : minifyJSON src = .ok out) :
    out = stripWhitespace src := by
  obtain ⟨st, ps, hr, _⟩ := (minifyJSON_ok_iff src out).1 h
  exact run_strip hr

theorem Value.mono {d : Nat} {t : List Nat} {v : JValue} (h : Value d t v) :
    ∀ {d1 : Nat}, d ≤ d1 → Value d1 t v := by
  induction h with
  | null d => intro d1 _; exact .null d1
  | true d => intro d1 _; exact .true d1
  | false d => intro d1 _; exact .false d1
  | number d n h => intro d1 _; exact .number d1 n h
  | string d b h => intro d1 _; exact .string d1 b h
  | emptyArray d w hw =>
    intro d1 hd
    obtain ⟨k, rfl⟩ : ∃ k, d1 = k + 1 := ⟨d1 - 1, by omega⟩
    exact .emptyArray k w hw
  | array d es hne hws _ ih =>
    intro d1 hd
    obtain ⟨k, rfl⟩ : ∃ k, d1 = k + 1 := ⟨d1 - 1, by omega⟩
    exact .array k es hne hws (fun e he => ih e he (by omega))
  | emptyObject d w hw =>
    intro d1 hd
    obtain ⟨k, rfl⟩ : ∃ k, d1 = k + 1 := ⟨d1 - 1, by omega⟩
    exact .emptyObject k w hw
  | object d ms hne hws _ ih =>
    intro d1 hd
    obtain ⟨k, rfl⟩ : ∃ k, d1 = k + 1 := ⟨d1 - 1, by omega⟩
    exact .object k ms hne hws (fun m hm => ih m hm (by omega))

theorem Run.concat {st : StepFn} {ps l1 : List Nat} {st1 : StepFn} {ps1 o1 : List Nat}
    (h1 : Run st ps l1 st1 ps1 o1) :
    ∀ {l2 : List Nat} {st2 : StepFn} {ps2 o2 : List Nat}, Run st1 ps1 l2 st2 ps2 o2 →
      Run st ps (l1 ++ l2) st2 ps2 (o1 ++ o2) := by
  induction h1 with
  | nil st ps => intro l2 st2 ps2 o2 h2; exact h2
  | @cons st ps c st1 ps1 op l st3 ps3 out ht _ ih =>
    intro l2 st2 ps2 o2 h2
    have := Run.cons ht (ih h2)
    by_cases hs : scanSkipSpace ≤ op
    · simpa [hs] using this
    · simpa [hs] using this

theorem Steps.nil (st : StepFn) (ps : List Nat) : Steps st ps [] st ps := ⟨[], Run.nil st ps⟩

theorem Steps.append {st : StepFn} {ps l1 : List Nat} {st1 : StepFn} {ps1 l2 : List Nat}
    {st2 : StepFn} {ps2 : List Nat} (h1 : Steps st ps l1 st1 ps1)
    (h2 : Steps st1 ps1 l2 st2 ps2) : Steps st ps (l1 ++ l2) st2 ps2 := by
  obtain ⟨o1, r1⟩ := h1
  obtain ⟨o2, r2⟩ := h2
  exact ⟨_, r1.concat r2⟩

theorem Steps.cons {st : StepFn} {ps : List Nat} {c : Nat} {st1 : StepFn} {ps1 : List Nat}
    {op : Nat} {l : List Nat} {st2 : StepFn} {ps2 : List Nat}
    (h1 : Trans st ps c st1 ps1 op) (h2 : Steps st1 ps1 l st2 ps2) :
    Steps st ps (c :: l) st2 ps2 := by
  obtain ⟨o2, r2⟩ := h2
  exact ⟨_, Run.cons h1 r2⟩

theorem Steps.single {st : StepFn} {ps : List Nat} {c : Nat} {st1 : StepFn} {ps1 : List Nat}
    {op : Nat} (h1 : Trans st ps c st1 ps1 op) : Steps st ps [c] st1 ps1 :=
  Steps.cons h1 (Steps.nil _ _)

theorem beginLike_trans {st : StepFn} (hb : BeginLike st) {ps : List Nat} {c : Nat}
    {st1 : StepFn} {ps1 : List Nat} {op : Nat} (h : BeginValueTrans ps c st1 ps1 op)
    (hw : isWhitespace c = false) : Trans st ps c st1 ps1 op := by
  rcases hb with rfl | rfl
  · exact .beginValue ps c st1 ps1 op hw h
  · exact .orEmptyValue ps c st1 ps1 op hw h

theorem afterValue_trans {st : StepFn} {ps : List Nat} (ha : AfterValue st ps) {c : Nat}
    {st1 : StepFn} {ps1 : List Nat} {op : Nat} (h : EndValueTrans ps c st1 ps1 op) :
    Trans st ps c st1 ps1 op := by
  rcases ha with rfl | rfl | rfl | rfl | rfl | ⟨rfl, rfl⟩
  · exact .endValue ps c st1 ps1 op h
  · exact .zeroEnd ps c st1 ps1 op h
  · exact .intEnd ps c st1 ps1 op h
  · exact .fracEnd ps c st1 ps1 op h
  · exact .exp0End ps c st1 ps1 op h
  · cases h with
    | topSpace c hw => exact .endTop [] c hw

theorem popStep_afterValue (ps : List Nat) : AfterValue (popStep ps) ps := by
  unfold popStep
  by_cases h : ps = []
  · rw [if_pos h]; exact Or.inr (Or.inr (Or.inr (Or.inr (Or.inr ⟨rfl, h⟩))))
  · rw [if_neg h]; exact Or.inl rfl

theorem afterValue_ws {w : List Nat} (hw : IsWs w) :
    ∀ (st : StepFn) (ps : List Nat), AfterValue st ps →
      ∃ st1, Steps st ps w st1 ps ∧ AfterValue st1 ps := by
  induction w with
  | nil => intro st ps ha; exact ⟨st, Steps.nil _ _, ha⟩
  | cons c w ih =>
    intro st ps ha
    have hc : isWhitespace c = true := hw c (List.mem_cons_self _ _)
    have hw' : IsWs w := fun x hx => hw x (List.mem_cons_of_mem _ hx)
    cases ps with
    | nil =>
      have ht := afterValue_trans ha (EndValueTrans.topSpace c hc)
      obtain ⟨st1, hs, h1⟩ := ih hw' .stateEndTop []
        (Or.inr (Or.inr (Or.inr (Or.inr (Or.inr ⟨rfl, rfl⟩)))))
      exact ⟨st1, Steps.cons ht hs, h1⟩
    | cons p t =>
      have ht := afterValue_trans ha (EndValueTrans.space p t c hc)
      obtain ⟨st1, hs, h1⟩ := ih hw' .stateEndValue (p :: t) (Or.inl rfl)
      exact ⟨st1, Steps.cons ht hs, h1⟩

theorem spaceStable_ws (st : StepFn) (hs : SpaceStable st) (ps : List Nat) {w : List Nat}
    (hw : IsWs w) : Steps st ps w st ps := by
  induction w with
  | nil => exact Steps.nil _ _
  | cons c w ih =>
    have hc : isWhitespace c = true := hw c (List.mem_cons_self _ _)
    have hw' : IsWs w := fun x hx => hw x (List.mem_cons_of_mem _ hx)
    have ht : ∃ op, Trans st ps c st ps op := by
      rcases hs with rfl | rfl | rfl | rfl | rfl
      · exact ⟨_, .beginValueSpace ps c hc⟩
      · exact ⟨_, .orEmptySpace ps c hc⟩
      · exact ⟨_, .stringOrEmptySpace ps c hc⟩
      · exact ⟨_, .beginStringSpace ps c hc⟩
      · exact ⟨_, .endTop ps c hc⟩
    obtain ⟨op, ht⟩ := ht
    exact Steps.cons ht (ih hw')

theorem isHex_of_hexDigit {c : Nat} (h : IsHexDigit c) : isHex c = true := by
  rcases h with ⟨h1, h2⟩ | ⟨h1, h2⟩ | ⟨h1, h2⟩ <;> simp [isHex, h1, h2]

theorem stringBody_steps {b : List Nat} (h : StringBody b) (ps : List Nat) :
    Steps .stateInString ps (b ++ [34]) .stateEndValue ps := by
  induction h with
  | nil => exact Steps.single (.stringEnd ps)
  | byte c l h1 h2 h3 _ ih => exact Steps.cons (.stringByte ps c h2 h3 h1) ih
  | esc e l he _ ih =>
    refine Steps.cons (.stringBackslash ps) (Steps.cons (.esc ps e ?_) ih)
    rcases he with h | h | h | h | h | h | h | h <;> subst h <;> decide
  | unicode a b c d l ha hb hc hd _ ih =>
    exact Steps.cons (.stringBackslash ps) (Steps.cons (.escU ps)
      (Steps.cons (.hex1 ps a (isHex_of_hexDigit ha))
        (Steps.cons (.hex2 ps b (isHex_of_hexDigit hb))
          (Steps.cons (.hex3 ps c (isHex_of_hexDigit hc))
            (Steps.cons (.hex4 ps d (isHex_of_hexDigit hd)) ih)))))

theorem digits_steps (st : StepFn) (hs : DigitLoop st) (ps : List Nat) {ds : List Nat}
    (h : IsDigits ds) : Steps st ps ds st ps := by
  induction ds with
  | nil => exact Steps.nil _ _
  | cons c ds ih =>
    obtain ⟨h1, h2⟩ := h c (List.mem_cons_self _ _)
    have h' : IsDigits ds := fun x hx => h x (List.mem_cons_of_mem _ hx)
    have ht : ∃ op, Trans st ps c st ps op := by
      rcases hs with rfl | rfl | rfl
      · exact ⟨_, .intDigit ps c h1 h2⟩
      · exact ⟨_, .fracDigit ps c h1 h2⟩
      · exact ⟨_, .exp0Digit ps c h1 h2⟩
    obtain ⟨op, ht⟩ := ht
    exact Steps.cons ht (ih h')

theorem NumEnd.afterValue {st : StepFn} (h : NumEnd st) (ps : List Nat) : AfterValue st ps := by
  rcases h with rfl | rfl | rfl
  · exact Or.inr (Or.inl rfl)
  · exact Or.inr (Or.inr (Or.inl rfl))
  · exact Or.inr (Or.inr (Or.inr (Or.inl rfl)))

theorem exp_steps {st : StepFn} (hs : NumEnd st) (ps : List Nat) {e : List Nat}
    (h : IsExp e) : ∃ st1, Steps st ps e st1 ps ∧ AfterValue st1 ps := by
  rcases h with rfl | ⟨x, sign, ds, rfl, hx, hsign, hne, hds⟩
  · exact ⟨st, Steps.nil _ _, hs.afterValue ps⟩
  · have hE : ∃ op, Trans st ps x .stateE ps op := by
      rcases hs with rfl | rfl | rfl
      · exact ⟨_, .zeroExp ps x hx⟩
      · exact ⟨_, .intExp ps x hx⟩
      · exact ⟨_, .fracExp ps x hx⟩
    obtain ⟨op, hE⟩ := hE
    obtain ⟨d, ds1, rfl⟩ : ∃ d ds1, ds = d :: ds1 := by
      cases ds with
      | nil => exact absurd rfl hne
      | cons d ds1 => exact ⟨d, ds1, rfl⟩
    obtain ⟨h1, h2⟩ := hds d (List.mem_cons_self _ _)
    have hds1 : IsDigits ds1 := fun y hy => hds y (List.mem_cons_of_mem _ hy)
    have hloop := digits_steps .stateE0 (Or.inr (Or.inr rfl)) ps hds1
    have hafter : AfterValue .stateE0 ps := Or.inr (Or.inr (Or.inr (Or.inr (Or.inl rfl))))
    refine ⟨.stateE0, ?_, hafter⟩
    rcases hsign with rfl | rfl | rfl
    · exact Steps.cons hE (Steps.cons (.expDigit ps d h1 h2) hloop)
    · exact Steps.cons hE (Steps.cons (.expSign ps 43 (Or.inl rfl))
        (Steps.cons (.signDigit ps d h1 h2) hloop))
    · exact Steps.cons hE (Steps.cons (.expSign ps 45 (Or.inr rfl))
        (Steps.cons (.signDigit ps d h1 h2) hloop))

theorem frac_steps {st : StepFn} (hs : st = .state0 ∨ st = .state1) (ps : List Nat)
    {f : List Nat} (h : IsFrac f) : ∃ st1, Steps st ps f st1 ps ∧ NumEnd st1 := by
  rcases h with rfl | ⟨ds, rfl, hne, hds⟩
  · refine ⟨st, Steps.nil _ _, ?_⟩
    rcases hs with rfl | rfl
    · exact Or.inl rfl
    · exact Or.inr (Or.inl rfl)
  · have hD : ∃ op, Trans st ps 46 .stateDot ps op := by
      rcases hs with rfl | rfl
      · exact ⟨_, .zeroDot ps⟩
      · exact ⟨_, .intDot ps⟩
    obtain ⟨op, hD⟩ := hD
    obtain ⟨d, ds1, rfl⟩ : ∃ d ds1, ds = d :: ds1 := by
      cases ds with
      | nil => exact absurd rfl hne
      | cons d ds1 => exact ⟨d, ds1, rfl⟩
    obtain ⟨h1, h2⟩ := hds d (List.mem_cons_self _ _)
    have hds1 : IsDigits ds1 := fun y hy => hds y (List.mem_cons_of_mem _ hy)
    have hloop := digits_steps .stateDot0 (Or.inr (Or.inl rfl)) ps hds1
    exact ⟨.stateDot0, Steps.cons hD (Steps.cons (.dotDigit ps d h1 h2) hloop),
      Or.inr (Or.inr rfl)⟩

theorem number_steps {n : List Nat} (h : IsNumber n) {st : StepFn} (hb : BeginLike st)
    (ps : List Nat) : ∃ st1, Steps st ps n st1 ps ∧ AfterValue st1 ps := by
  obtain ⟨sign, i, f, e, rfl, hsign, hi, hf, he⟩ := h
  -- the integer part, from the state after the optional minus
  have hint : ∃ st1, Steps st ps (sign ++ i) st1 ps ∧ (st1 = .state0 ∨ st1 = .state1) := by
    rcases hsign with rfl | rfl
    · rcases hi with rfl | ⟨d, ds, rfl, h1, h2, hds⟩
      · exact ⟨.state0, Steps.single (beginLike_trans hb .zero (by decide)), Or.inl rfl⟩
      · have hw := isWhitespace_false_of_ge (c := d) (by omega)
        exact ⟨.state1, Steps.cons (beginLike_trans hb (.digit d h1 h2) hw)
          (digits_steps .state1 (Or.inl rfl) ps hds), Or.inr rfl⟩
    · have hm := beginLike_trans hb (@BeginValueTrans.minus ps) (by decide)
      rcases hi with rfl | ⟨d, ds, rfl, h1, h2, hds⟩
      · exact ⟨.state0, Steps.cons hm (Steps.single (.negZero ps)), Or.inl rfl⟩
      · exact ⟨.state1, Steps.cons hm (Steps.cons (.negDigit ps d h1 h2)
          (digits_steps .state1 (Or.inl rfl) ps hds)), Or.inr rfl⟩
  obtain ⟨st1, s1, hst1⟩ := hint
  obtain ⟨st2, s2, hst2⟩ := frac_steps hst1 ps hf
  obtain ⟨st3, s3, hst3⟩ := exp_steps hst2 ps he
  exact ⟨st3, (s1.append s2).append s3, hst3⟩

theorem null_steps {st : StepFn} (hb : BeginLike st) (ps : List Nat) :
    Steps st ps [110, 117, 108, 108] .stateEndValue ps :=
  Steps.cons (beginLike_trans hb .n (by decide))
    (Steps.cons (.litN ps) (Steps.cons (.litNu ps) (Steps.single (.litNul ps))))

theorem true_steps {st : StepFn} (hb : BeginLike st) (ps : List Nat) :
    Steps st ps [116, 114, 117, 101] .stateEndValue ps :=
  Steps.cons (beginLike_trans hb .t (by decide))
    (Steps.cons (.litT ps) (Steps.cons (.litTr ps) (Steps.single (.litTru ps))))

theorem false_steps {st : StepFn} (hb : BeginLike st) (ps : List Nat) :
    Steps st ps [102, 97, 108, 115, 101] .stateEndValue ps :=
  Steps.cons (beginLike_trans hb .f (by decide))
    (Steps.cons (.litF ps) (Steps.cons (.litFa ps) (Steps.cons (.litFal ps)
      (Steps.single (.litFals ps)))))

theorem BeginLike.spaceStable {st : StepFn} (h : BeginLike st) : SpaceStable st := by
  rcases h with rfl | rfl
  · exact Or.inl rfl
  · exact Or.inr (Or.inl rfl)

theorem Steps.append_cons {st : StepFn} {ps l : List Nat} {a : Nat} {st1 : StepFn}
    {ps1 r : List Nat} {st2 : StepFn} {ps2 : List Nat} (h1 : Steps st ps (l ++ [a]) st1 ps1)
    (h2 : Steps st1 ps1 r st2 ps2) : Steps st ps (l ++ a :: r) st2 ps2 := by
  have := h1.append h2
  simpa using this

theorem element_steps {d : Nat} {pre text post : List Nat} (hpre : IsWs pre) (hpost : IsWs post)
    (ht : Scans d text) (st : StepFn) (hb : BeginLike st) (ps : List Nat)
    (hps : ps.length + d ≤ maxNestingDepth) :
    ∃ st1, Steps st ps (pre ++ text ++ post) st1 ps ∧ AfterValue st1 ps := by
  have s1 := spaceStable_ws st hb.spaceStable ps hpre
  obtain ⟨st1, s2, a1⟩ := ht ps st hb hps
  obtain ⟨st2, s3, a2⟩ := afterValue_ws hpost _ _ a1
  exact ⟨st2, (s1.append s2).append s3, a2⟩

theorem elements_steps {d : Nat} (ps : List Nat)
    (hps : (parseArrayValue :: ps).length + d ≤ maxNestingDepth) :
    ∀ (es : List Element), es ≠ [] → (∀ e ∈ es, IsWs e.pre ∧ IsWs e.post) →
      (∀ e ∈ es, Scans d e.text) → ∀ (st : StepFn), BeginLike st →
      ∃ st1, Steps st (parseArrayValue :: ps) (joinComma (es.map Element.bytes)) st1
        (parseArrayValue :: ps) ∧ AfterValue st1 (parseArrayValue :: ps) := by
  intro es
  induction es with
  | nil => intro h; exact absurd rfl h
  | cons e r ih =>
    intro _ hws hsc st hb
    obtain ⟨hw1, hw2⟩ := hws e (List.mem_cons_self _ _)
    obtain ⟨st1, s1, a1⟩ :=
      element_steps hw1 hw2 (hsc e (List.mem_cons_self _ _)) st hb (parseArrayValue :: ps) hps
    cases r with
    | nil => exact ⟨st1, by simpa [joinComma, Element.bytes] using s1, a1⟩
    | cons e2 r2 =>
      obtain ⟨st2, s2, a2⟩ := ih (by simp)
        (fun x hx => hws x (List.mem_cons_of_mem _ hx))
        (fun x hx => hsc x (List.mem_cons_of_mem _ hx)) .stateBeginValue (Or.inl rfl)
      have hc := afterValue_trans a1 (EndValueTrans.arrayComma ps)
      refine ⟨st2, ?_, a2⟩
      have := s1.append (Steps.cons hc s2)
      simpa [joinComma, Element.bytes] using this

theorem member_steps {d : Nat} (m : Member) (ps : List Nat)
    (hps : (parseObjectValue :: ps).length + d ≤ maxNestingDepth)
    (hws : IsWs m.pre ∧ IsWs m.mid ∧ IsWs m.pre2 ∧ IsWs m.post ∧ StringBody m.key)
    (ht : Scans d m.text) {st : StepFn} (hk : KeyLike st) :
    ∃ st1, Steps st (parseObjectKey :: ps) m.bytes st1 (parseObjectValue :: ps) ∧
      AfterValue st1 (parseObjectValue :: ps) := by
  obtain ⟨h1, h2, h3, h4, h5⟩ := hws
  have hst : SpaceStable st := by
    rcases hk with rfl | rfl
    · exact Or.inr (Or.inr (Or.inl rfl))
    · exact Or.inr (Or.inr (Or.inr (Or.inl rfl)))
  have s1 := spaceStable_ws st hst (parseObjectKey :: ps) h1
  have hq : ∃ op, Trans st (parseObjectKey :: ps) 34 .stateInString (parseObjectKey :: ps) op := by
    rcases hk with rfl | rfl
    · exact ⟨_, .stringOrEmptyQuote _⟩
    · exact ⟨_, .beginStringQuote _⟩
  obtain ⟨op, hq⟩ := hq
  have s2 := stringBody_steps h5 (parseObjectKey :: ps)
  obtain ⟨st3, s3, a3⟩ := afterValue_ws h2 .stateEndValue (parseObjectKey :: ps) (Or.inl rfl)
  have hc := afterValue_trans a3 (EndValueTrans.colon ps)
  obtain ⟨st4, s4, a4⟩ := element_steps h3 h4 ht .stateBeginValue (Or.inl rfl)
    (parseObjectValue :: ps) hps
  refine ⟨st4, ?_, a4⟩
  unfold Member.bytes
  exact s1.append (Steps.cons hq (Steps.append_cons s2 (s3.append (Steps.cons hc s4))))

theorem members_steps {d : Nat} (ps : List Nat)
    (hps : (parseObjectValue :: ps).length + d ≤ maxNestingDepth) :
    ∀ (ms : List Member), ms ≠ [] →
      (∀ m ∈ ms, IsWs m.pre ∧ IsWs m.mid ∧ IsWs m.pre2 ∧ IsWs m.post ∧ StringBody m.key) →
      (∀ m ∈ ms, Scans d m.text) → ∀ (st : StepFn), KeyLike st →
      ∃ st1, Steps st (parseObjectKey :: ps) (joinComma (ms.map Member.bytes)) st1
        (parseObjectValue :: ps) ∧ AfterValue st1 (parseObjectValue :: ps) := by
  intro ms
  induction ms with
  | nil => intro h; exact absurd rfl h
  | cons m r ih =>
    intro _ hws hsc st hk
    obtain ⟨st1, s1, a1⟩ := member_steps m ps hps (hws m (List.mem_cons_self _ _))
      (hsc m (List.mem_cons_self _ _)) hk
    cases r with
    | nil => exact ⟨st1, by simpa [joinComma] using s1, a1⟩
    | cons m2 r2 =>
      obtain ⟨st2, s2, a2⟩ := ih (by simp)
        (fun x hx => hws x (List.mem_cons_of_mem _ hx))
        (fun x hx => hsc x (List.mem_cons_of_mem _ hx)) .stateBeginString (Or.inr rfl)
      have hc := afterValue_trans a1 (EndValueTrans.objectComma ps)
      refine ⟨st2, ?_, a2⟩
      have := s1.append (Steps.cons hc s2)
      simpa [joinComma] using this

theorem value_scans {d : Nat} {t : List Nat} {v : JValue} (h : Value d t v) : Scans d t := by
  induction h with
  | null d => intro ps st hb _; exact ⟨_, null_steps hb ps, Or.inl rfl⟩
  | true d => intro ps st hb _; exact ⟨_, true_steps hb ps, Or.inl rfl⟩
  | false d => intro ps st hb _; exact ⟨_, false_steps hb ps, Or.inl rfl⟩
  | number d n h => intro ps st hb _; exact number_steps h hb ps
  | string d b h =>
    intro ps st hb _
    exact ⟨_, Steps.cons (beginLike_trans hb .quote (by decide)) (stringBody_steps h ps),
      Or.inl rfl⟩
  | emptyArray d w hw =>
    intro ps st hb hps
    have hlt : ps.length < maxNestingDepth := by omega
    have h1 := beginLike_trans hb (BeginValueTrans.beginArray hlt) (by decide)
    have s2 := spaceStable_ws .stateBeginValueOrEmpty (Or.inr (Or.inl rfl))
      (parseArrayValue :: ps) hw
    have h3 : Trans .stateBeginValueOrEmpty (parseArrayValue :: ps) 93 (popStep ps) ps
        scanEndArray := .orEmptyEnd _ _ _ _ (.endArray ps)
    exact ⟨_, Steps.cons h1 (s2.append (Steps.single h3)), popStep_afterValue ps⟩
  | array d es hne hws _ ih =>
    intro ps st hb hps
    have hlt : ps.length < maxNestingDepth := by omega
    have h1 := beginLike_trans hb (BeginValueTrans.beginArray hlt) (by decide)
    obtain ⟨st2, s2, a2⟩ := elements_steps ps (by simp; omega) es hne hws ih
      .stateBeginValueOrEmpty (Or.inr rfl)
    have h3 := afterValue_trans a2 (EndValueTrans.endArray ps)
    exact ⟨_, Steps.cons h1 (s2.append (Steps.single h3)), popStep_afterValue ps⟩
  | emptyObject d w hw =>
    intro ps st hb hps
    have hlt : ps.length < maxNestingDepth := by omega
    have h1 := beginLike_trans hb (BeginValueTrans.beginObject hlt) (by decide)
    have s2 := spaceStable_ws .stateBeginStringOrEmpty (Or.inr (Or.inr (Or.inl rfl)))
      (parseObjectKey :: ps) hw
    have h3 : Trans .stateBeginStringOrEmpty (parseObjectKey :: ps) 125 (popStep ps) ps
        scanEndObject := .stringOrEmptyEnd _ _ _ _ (.endObject ps)
    exact ⟨_, Steps.cons h1 (s2.append (Steps.single h3)), popStep_afterValue ps⟩
  | object d ms hne hws _ ih =>
    intro ps st hb hps
    have hlt : ps.length < maxNestingDepth := by omega
    have h1 := beginLike_trans hb (BeginValueTrans.beginObject hlt) (by decide)
    obtain ⟨st2, s2, a2⟩ := members_steps ps (by simp; omega) ms hne hws ih
      .stateBeginStringOrEmpty (Or.inl rfl)
    have h3 := afterValue_trans a2 (EndValueTrans.endObject ps)
    exact ⟨_, Steps.cons h1 (s2.append (Steps.single h3)), popStep_afterValue ps⟩

theorem afterValue_accepting {st : StepFn} (h : AfterValue st []) : Accepting st [] := by
  by_cases he : st = .stateEndTop
  · exact Or.inl he
  · have ht := afterValue_trans h (EndValueTrans.topSpace 32 (by decide))
    exact Or.inr ⟨_, _, ht⟩

/-- Every JSON text nested at most `maxNestingDepth` deep is compacted with
success. -/
theorem minifyJSON_complete {d : Nat} {D : List Nat} {v : JValue} (h : Document d D v)
    (hd : d ≤ maxNestingDepth) : ∃ out, minifyJSON D = .ok out := by
  obtain ⟨pre, body, post, rfl, hpre, hpost, hv⟩ := h
  obtain ⟨st1, ⟨out, hr⟩, a1⟩ := element_steps hpre hpost (value_scans hv)
    .stateBeginValue (Or.inl rfl) [] (by simpa using hd)
  exact ⟨out, (minifyJSON_ok_iff _ _).2 ⟨st1, [], hr, afterValue_accepting a1⟩⟩

theorem stripFrom_idem : ∀ (l : List Nat) (q : Lex),
    stripFrom q (stripFrom q l) = stripFrom q l := by
  intro l
  induction l with
  | nil => intro q; cases q <;> rfl
  | cons c l ih =>
    intro q
    rw [stripFrom_cons]
    by_cases h : q = .outside ∧ isWhitespace c = true
    · rw [if_pos h]
      have hq : q.next c = q := by
        obtain ⟨rfl, hw⟩ := h
        simp [Lex.next, hw]
      rw [hq]; exact ih q
    · rw [if_neg h, stripFrom_cons, if_neg h, ih]

theorem stripFrom_ws {w : List Nat} (hw : IsWs w) (r : List Nat) :
    stripFrom .outside (w ++ r) = stripFrom .outside r := by
  induction w with
  | nil => rfl
  | cons c w ih =>
    have hc : isWhitespace c = true := hw c (List.mem_cons_self _ _)
    have hw' : IsWs w := fun x hx => hw x (List.mem_cons_of_mem _ hx)
    simp [stripFrom, hc, ih hw']

theorem stripFrom_plain {n : List Nat} (h : ∀ c ∈ n, isWhitespace c = false ∧ c ≠ 34)
    (r : List Nat) : stripFrom .outside (n ++ r) = n ++ stripFrom .outside r := by
  induction n with
  | nil => rfl
  | cons c n ih =>
    obtain ⟨h1, h2⟩ := h c (List.mem_cons_self _ _)
    have h' : ∀ x ∈ n, isWhitespace x = false ∧ x ≠ 34 :=
      fun x hx => h x (List.mem_cons_of_mem _ hx)
    simp [stripFrom, h1, h2, ih h']

theorem hexDigit_ne {c : Nat} (h : IsHexDigit c) : c ≠ 34 ∧ c ≠ 92 := by
  rcases h with ⟨h1, h2⟩ | ⟨h1, h2⟩ | ⟨h1, h2⟩ <;> constructor <;> omega

theorem stripFrom_stringBody {b : List Nat} (h : StringBody b) (r : List Nat) :
    stripFrom .inString (b ++ 34 :: r) = b ++ 34 :: stripFrom .outside r := by
  induction h with
  | nil => simp [stripFrom]
  | byte c l h1 h2 h3 _ ih => simp [stripFrom, h2, h3, ih]
  | esc e l he _ ih => simp [stripFrom, ih]
  | unicode a b c d l ha hb hc hd _ ih =>
    simp [stripFrom, (hexDigit_ne ha).1, (hexDigit_ne ha).2, (hexDigit_ne hb).1,
      (hexDigit_ne hb).2, (hexDigit_ne hc).1, (hexDigit_ne hc).2, (hexDigit_ne hd).1,
      (hexDigit_ne hd).2, ih]

theorem plain_of_ge {c : Nat} (h : 43 ≤ c) : isWhitespace c = false ∧ c ≠ 34 :=
  ⟨isWhitespace_false_of_ge h, by omega⟩

theorem digits_plain {ds : List Nat} (h : IsDigits ds) :
    ∀ c ∈ ds, isWhitespace c = false ∧ c ≠ 34 :=
  fun c hc => plain_of_ge (by have := (h c hc).1; omega)

theorem number_plain {n : List Nat} (h : IsNumber n) :
    ∀ c ∈ n, isWhitespace c = false ∧ c ≠ 34 := by
  obtain ⟨sign, i, f, e, rfl, hsign, hi, hf, he⟩ := h
  intro c hc
  simp only [List.mem_append] at hc
  rcases hc with ((hc | hc) | hc) | hc
  · rcases hsign with rfl | rfl
    · simp at hc
    · simp at hc; subst hc; exact plain_of_ge (by omega)
  · rcases hi with rfl | ⟨d, ds, rfl, h1, h2, hds⟩
    · simp at hc; subst hc; exact plain_of_ge (by omega)
    · rcases List.mem_cons.1 hc with rfl | hc
      · exact plain_of_ge (by omega)
      · exact digits_plain hds c hc
  · rcases hf with rfl | ⟨ds, rfl, _, hds⟩
    · simp at hc
    · rcases List.mem_cons.1 hc with rfl | hc
      · exact plain_of_ge (by omega)
      · exact digits_plain hds c hc
  · rcases he with rfl | ⟨x, sign, ds, rfl, hx, hs, _, hds⟩
    · simp at hc
    · rcases List.mem_cons.1 hc with rfl | hc
      · rcases hx with rfl | rfl <;> exact plain_of_ge (by omega)
      · rcases List.mem_append.1 hc with hc | hc
        · rcases hs with rfl | rfl | rfl
          · simp at hc
          · simp at hc; subst hc; exact plain_of_ge (by omega)
          · simp at hc; subst hc; exact plain_of_ge (by omega)
        · exact digits_plain hds c hc

theorem isWs_nil : IsWs [] := fun _ h => absurd h (List.not_mem_nil _)

theorem elements_strip {d : Nat} :
    ∀ (es : List Element), es ≠ [] → (∀ e ∈ es, IsWs e.pre ∧ IsWs e.post) →
      (∀ e ∈ es, ∃ t1, StripsTo d e.text e.val t1) →
      ∃ es1 : List Element, es1 ≠ [] ∧ es1.map Element.val = es.map Element.val ∧
        (∀ e ∈ es1, IsWs e.pre ∧ IsWs e.post) ∧ (∀ e ∈ es1, Value d e.text e.val) ∧
        ∀ r, stripFrom .outside (joinComma (es.map Element.bytes) ++ r)
          = joinComma (es1.map Element.bytes) ++ stripFrom .outside r := by
  intro es
  induction es with
  | nil => intro h; exact absurd rfl h
  | cons e r ih =>
    intro _ hws hst
    obtain ⟨hw1, hw2⟩ := hws e (List.mem_cons_self _ _)
    obtain ⟨t1, hv1, hs1⟩ := hst e (List.mem_cons_self _ _)
    have hone : ∀ x, stripFrom .outside (e.bytes ++ x) = t1 ++ stripFrom .outside x := by
      intro x
      unfold Element.bytes
      rw [List.append_assoc, List.append_assoc, stripFrom_ws hw1, hs1, stripFrom_ws hw2]
    cases r with
    | nil =>
      refine ⟨[⟨[], t1, [], e.val⟩], by simp, by simp, ?_, ?_, ?_⟩
      · intro x hx; simp at hx; subst hx; exact ⟨isWs_nil, isWs_nil⟩
      · intro x hx; simp at hx; subst hx; exact hv1
      · intro x; simpa [joinComma, Element.bytes] using hone x
    | cons e2 r2 =>
      obtain ⟨es1, hne, hval, hws1, hv, hs⟩ := ih (by simp)
        (fun x hx => hws x (List.mem_cons_of_mem _ hx))
        (fun x hx => hst x (List.mem_cons_of_mem _ hx))
      obtain ⟨f, fs, rfl⟩ : ∃ f fs, es1 = f :: fs := by
        cases es1 with
        | nil => exact absurd rfl hne
        | cons f fs => exact ⟨f, fs, rfl⟩
      refine ⟨⟨[], t1, [], e.val⟩ :: f :: fs, by simp, ?_, ?_, ?_, ?_⟩
      · simp only [List.map_cons] at hval ⊢; rw [hval]
      · intro x hx
        rcases List.mem_cons.1 hx with rfl | hx
        · exact ⟨isWs_nil, isWs_nil⟩
        · exact hws1 x hx
      · intro x hx
        rcases List.mem_cons.1 hx with rfl | hx
        · exact hv1
        · exact hv x hx
      · intro x
        have h2 := hs x
        simp only [List.map_cons, joinComma] at h2 ⊢
        rw [List.append_assoc, hone]
        simp only [List.cons_append]
        rw [show stripFrom .outside (44 :: (joinComma (e2.bytes :: List.map Element.bytes r2) ++ x))
            = 44 :: stripFrom .outside (joinComma (e2.bytes :: List.map Element.bytes r2) ++ x)
          by simp [stripFrom, isWhitespace]]
        rw [h2]
        simp [Element.bytes]

theorem member_strip_one {d : Nat} (m : Member)
    (hws : IsWs m.pre ∧ IsWs m.mid ∧ IsWs m.pre2 ∧ IsWs m.post ∧ StringBody m.key)
    {t1 : List Nat} (hs1 : StripsTo d m.text m.val t1) (x : List Nat) :
    stripFrom .outside (m.bytes ++ x)
      = (⟨[], m.key, [], [], t1, [], m.val⟩ : Member).bytes ++ stripFrom .outside x := by
  obtain ⟨h1, h2, h3, h4, h5⟩ := hws
  have e1 : m.bytes ++ x = m.pre ++ (34 :: (m.key ++ 34 :: (m.mid ++ (58 :: (m.pre2 ++
      (m.text ++ (m.post ++ x))))))) := by
    simp [Member.bytes]
  rw [e1, stripFrom_ws h1]
  rw [show stripFrom .outside (34 :: (m.key ++ 34 :: (m.mid ++ (58 :: (m.pre2 ++
      (m.text ++ (m.post ++ x)))))))
      = 34 :: stripFrom .inString (m.key ++ 34 :: (m.mid ++ (58 :: (m.pre2 ++
      (m.text ++ (m.post ++ x)))))) by simp [stripFrom, isWhitespace]]
  rw [stripFrom_stringBody h5, stripFrom_ws h2]
  rw [show stripFrom .outside (58 :: (m.pre2 ++ (m.text ++ (m.post ++ x))))
      = 58 :: stripFrom .outside (m.pre2 ++ (m.text ++ (m.post ++ x)))
    by simp [stripFrom, isWhitespace]]
  rw [stripFrom_ws h3, hs1.2, stripFrom_ws h4]
  simp [Member.bytes]

theorem members_strip {d : Nat} :
    ∀ (ms : List Member), ms ≠ [] →
      (∀ m ∈ ms, IsWs m.pre ∧ IsWs m.mid ∧ IsWs m.pre2 ∧ IsWs m.post ∧ StringBody m.key) →
      (∀ m ∈ ms, ∃ t1, StripsTo d m.text m.val t1) →
      ∃ ms1 : List Member, ms1 ≠ [] ∧
        (ms1.map fun m => (m.key, m.val)) = (ms.map fun m => (m.key, m.val)) ∧
        (∀ m ∈ ms1, IsWs m.pre ∧ IsWs m.mid ∧ IsWs m.pre2 ∧ IsWs m.post ∧ StringBody m.key) ∧
        (∀ m ∈ ms1, Value d m.text m.val) ∧
        ∀ r, stripFrom .outside (joinComma (ms.map Member.bytes) ++ r)
          = joinComma (ms1.map Member.bytes) ++ stripFrom .outside r := by
  intro ms
  induction ms with
  | nil => intro h; exact absurd rfl h
  | cons m r ih =>
    intro _ hws hst
    have hm := hws m (List.mem_cons_self _ _)
    obtain ⟨t1, hs1⟩ := hst m (List.mem_cons_self _ _)
    have hone := member_strip_one m hm hs1
    have hm1 : IsWs ([] : List Nat) ∧ IsWs ([] : List Nat) ∧ IsWs ([] : List Nat) ∧
        IsWs ([] : List Nat) ∧ StringBody m.key :=
      ⟨isWs_nil, isWs_nil, isWs_nil, isWs_nil, hm.2.2.2.2⟩
    cases r with
    | nil =>
      refine ⟨[⟨[], m.key, [], [], t1, [], m.val⟩], by simp, by simp, ?_, ?_, ?_⟩
      · intro x hx; simp at hx; subst hx; exact hm1
      · intro x hx; simp at hx; subst hx; exact hs1.1
      · intro x; simpa [joinComma] using hone x
    | cons m2 r2 =>
      obtain ⟨ms1, hne, hval, hws1, hv, hs⟩ := ih (by simp)
        (fun x hx => hws x (List.mem_cons_of_mem _ hx))
        (fun x hx => hst x (List.mem_cons_of_mem _ hx))
      obtain ⟨f, fs, rfl⟩ : ∃ f fs, ms1 = f :: fs := by
        cases ms1 with
        | nil => exact absurd rfl hne
        | cons f fs => exact ⟨f, fs, rfl⟩
      refine ⟨⟨[], m.key, [], [], t1, [], m.val⟩ :: f :: fs, by simp, ?_, ?_, ?_, ?_⟩
      · simp only [List.map_cons] at hval ⊢; rw [hval]
      · intro x hx
        rcases List.mem_cons.1 hx with rfl | hx
        · exact hm1
        · exact hws1 x hx
      · intro x hx
        rcases List.mem_cons.1 hx with rfl | hx
        · exact hs1.1
        · exact hv x hx
      · intro x
        have h2 := hs x
        simp only [List.map_cons, joinComma] at h2 ⊢
        rw [List.append_assoc, hone]
        simp only [List.cons_append]
        rw [show stripFrom .outside (44 :: (joinComma (m2.bytes :: List.map Member.bytes r2) ++ x))
            = 44 :: stripFrom .outside (joinComma (m2.bytes :: List.map Member.bytes r2) ++ x)
          by simp [stripFrom, isWhitespace]]
        rw [h2]
        simp

theorem value_strip {d : Nat} {t : List Nat} {v : JValue} (h : Value d t v) :
    ∃ t1, StripsTo d t v t1 := by
  induction h with
  | null d => exact ⟨_, .null d, fun r => by simp [stripFrom, isWhitespace]⟩
  | true d => exact ⟨_, .true d, fun r => by simp [stripFrom, isWhitespace]⟩
  | false d => exact ⟨_, .false d, fun r => by simp [stripFrom, isWhitespace]⟩
  | number d n h => exact ⟨n, .number d n h, stripFrom_plain (number_plain h)⟩
  | string d b h =>
    refine ⟨_, .string d b h, fun r => ?_⟩
    have := stripFrom_stringBody h r
    simp [stripFrom, isWhitespace, this]
  | emptyArray d w hw =>
    refine ⟨_, .emptyArray d [] isWs_nil, fun r => ?_⟩
    have := stripFrom_ws hw (93 :: r)
    simp [stripFrom, isWhitespace, this]
  | array d es hne hws _ ih =>
    obtain ⟨es1, hne1, hval, hws1, hv1, hs⟩ := elements_strip es hne hws ih
    refine ⟨_, hval ▸ Value.array d es1 hne1 hws1 hv1, fun r => ?_⟩
    have := hs (93 :: r)
    simp only [List.cons_append, List.append_assoc, List.singleton_append, List.nil_append]
    rw [show stripFrom .outside (91 :: (joinComma (es.map Element.bytes) ++ 93 :: r))
        = 91 :: stripFrom .outside (joinComma (es.map Element.bytes) ++ 93 :: r)
      by simp [stripFrom, isWhitespace]]
    rw [this]
    simp [stripFrom, isWhitespace]
  | emptyObject d w hw =>
    refine ⟨_, .emptyObject d [] isWs_nil, fun r => ?_⟩
    have := stripFrom_ws hw (125 :: r)
    simp [stripFrom, isWhitespace, this]
  | object d ms hne hws _ ih =>
    obtain ⟨ms1, hne1, hval, hws1, hv1, hs⟩ := members_strip ms hne hws ih
    refine ⟨_, hval ▸ Value.object d ms1 hne1 hws1 hv1, fun r => ?_⟩
    have := hs (125 :: r)
    simp only [List.cons_append, List.append_assoc, List.singleton_append, List.nil_append]
    rw [show stripFrom .outside (123 :: (joinComma (ms.map Member.bytes) ++ 125 :: r))
        = 123 :: stripFrom .outside (joinComma (ms.map Member.bytes) ++ 125 :: r)
      by simp [stripFrom, isWhitespace]]
    rw [this]
    simp [stripFrom, isWhitespace]

/-- Deleting the whitespace outside strings of a JSON text leaves a JSON text
of the same value and depth. -/
theorem document_strip {d : Nat} {D : List Nat} {v : JValue} (h : Document d D v) :
    Document d (stripWhitespace D) v := by
  obtain ⟨pre, body, post, rfl, hpre, hpost, hv⟩ := h
  obtain ⟨t1, hv1, hs⟩ := value_strip hv
  refine ⟨[], t1, [], ?_, isWs_nil, isWs_nil, hv1⟩
  unfold stripWhitespace
  rw [List.append_assoc, stripFrom_ws hpre, hs, ← List.append_nil post, stripFrom_ws hpost]
  simp [stripFrom]

theorem After_nil (r : List Nat) : After [] r ↔ IsWs r := by
  unfold After; rfl

theorem After_array (t r : List Nat) :
    After (parseArrayValue :: t) r ↔
      ∃ w es r1, r = w ++ (commaElems es ++ 93 :: r1) ∧ IsWs w ∧ (∀ e ∈ es, ElemOK e) ∧
        After t r1 := by
  rw [After]; simp

theorem After_objectValue (t r : List Nat) :
    After (parseObjectValue :: t) r ↔
      ∃ w ms r1, r = w ++ (commaMembers ms ++ 125 :: r1) ∧ IsWs w ∧ (∀ m ∈ ms, MemOK m) ∧
        After t r1 := by
  rw [After]; simp [parseObjectValue, parseArrayValue]

theorem After_objectKey (t r : List Nat) :
    After (parseObjectKey :: t) r ↔
      ∃ w pre2 text post v ms r1,
        r = w ++ 58 :: (pre2 ++ text ++ post ++ (commaMembers ms ++ 125 :: r1)) ∧
        IsWs w ∧ IsWs pre2 ∧ IsWs post ∧ (∃ d, Value d text v) ∧ (∀ m ∈ ms, MemOK m) ∧
        After t r1 := by
  rw [After]; simp [parseObjectValue, parseArrayValue, parseObjectKey]

theorem isWs_cons {c : Nat} {w : List Nat} (hc : isWhitespace c = true) (hw : IsWs w) :
    IsWs (c :: w) := by
  intro x hx
  rcases List.mem_cons.1 hx with rfl | hx
  · exact hc
  · exact hw x hx

theorem isWs_append {w1 w2 : List Nat} (h1 : IsWs w1) (h2 : IsWs w2) : IsWs (w1 ++ w2) := by
  intro x hx
  rcases List.mem_append.1 hx with hx | hx
  · exact h1 x hx
  · exact h2 x hx

theorem After_ws_cons {c : Nat} (hc : isWhitespace c = true) :
    ∀ {ps r : List Nat}, After ps r → After ps (c :: r) := by
  intro ps r h
  cases ps with
  | nil => rw [After_nil] at h ⊢; exact isWs_cons hc h
  | cons p t =>
    by_cases h2 : p = parseArrayValue
    · subst h2
      rw [After_array] at h ⊢
      obtain ⟨w, es, r1, rfl, hw, hes, ha⟩ := h
      exact ⟨c :: w, es, r1, rfl, isWs_cons hc hw, hes, ha⟩
    · by_cases h1 : p = parseObjectValue
      · subst h1
        rw [After_objectValue] at h ⊢
        obtain ⟨w, ms, r1, rfl, hw, hms, ha⟩ := h
        exact ⟨c :: w, ms, r1, rfl, isWs_cons hc hw, hms, ha⟩
      · by_cases h0 : p = parseObjectKey
        · subst h0
          rw [After_objectKey] at h ⊢
          obtain ⟨w, pre2, text, post, v, ms, r1, rfl, hw, h3, h4, h5, hms, ha⟩ := h
          exact ⟨c :: w, pre2, text, post, v, ms, r1, rfl, isWs_cons hc hw, h3, h4, h5, hms, ha⟩
        · rw [After] at h
          simp [h2, h1, h0] at h

theorem joinComma_elems (e : Element) (es : List Element) :
    joinComma ((e :: es).map Element.bytes) = e.bytes ++ commaElems es := by
  induction es generalizing e with
  | nil => simp [joinComma, commaElems]
  | cons e2 r ih =>
    have := ih e2
    simp only [List.map_cons] at this ⊢
    simp [joinComma, commaElems, this]

theorem joinComma_members (m : Member) (ms : List Member) :
    joinComma ((m :: ms).map Member.bytes) = m.bytes ++ commaMembers ms := by
  induction ms generalizing m with
  | nil => simp [joinComma, commaMembers]
  | cons m2 r ih =>
    have := ih m2
    simp only [List.map_cons] at this ⊢
    simp [joinComma, commaMembers, this]

theorem elems_depth : ∀ (es : List Element), (∀ e ∈ es, ElemOK e) →
    ∃ d, ∀ e ∈ es, Value d e.text e.val := by
  intro es
  induction es with
  | nil => intro _; exact ⟨0, fun e he => absurd he (List.not_mem_nil _)⟩
  | cons e r ih =>
    intro h
    obtain ⟨d1, h1⟩ := (h e (List.mem_cons_self _ _)).2.2
    obtain ⟨d2, h2⟩ := ih (fun x hx => h x (List.mem_cons_of_mem _ hx))
    refine ⟨max d1 d2, fun x hx => ?_⟩
    rcases List.mem_cons.1 hx with rfl | hx
    · exact h1.mono (le_max_left _ _)
    · exact (h2 x hx).mono (le_max_right _ _)

theorem members_depth : ∀ (ms : List Member), (∀ m ∈ ms, MemOK m) →
    ∃ d, ∀ m ∈ ms, Value d m.text m.val := by
  intro ms
  induction ms with
  | nil => intro _; exact ⟨0, fun e he => absurd he (List.not_mem_nil _)⟩
  | cons m r ih =>
    intro h
    obtain ⟨d1, h1⟩ := (h m (List.mem_cons_self _ _)).2
    obtain ⟨d2, h2⟩ := ih (fun x hx => h x (List.mem_cons_of_mem _ hx))
    refine ⟨max d1 d2, fun x hx => ?_⟩
    rcases List.mem_cons.1 hx with rfl | hx
    · exact h1.mono (le_max_left _ _)
    · exact (h2 x hx).mono (le_max_right _ _)

theorem suffix_popStep {t l : List Nat} (h : Suffix (popStep t) t l) : After t l := by
  unfold popStep at h
  by_cases ht : t = []
  · subst ht
    rw [if_pos rfl] at h
    rw [After_nil]; exact h
  · rw [if_neg ht] at h
    exact h

theorem ValueThen_ws_cons {c : Nat} (hc : isWhitespace c = true) {ps s : List Nat}
    (h : ValueThen ps s) : ValueThen ps (c :: s) := by
  obtain ⟨w, body, r, rfl, hw, hv, ha⟩ := h
  exact ⟨c :: w, body, r, rfl, isWs_cons hc hw, hv, ha⟩

theorem KeyThen_ws_cons {c : Nat} (hc : isWhitespace c = true) {ps s : List Nat}
    (h : KeyThen ps s) : KeyThen ps (c :: s) := by
  obtain ⟨w, key, r, rfl, hw, hk, ha⟩ := h
  exact ⟨c :: w, key, r, rfl, isWs_cons hc hw, hk, ha⟩

theorem emptyArray_assemble {ps w r1 : List Nat} (hw : IsWs w) (ha : After ps r1) :
    ValueThen ps (91 :: (w ++ 93 :: r1)) :=
  ⟨[], 91 :: (w ++ [93]), r1, by simp, isWs_nil, ⟨1, _, .emptyArray 0 w hw⟩, ha⟩

theorem emptyObject_assemble {ps w r1 : List Nat} (hw : IsWs w) (ha : After ps r1) :
    ValueThen ps (123 :: (w ++ 125 :: r1)) :=
  ⟨[], 123 :: (w ++ [125]), r1, by simp, isWs_nil, ⟨1, _, .emptyObject 0 w hw⟩, ha⟩

theorem array_assemble {ps l : List Nat} (h : ValueThen (parseArrayValue :: ps) l) :
    ValueThen ps (91 :: l) := by
  obtain ⟨w, body, r, rfl, hw, ⟨d0, v, hv⟩, ha⟩ := h
  rw [After_array] at ha
  obtain ⟨w0, es, r1, rfl, hw0, hes, ha1⟩ := ha
  let e1 : Element := ⟨w, body, w0, v⟩
  have hall : ∀ e ∈ e1 :: es, ElemOK e := by
    intro e he
    rcases List.mem_cons.1 he with rfl | he
    · exact ⟨hw, hw0, d0, hv⟩
    · exact hes e he
  obtain ⟨d, hd⟩ := elems_depth (e1 :: es) hall
  have hval := Value.array d (e1 :: es) (by simp) (fun e he => ⟨(hall e he).1, (hall e he).2.1⟩) hd
  refine ⟨[], _, r1, ?_, isWs_nil, ⟨d + 1, _, hval⟩, ha1⟩
  rw [joinComma_elems]
  simp [Element.bytes, e1]

theorem object_assemble {ps l : List Nat} (h : KeyThen (parseObjectKey :: ps) l) :
    ValueThen ps (123 :: l) := by
  obtain ⟨w, key, r, rfl, hw, hk, ha⟩ := h
  rw [After_objectKey] at ha
  obtain ⟨w0, pre2, text, post, v, ms, r1, rfl, hw0, h3, h4, ⟨d0, hv⟩, hms, ha1⟩ := ha
  let m1 : Member := ⟨w, key, w0, pre2, text, post, v⟩
  have hall : ∀ m ∈ m1 :: ms, MemOK m := by
    intro m hm
    rcases List.mem_cons.1 hm with rfl | hm
    · exact ⟨⟨hw, hw0, h3, h4, hk⟩, d0, hv⟩
    · exact hms m hm
  obtain ⟨d, hd⟩ := members_depth (m1 :: ms) hall
  have hval := Value.object d (m1 :: ms) (by simp) (fun m hm => (hall m hm).1) hd
  refine ⟨[], _, r1, ?_, isWs_nil, ⟨d + 1, _, hval⟩, ha1⟩
  rw [joinComma_members]
  simp [Member.bytes, m1]

theorem endValue_step {ps : List Nat} {c : Nat} {st1 : StepFn} {ps1 : List Nat} {op : Nat}
    (h : EndValueTrans ps c st1 ps1 op) {l : List Nat} (hs : Suffix st1 ps1 l) :
    After ps (c :: l) := by
  cases h with
  | topSpace c hw =>
    rw [After_nil]
    exact isWs_cons hw hs
  | space p t c hw => exact After_ws_cons hw hs
  | colon t =>
    obtain ⟨w, body, r, rfl, hw, ⟨d, v, hv⟩, ha⟩ := hs
    rw [After_objectValue] at ha
    obtain ⟨w0, ms, r1, rfl, hw0, hms, ha1⟩ := ha
    rw [After_objectKey]
    exact ⟨[], w, body, w0, v, ms, r1, by simp, isWs_nil, hw, hw0, ⟨d, hv⟩, hms, ha1⟩
  | objectComma t =>
    obtain ⟨w, key, r, rfl, hw, hk, ha⟩ := hs
    rw [After_objectKey] at ha
    obtain ⟨w0, pre2, text, post, v, ms, r1, rfl, hw0, h3, h4, hv, hms, ha1⟩ := ha
    rw [After_objectValue]
    refine ⟨[], ⟨w, key, w0, pre2, text, post, v⟩ :: ms, r1, ?_, isWs_nil, ?_, ha1⟩
    · simp [commaMembers, Member.bytes]
    · intro m hm
      rcases List.mem_cons.1 hm with rfl | hm
      · exact ⟨⟨hw, hw0, h3, h4, hk⟩, hv⟩
      · exact hms m hm
  | endObject =>
    rw [After_objectValue]
    exact ⟨[], [], l, by simp [commaMembers], isWs_nil,
      fun m hm => absurd hm (List.not_mem_nil _), suffix_popStep hs⟩
  | arrayComma t =>
    obtain ⟨w, body, r, rfl, hw, ⟨d, v, hv⟩, ha⟩ := hs
    rw [After_array] at ha
    obtain ⟨w0, es, r1, rfl, hw0, hes, ha1⟩ := ha
    rw [After_array]
    refine ⟨[], ⟨w, body, w0, v⟩ :: es, r1, ?_, isWs_nil, ?_, ha1⟩
    · simp [commaElems, Element.bytes]
    · intro e he
      rcases List.mem_cons.1 he with rfl | he
      · exact ⟨hw, hw0, d, hv⟩
      · exact hes e he
  | endArray =>
    rw [After_array]
    exact ⟨[], [], l, by simp [commaElems], isWs_nil,
      fun e he => absurd he (List.not_mem_nil _), suffix_popStep hs⟩

theorem isDigits_nil : IsDigits [] := fun _ h => absurd h (List.not_mem_nil _)

theorem isDigits_cons {c : Nat} {ds : List Nat} (h1 : 48 ≤ c) (h2 : c ≤ 57)
    (h : IsDigits ds) : IsDigits (c :: ds) := by
  intro x hx
  rcases List.mem_cons.1 hx with rfl | hx
  · exact ⟨h1, h2⟩
  · exact h x hx

theorem number_then {ps n r : List Nat} (hn : IsNumber n) (ha : After ps r) :
    ValueThen ps (n ++ r) :=
  ⟨[], n, r, rfl, isWs_nil, ⟨0, _, .number 0 n hn⟩, ha⟩

theorem beginValue_step {ps : List Nat} {c : Nat} {st1 : StepFn} {ps1 : List Nat} {op : Nat}
    (h : BeginValueTrans ps c st1 ps1 op) {l : List Nat} (hs : Suffix st1 ps1 l) :
    ValueThen ps (c :: l) := by
  cases h with
  | beginObject h =>
    rcases hs with ⟨w, r1, rfl, hw, ha⟩ | hk
    · exact emptyObject_assemble hw ha
    · exact object_assemble hk
  | beginArray h =>
    rcases hs with ⟨w, r1, rfl, hw, t, ht, ha⟩ | hv
    · injection ht with _ ht; subst ht
      exact emptyArray_assemble hw ha
    · exact array_assemble hv
  | quote =>
    obtain ⟨b, r, rfl, hb, ha⟩ := hs
    have hb' : StringBody b := by simpa using hb [] rfl (fun _ h => absurd h (List.not_mem_nil _))
    exact ⟨[], 34 :: (b ++ [34]), r, by simp, isWs_nil, ⟨0, _, .string 0 b hb'⟩, ha⟩
  | minus =>
    obtain ⟨n, r, rfl, ⟨i, f, e, rfl, hi, hf, he⟩, ha⟩ := hs
    exact number_then (n := 45 :: (i ++ (f ++ e)))
      ⟨[45], i, f, e, by simp, Or.inr rfl, hi, hf, he⟩ ha
  | zero =>
    obtain ⟨n, r, rfl, ⟨f, e, rfl, hf, he⟩, ha⟩ := hs
    exact number_then (n := 48 :: (f ++ e))
      ⟨[], [48], f, e, by simp, Or.inl rfl, Or.inl rfl, hf, he⟩ ha
  | t =>
    obtain ⟨r, rfl, ha⟩ := hs
    exact ⟨[], [116, 114, 117, 101], r, by simp, isWs_nil, ⟨0, _, .true 0⟩, ha⟩
  | f =>
    obtain ⟨r, rfl, ha⟩ := hs
    exact ⟨[], [102, 97, 108, 115, 101], r, by simp, isWs_nil, ⟨0, _, .false 0⟩, ha⟩
  | n =>
    obtain ⟨r, rfl, ha⟩ := hs
    exact ⟨[], [110, 117, 108, 108], r, by simp, isWs_nil, ⟨0, _, .null 0⟩, ha⟩
  | digit c h1 h2 =>
    obtain ⟨n, r, rfl, ⟨ds, f, e, rfl, hds, hf, he⟩, ha⟩ := hs
    exact number_then (n := c :: (ds ++ (f ++ e)))
      ⟨[], c :: ds, f, e, by simp, Or.inl rfl, Or.inr ⟨c, ds, rfl, h1, h2, hds⟩, hf, he⟩ ha

theorem hexDigit_of_isHex {c : Nat} (h : isHex c = true) : IsHexDigit c := by
  simp only [isHex, Bool.or_eq_true, Bool.and_eq_true, decide_eq_true_eq] at h
  rcases h with (h | h) | h
  · exact Or.inl h
  · exact Or.inr (Or.inr h)
  · exact Or.inr (Or.inl h)

theorem numThen_end (st : StepFn) (hn : NumTail st []) {ps : List Nat} {c : Nat}
    {st1 : StepFn} {ps1 : List Nat} {op : Nat} (h : EndValueTrans ps c st1 ps1 op)
    {l : List Nat} (hs : Suffix st1 ps1 l) : NumThen st ps (c :: l) :=
  ⟨[], c :: l, rfl, hn, endValue_step h hs⟩

theorem isExp_nil : IsExp [] := Or.inl rfl

theorem isFrac_nil : IsFrac [] := Or.inl rfl

theorem isExp_cons {c : Nat} (hc : c = 101 ∨ c = 69) {sign ds : List Nat}
    (hsign : sign = [] ∨ sign = [43] ∨ sign = [45]) (hne : ds ≠ []) (hds : IsDigits ds) :
    IsExp (c :: (sign ++ ds)) :=
  Or.inr ⟨c, sign, ds, rfl, hc, hsign, hne, hds⟩

theorem trans_step {st : StepFn} {ps : List Nat} {c : Nat} {st1 : StepFn} {ps1 : List Nat}
    {op : Nat} (h : Trans st ps c st1 ps1 op) {l : List Nat} (hs : Suffix st1 ps1 l) :
    Suffix st ps (c :: l) := by
  cases h with
  | beginValueSpace ps c hw => exact ValueThen_ws_cons hw hs
  | beginValue ps c st ps1 op hw h => exact beginValue_step h hs
  | orEmptySpace ps c hw =>
    rcases hs with ⟨w, r1, rfl, hw1, ha⟩ | hv
    · exact Or.inl ⟨c :: w, r1, rfl, isWs_cons hw hw1, ha⟩
    · exact Or.inr (ValueThen_ws_cons hw hv)
  | orEmptyEnd ps st ps1 op h =>
    cases h with
    | topSpace c hw => exact absurd hw (by decide)
    | space p t c hw => exact absurd hw (by decide)
    | endArray => exact Or.inl ⟨[], l, rfl, isWs_nil, _, rfl, suffix_popStep hs⟩
  | orEmptyValue ps c st ps1 op hw h => exact Or.inr (beginValue_step h hs)
  | stringOrEmptySpace ps c hw =>
    rcases hs with ⟨w, r1, rfl, hw1, ha⟩ | hk
    · exact Or.inl ⟨c :: w, r1, rfl, isWs_cons hw hw1, ha⟩
    · exact Or.inr (KeyThen_ws_cons hw hk)
  | stringOrEmptyEnd ps st ps1 op h =>
    cases h with
    | space p t c hw => exact absurd hw (by decide)
    | endObject => exact Or.inl ⟨[], l, rfl, isWs_nil, suffix_popStep hs⟩
  | stringOrEmptyQuote ps =>
    obtain ⟨b, r, rfl, hb, ha⟩ := hs
    have hb' : StringBody b := by simpa using hb [] rfl (fun _ h => absurd h (List.not_mem_nil _))
    exact Or.inr ⟨[], b, r, rfl, isWs_nil, hb', ha⟩
  | beginStringSpace ps c hw => exact KeyThen_ws_cons hw hs
  | beginStringQuote ps =>
    obtain ⟨b, r, rfl, hb, ha⟩ := hs
    have hb' : StringBody b := by simpa using hb [] rfl (fun _ h => absurd h (List.not_mem_nil _))
    exact ⟨[], b, r, rfl, isWs_nil, hb', ha⟩
  | endValue ps c st ps1 op h => exact endValue_step h hs
  | endTop ps c hw => exact isWs_cons hw hs
  | stringEnd ps =>
    exact ⟨[], l, rfl, fun _ _ _ => StringBody.nil, hs⟩
  | stringBackslash ps =>
    obtain ⟨b, r, rfl, hb, ha⟩ := hs
    exact ⟨92 :: b, r, rfl, fun hs h1 h2 => by simpa using hb hs h1 h2, ha⟩
  | stringByte ps c h1 h2 h3 =>
    obtain ⟨b, r, rfl, hb, ha⟩ := hs
    refine ⟨c :: b, r, rfl, fun hs k1 k2 => ?_, ha⟩
    have := hb hs k1 k2
    simp only [List.nil_append] at this ⊢
    exact .byte c b h3 h1 h2 this
  | esc ps c h =>
    obtain ⟨b, r, rfl, hb, ha⟩ := hs
    refine ⟨c :: b, r, rfl, fun hs k1 k2 => ?_, ha⟩
    have := hb hs k1 k2
    simp only [List.nil_append] at this
    exact .esc c b (by omega) this
  | escU ps =>
    obtain ⟨b, r, rfl, hb, ha⟩ := hs
    exact ⟨117 :: b, r, rfl, fun hs h1 h2 => by simpa using hb hs h1 h2, ha⟩
  | hex1 ps c h =>
    obtain ⟨b, r, rfl, hb, ha⟩ := hs
    refine ⟨c :: b, r, rfl, fun _ _ _ => ?_, ha⟩
    have := hb [c] rfl (fun x hx => by simp at hx; subst hx; exact hexDigit_of_isHex h)
    simpa using this
  | hex2 ps c h =>
    obtain ⟨b, r, rfl, hb, ha⟩ := hs
    refine ⟨c :: b, r, rfl, fun hs k1 k2 => ?_, ha⟩
    have := hb (hs ++ [c]) (by simp [k1]) (fun x hx => by
      rcases List.mem_append.1 hx with hx | hx
      · exact k2 x hx
      · simp at hx; subst hx; exact hexDigit_of_isHex h)
    simpa using this
  | hex3 ps c h =>
    obtain ⟨b, r, rfl, hb, ha⟩ := hs
    refine ⟨c :: b, r, rfl, fun hs k1 k2 => ?_, ha⟩
    have := hb (hs ++ [c]) (by simp [k1]) (fun x hx => by
      rcases List.mem_append.1 hx with hx | hx
      · exact k2 x hx
      · simp at hx; subst hx; exact hexDigit_of_isHex h)
    simpa using this
  | hex4 ps c h =>
    obtain ⟨b, r, rfl, hb, ha⟩ := hs
    have hb' : StringBody b := by simpa using hb [] rfl (fun _ h => absurd h (List.not_mem_nil _))
    refine ⟨c :: b, r, rfl, fun hs k1 k2 => ?_, ha⟩
    match hs, k1, k2 with
    | [x, y, z], _, k2 =>
      exact .unicode x y z c b (k2 x (by simp)) (k2 y (by simp)) (k2 z (by simp))
        (hexDigit_of_isHex h) hb'
  | negZero ps =>
    obtain ⟨n, r, rfl, ⟨f, e, rfl, hf, he⟩, ha⟩ := hs
    exact ⟨48 :: (f ++ e), r, rfl, ⟨[48], f, e, rfl, Or.inl rfl, hf, he⟩, ha⟩
  | negDigit ps c h1 h2 =>
    obtain ⟨n, r, rfl, ⟨ds, f, e, rfl, hds, hf, he⟩, ha⟩ := hs
    exact ⟨c :: (ds ++ (f ++ e)), r, rfl,
      ⟨c :: ds, f, e, rfl, Or.inr ⟨c, ds, rfl, h1, h2, hds⟩, hf, he⟩, ha⟩
  | intDigit ps c h1 h2 =>
    obtain ⟨n, r, rfl, ⟨ds, f, e, rfl, hds, hf, he⟩, ha⟩ := hs
    exact ⟨c :: (ds ++ (f ++ e)), r, rfl, ⟨c :: ds, f, e, rfl, isDigits_cons h1 h2 hds, hf, he⟩, ha⟩
  | intDot ps =>
    obtain ⟨n, r, rfl, ⟨ds, e, rfl, hne, hds, he⟩, ha⟩ := hs
    exact ⟨46 :: (ds ++ e), r, rfl,
      ⟨[], 46 :: ds, e, rfl, isDigits_nil, Or.inr ⟨ds, rfl, hne, hds⟩, he⟩, ha⟩
  | intExp ps c h =>
    obtain ⟨n, r, rfl, ⟨sign, ds, rfl, hsign, hne, hds⟩, ha⟩ := hs
    exact ⟨c :: (sign ++ ds), r, rfl,
      ⟨[], [], c :: (sign ++ ds), rfl, isDigits_nil, isFrac_nil, isExp_cons h hsign hne hds⟩, ha⟩
  | intEnd ps c st ps1 op h =>
    exact numThen_end .state1 ⟨[], [], [], rfl, isDigits_nil, isFrac_nil, isExp_nil⟩ h hs
  | zeroDot ps =>
    obtain ⟨n, r, rfl, ⟨ds, e, rfl, hne, hds, he⟩, ha⟩ := hs
    exact ⟨46 :: (ds ++ e), r, rfl, ⟨46 :: ds, e, rfl, Or.inr ⟨ds, rfl, hne, hds⟩, he⟩, ha⟩
  | zeroExp ps c h =>
    obtain ⟨n, r, rfl, ⟨sign, ds, rfl, hsign, hne, hds⟩, ha⟩ := hs
    exact ⟨c :: (sign ++ ds), r, rfl,
      ⟨[], c :: (sign ++ ds), rfl, isFrac_nil, isExp_cons h hsign hne hds⟩, ha⟩
  | zeroEnd ps c st ps1 op h =>
    exact numThen_end .state0 ⟨[], [], rfl, isFrac_nil, isExp_nil⟩ h hs
  | dotDigit ps c h1 h2 =>
    obtain ⟨n, r, rfl, ⟨ds, e, rfl, hds, he⟩, ha⟩ := hs
    exact ⟨c :: (ds ++ e), r, rfl, ⟨c :: ds, e, rfl, by simp, isDigits_cons h1 h2 hds, he⟩, ha⟩
  | fracDigit ps c h1 h2 =>
    obtain ⟨n, r, rfl, ⟨ds, e, rfl, hds, he⟩, ha⟩ := hs
    exact ⟨c :: (ds ++ e), r, rfl, ⟨c :: ds, e, rfl, isDigits_cons h1 h2 hds, he⟩, ha⟩
  | fracExp ps c h =>
    obtain ⟨n, r, rfl, ⟨sign, ds, rfl, hsign, hne, hds⟩, ha⟩ := hs
    exact ⟨c :: (sign ++ ds), r, rfl,
      ⟨[], c :: (sign ++ ds), rfl, isDigits_nil, isExp_cons h hsign hne hds⟩, ha⟩
  | fracEnd ps c st ps1 op h =>
    exact numThen_end .stateDot0 ⟨[], [], rfl, isDigits_nil, isExp_nil⟩ h hs
  | expSign ps c h =>
    obtain ⟨n, r, rfl, ⟨hne, hds⟩, ha⟩ := hs
    refine ⟨c :: n, r, rfl, ⟨[c], n, rfl, ?_, hne, hds⟩, ha⟩
    rcases h with rfl | rfl
    · exact Or.inr (Or.inl rfl)
    · exact Or.inr (Or.inr rfl)
  | expDigit ps c h1 h2 =>
    obtain ⟨n, r, rfl, hds, ha⟩ := hs
    exact ⟨c :: n, r, rfl, ⟨[], c :: n, rfl, Or.inl rfl, by simp, isDigits_cons h1 h2 hds⟩, ha⟩
  | signDigit ps c h1 h2 =>
    obtain ⟨n, r, rfl, hds, ha⟩ := hs
    exact ⟨c :: n, r, rfl, ⟨by simp, isDigits_cons h1 h2 hds⟩, ha⟩
  | exp0Digit ps c h1 h2 =>
    obtain ⟨n, r, rfl, hds, ha⟩ := hs
    exact ⟨c :: n, r, rfl, isDigits_cons h1 h2 hds, ha⟩
  | exp0End ps c st ps1 op h => exact numThen_end .stateE0 isDigits_nil h hs
  | litT ps => obtain ⟨r, rfl, ha⟩ := hs; exact ⟨r, rfl, ha⟩
  | litTr ps => obtain ⟨r, rfl, ha⟩ := hs; exact ⟨r, rfl, ha⟩
  | litTru ps => exact ⟨l, rfl, hs⟩
  | litF ps => obtain ⟨r, rfl, ha⟩ := hs; exact ⟨r, rfl, ha⟩
  | litFa ps => obtain ⟨r, rfl, ha⟩ := hs; exact ⟨r, rfl, ha⟩
  | litFal ps => obtain ⟨r, rfl, ha⟩ := hs; exact ⟨r, rfl, ha⟩
  | litFals ps => exact ⟨l, rfl, hs⟩
  | litN ps => obtain ⟨r, rfl, ha⟩ := hs; exact ⟨r, rfl, ha⟩
  | litNu ps => obtain ⟨r, rfl, ha⟩ := hs; exact ⟨r, rfl, ha⟩
  | litNul ps => exact ⟨l, rfl, hs⟩

theorem accepting_suffix {st : StepFn} {ps : List Nat} (h : Accepting st ps) :
    Suffix st ps [] := by
  have hnil : After [] [] := (After_nil []).2 isWs_nil
  rcases h with rfl | ⟨ps1, op, ht⟩
  · exact isWs_nil
  · cases ht with
    | beginValue ps c st ps1 op hw h => cases h
    | orEmptyValue ps c st ps1 op hw h => cases h
    | endValue ps c st ps1 op h =>
      cases h with
      | topSpace c hw => exact hnil
    | endTop ps c hw => exact isWs_nil
    | intEnd ps c st ps1 op h =>
      cases h with
      | topSpace c hw =>
        exact ⟨[], [], rfl, ⟨[], [], [], rfl, isDigits_nil, isFrac_nil, isExp_nil⟩, hnil⟩
    | zeroEnd ps c st ps1 op h =>
      cases h with
      | topSpace c hw => exact ⟨[], [], rfl, ⟨[], [], rfl, isFrac_nil, isExp_nil⟩, hnil⟩
    | fracEnd ps c st ps1 op h =>
      cases h with
      | topSpace c hw => exact ⟨[], [], rfl, ⟨[], [], rfl, isDigits_nil, isExp_nil⟩, hnil⟩
    | exp0End ps c st ps1 op h =>
      cases h with
      | topSpace c hw => exact ⟨[], [], rfl, isDigits_nil, hnil⟩

theorem run_suffix {st : StepFn} {ps l : List Nat} {st1 : StepFn} {ps1 out : List Nat}
    (h : Run st ps l st1 ps1 out) (ha : Accepting st1 ps1) : Suffix st ps l := by
  induction h with
  | nil st ps => exact accepting_suffix ha
  | cons ht _ ih => exact trans_step ht (ih ha)

/-- Whatever `minifyJSON` accepts is a JSON text. -/
theorem minifyJSON_sound {D out : List Nat} (h : minifyJSON D = .ok out) : ValidJSON D := by
  obtain ⟨st, ps, hr, ha⟩ := (minifyJSON_ok_iff D out).1 h
  obtain ⟨w, body, r, rfl, hw, ⟨d, v, hv⟩, hafter⟩ := run_suffix hr ha
  rw [After_nil] at hafter
  exact ⟨d, v, w, body, r, by simp, hw, hafter, hv⟩

theorem nestedArrays_value (k : Nat) : Value (k + 1) (nestedArrays k) (nestedValue k) := by
  induction k with
  | zero => exact Value.emptyArray 0 [] isWs_nil
  | succ k ih =>
    have h := Value.array (k + 1) [⟨[], nestedArrays k, [], nestedValue k⟩] (by simp)
      (fun e he => by simp at he; subst he; exact ⟨isWs_nil, isWs_nil⟩)
      (fun e he => by simp at he; subst he; exact ih)
    simpa [joinComma, Element.bytes, nestedArrays, nestedValue] using h

theorem nestedArrays_valid (k : Nat) : ValidJSON (nestedArrays k) :=
  ⟨k + 1, nestedValue k, [], nestedArrays k, [], by simp, isWs_nil, isWs_nil,
    nestedArrays_value k⟩

theorem beginLike_bracket {st : StepFn} (hb : BeginLike st) {ps : List Nat} {st1 : StepFn}
    {ps1 : List Nat} {op : Nat} (h : Trans st ps 91 st1 ps1 op) :
    ps.length < maxNestingDepth ∧ st1 = .stateBeginValueOrEmpty ∧
      ps1 = parseArrayValue :: ps := by
  rcases hb with rfl | rfl
  · cases h with
    | beginValueSpace ps c hw => exact absurd hw (by decide)
    | beginValue ps c st ps1 op hw h =>
      cases h with
      | beginArray h => exact ⟨h, rfl, rfl⟩
      | digit c h1 h2 => omega
  · cases h with
    | orEmptySpace ps c hw => exact absurd hw (by decide)
    | orEmptyValue ps c st ps1 op hw h =>
      cases h with
      | beginArray h => exact ⟨h, rfl, rfl⟩
      | digit c h1 h2 => omega

theorem nestedArrays_no_run : ∀ (k : Nat) (ps : List Nat) (st : StepFn) (rest : List Nat),
    BeginLike st → maxNestingDepth < ps.length + k + 1 →
    ¬ ∃ st1 ps1 out, Run st ps (nestedArrays k ++ rest) st1 ps1 out := by
  intro k
  induction k with
  | zero =>
    rintro ps st rest hb hd ⟨st1, ps1, out, hr⟩
    cases hr with
    | cons ht _ =>
      have := (beginLike_bracket hb ht).1
      omega
  | succ k ih =>
    rintro ps st rest hb hd ⟨st1, ps1, out, hr⟩
    have e : nestedArrays (k + 1) ++ rest = 91 :: (nestedArrays k ++ (93 :: rest)) := by
      simp [nestedArrays]
    rw [e] at hr
    cases hr with
    | cons ht hr2 =>
      obtain ⟨h1, rfl, rfl⟩ := beginLike_bracket hb ht
      exact ih (parseArrayValue :: ps) .stateBeginValueOrEmpty (93 :: rest) (Or.inr rfl)
        (by simp; omega) ⟨_, _, _, hr2⟩

/-- Arrays nested `maxNestingDepth + 1` deep are valid JSON that `minifyJSON`
rejects. -/
theorem nestedArrays_rejected (k : Nat) (hk : maxNestingDepth ≤ k) :
    ∃ e, minifyJSON (nestedArrays k) = .error e := by
  rw [minifyJSON_error_iff]
  rintro ⟨out, st, ps, hr, _⟩
  refine nestedArrays_no_run k [] .stateBeginValue [] (Or.inl rfl) (by simp; omega)
    ⟨st, ps, out, ?_⟩
  simpa using hr

theorem length_le_joinComma {α : Type} (f : α → List Nat) :
    ∀ (xs : List α) (x : α), x ∈ xs → (f x).length ≤ (joinComma (xs.map f)).length := by
  intro xs
  induction xs with
  | nil => intro x hx; exact absurd hx (List.not_mem_nil _)
  | cons y r ih =>
    intro x hx
    cases r with
    | nil =>
      simp at hx; subst hx; simp [joinComma]
    | cons z r2 =>
      rcases List.mem_cons.1 hx with rfl | hx
      · simp [joinComma]
      · have := ih x hx
        simp only [List.map_cons, joinComma, List.length_append, List.length_cons] at this ⊢
        omega

/-- A value nests no deeper than its text is long. -/
theorem value_depth_le_length {d : Nat} {t : List Nat} {v : JValue} (h : Value d t v) :
    Value t.length t v := by
  induction h with
  | null d => exact .null _
  | true d => exact .true _
  | false d => exact .false _
  | number d n h => exact .number _ n h
  | string d b h => exact .string _ b h
  | emptyArray d w hw =>
    have := Value.emptyArray (w.length + 1) w hw
    simpa using this
  | array d es hne hws _ ih =>
    have h1 : ∀ e ∈ es, Value ((joinComma (es.map Element.bytes)).length + 1) e.text e.val := by
      intro e he
      refine (ih e he).mono ?_
      have := length_le_joinComma Element.bytes es e he
      simp only [Element.bytes, List.length_append] at this
      omega
    have := Value.array _ es hne hws h1
    simpa using this
  | emptyObject d w hw =>
    have := Value.emptyObject (w.length + 1) w hw
    simpa using this
  | object d ms hne hws _ ih =>
    have h1 : ∀ m ∈ ms, Value ((joinComma (ms.map Member.bytes)).length + 1) m.text m.val := by
      intro m hm
      refine (ih m hm).mono ?_
      have := length_le_joinComma Member.bytes ms m hm
      simp only [Member.bytes, List.length_append, List.length_cons] at this
      omega
    have := Value.object _ ms hne hws h1
    simpa using this

/-- On inputs of at most `maxNestingDepth` bytes, `minifyJSON` succeeds exactly
on the valid JSON texts. -/
theorem validJSON_iff_of_short {D : List Nat} (hlen : D.length ≤ maxNestingDepth) :
    ValidJSON D ↔ ∃ out, minifyJSON D = .ok out := by
  constructor
  · rintro ⟨d, v, pre, body, post, rfl, hpre, hpost, hv⟩
    have hv1 := value_depth_le_length hv
    refine minifyJSON_complete ⟨pre, body, post, rfl, hpre, hpost, hv1⟩ ?_
    simp only [List.length_append] at hlen
    omega
  · rintro ⟨out, h⟩
    exact minifyJSON_sound h

theorem prefix_unique (P : Nat → Prop) : ∀ (a b r r1 : List Nat),
    (∀ c ∈ a, P c) → (∀ c ∈ b, P c) → StartsOutside P r → StartsOutside P r1 →
    a ++ r = b ++ r1 → a = b ∧ r = r1 := by
  intro a
  induction a with
  | nil =>
    intro b r r1 _ hb hr _ h
    cases b with
    | nil => exact ⟨rfl, by simpa using h⟩
    | cons c b1 =>
      exfalso
      simp only [List.nil_append, List.cons_append] at h
      exact hr c _ h (hb c (List.mem_cons_self _ _))
  | cons x a1 ih =>
    intro b r r1 ha hb hr hr1 h
    cases b with
    | nil =>
      exfalso
      simp only [List.nil_append, List.cons_append] at h
      exact hr1 x _ h.symm (ha x (List.mem_cons_self _ _))
    | cons c b1 =>
      simp only [List.cons_append, List.cons.injEq] at h
      obtain ⟨rfl, h⟩ := h
      obtain ⟨e1, e2⟩ := ih b1 r r1 (fun c hc => ha c (List.mem_cons_of_mem _ hc))
        (fun c hc => hb c (List.mem_cons_of_mem _ hc)) hr hr1 h
      exact ⟨by rw [e1], e2⟩

theorem stringBody_unique {b : List Nat} (h : StringBody b) :
    ∀ {b1 : List Nat} (r r1 : List Nat), StringBody b1 →
      b ++ 34 :: r = b1 ++ 34 :: r1 → b = b1 ∧ r = r1 := by
  induction h with
  | nil =>
    intro b1 r r1 h1 heq
    cases h1 with
    | nil => exact ⟨rfl, by simpa using heq⟩
    | byte c l h1 h2 h3 h =>
      simp only [List.nil_append, List.cons_append, List.cons.injEq] at heq
      exact absurd heq.1.symm h2
    | esc e l he h => simp at heq
    | unicode a b c d l ha hb hc hd h => simp at heq
  | byte c l h1 h2 h3 _ ih =>
    intro b1 r r1 hb1 heq
    cases hb1 with
    | nil =>
      simp only [List.nil_append, List.cons_append, List.cons.injEq] at heq
      exact absurd heq.1 h2
    | byte c1 l1 g1 g2 g3 g =>
      simp only [List.cons_append, List.cons.injEq] at heq
      obtain ⟨rfl, heq⟩ := heq
      obtain ⟨e1, e2⟩ := ih r r1 g heq
      exact ⟨by rw [e1], e2⟩
    | esc e l1 he g =>
      simp only [List.cons_append, List.cons.injEq] at heq
      exact absurd heq.1 h3
    | unicode a1 b2 c2 d2 l1 ha hb hc hd g =>
      simp only [List.cons_append, List.cons.injEq] at heq
      exact absurd heq.1 h3
  | esc e l he _ ih =>
    intro b1 r r1 hb1 heq
    cases hb1 with
    | nil => simp at heq
    | byte c1 l1 g1 g2 g3 g =>
      simp only [List.cons_append, List.cons.injEq] at heq
      exact absurd heq.1.symm g3
    | esc e1 l1 he1 g =>
      simp only [List.cons_append, List.cons.injEq, true_and] at heq
      obtain ⟨rfl, heq⟩ := heq
      obtain ⟨e1, e2⟩ := ih r r1 g heq
      exact ⟨by rw [e1], e2⟩
    | unicode a1 b2 c2 d2 l1 ha hb hc hd g =>
      simp only [List.cons_append, List.cons.injEq, true_and] at heq
      obtain ⟨rfl, _⟩ := heq
      omega
  | unicode a b c d l ha hb hc hd _ ih =>
    intro b1 r r1 hb1 heq
    cases hb1 with
    | nil => simp at heq
    | byte c1 l1 g1 g2 g3 g =>
      simp only [List.cons_append, List.cons.injEq] at heq
      exact absurd heq.1.symm g3
    | esc e1 l1 he1 g =>
      simp only [List.cons_append, List.cons.injEq, true_and] at heq
      obtain ⟨rfl, _⟩ := heq
      omega
    | unicode a1 b2 c2 d2 l1 ha1 hb1 hc1 hd1 g =>
      simp only [List.cons_append, List.cons.injEq, true_and] at heq
      obtain ⟨rfl, rfl, rfl, rfl, heq⟩ := heq
      obtain ⟨e1, e2⟩ := ih r r1 g heq
      exact ⟨by rw [e1], e2⟩

theorem digits_numChar {ds : List Nat} (h : IsDigits ds) : ∀ c ∈ ds, NumChar c :=
  fun c hc => Or.inl (h c hc)

theorem number_numChar {n : List Nat} (h : IsNumber n) : ∀ c ∈ n, NumChar c := by
  obtain ⟨sign, i, f, e, rfl, hs, hi, hf, he⟩ := h
  have h1 : ∀ c ∈ sign, NumChar c := by
    rcases hs with rfl | rfl
    · simp
    · intro c hc; simp at hc; subst hc; unfold NumChar; omega
  have h2 : ∀ c ∈ i, NumChar c := by
    rcases hi with rfl | ⟨d, ds, rfl, g1, g2, g3⟩
    · intro c hc; simp at hc; subst hc; unfold NumChar; omega
    · intro c hc
      rcases List.mem_cons.1 hc with rfl | hc
      · exact Or.inl ⟨by omega, g2⟩
      · exact digits_numChar g3 c hc
  have h3 : ∀ c ∈ f, NumChar c := by
    rcases hf with rfl | ⟨ds, rfl, _, g⟩
    · simp
    · intro c hc
      rcases List.mem_cons.1 hc with rfl | hc
      · unfold NumChar; omega
      · exact digits_numChar g c hc
  have h4 : ∀ c ∈ e, NumChar c := by
    rcases he with rfl | ⟨x, s, ds, rfl, hx, hsg, _, g⟩
    · simp
    · intro c hc
      rcases List.mem_cons.1 hc with rfl | hc
      · unfold NumChar; omega
      · rcases List.mem_append.1 hc with hc | hc
        · rcases hsg with rfl | rfl | rfl
          · simp at hc
          · simp at hc; subst hc; unfold NumChar; omega
          · simp at hc; subst hc; unfold NumChar; omega
        · exact digits_numChar g c hc
  intro c hc
  simp only [List.mem_append] at hc
  rcases hc with ((hc | hc) | hc) | hc
  · exact h1 c hc
  · exact h2 c hc
  · exact h3 c hc
  · exact h4 c hc

theorem number_head {n : List Nat} (h : IsNumber n) :
    ∃ c l, n = c :: l ∧ (c = 45 ∨ (48 ≤ c ∧ c ≤ 57)) := by
  obtain ⟨sign, i, f, e, rfl, hs, hi, hf, he⟩ := h
  rcases hs with rfl | rfl
  · rcases hi with rfl | ⟨d, ds, rfl, g1, g2, g3⟩
    · exact ⟨48, f ++ e, by simp, Or.inr ⟨by omega, by omega⟩⟩
    · exact ⟨d, ds ++ f ++ e, by simp, Or.inr ⟨by omega, g2⟩⟩
  · exact ⟨45, i ++ f ++ e, by simp, Or.inl rfl⟩

theorem value_head {d : Nat} {t : List Nat} {v : JValue} (h : Value d t v) :
    ∃ c l, t = c :: l ∧ ValHead c := by
  cases h with
  | null => exact ⟨_, _, rfl, by unfold ValHead; omega⟩
  | true => exact ⟨_, _, rfl, by unfold ValHead; omega⟩
  | false => exact ⟨_, _, rfl, by unfold ValHead; omega⟩
  | number _ _ hn =>
    obtain ⟨c, l, rfl, hc⟩ := number_head hn
    exact ⟨c, l, rfl, by unfold ValHead; omega⟩
  | string _ b hb => exact ⟨_, _, rfl, by unfold ValHead; omega⟩
  | emptyArray d w hw => exact ⟨_, _, rfl, by unfold ValHead; omega⟩
  | array d es hne hws h => exact ⟨_, _, rfl, by unfold ValHead; omega⟩
  | emptyObject d w hw => exact ⟨_, _, rfl, by unfold ValHead; omega⟩
  | object d ms hne hws h => exact ⟨_, _, rfl, by unfold ValHead; omega⟩

theorem valHead_not_ws {c : Nat} (h : ValHead c) : ¬ WsChar c := by
  unfold ValHead at h
  unfold WsChar isWhitespace
  have h1 : c ≠ 32 := by omega
  have h2 : c ≠ 9 := by omega
  have h3 : c ≠ 10 := by omega
  have h4 : c ≠ 13 := by omega
  simp [h1, h2, h3, h4]

theorem ws_not_numChar {c : Nat} (h : WsChar c) : ¬ NumChar c := by
  unfold WsChar at h
  rw [isWhitespace_iff] at h
  unfold NumChar
  omega

theorem startsOutside_cons {P : Nat → Prop} {c : Nat} (t : List Nat) (h : ¬ P c) :
    StartsOutside P (c :: t) := by
  intro x t1 hx
  cases hx
  exact h

theorem startsOutside_value {d : Nat} {t : List Nat} {v : JValue} (h : Value d t v)
    (r : List Nat) : StartsOutside WsChar (t ++ r) := by
  obtain ⟨c, l, rfl, hc⟩ := value_head h
  exact startsOutside_cons _ (valHead_not_ws hc)

theorem delim_not_ws {s : List Nat} (h : Delim s) : StartsOutside WsChar s := by
  obtain ⟨c, t, rfl, hc⟩ := h
  refine startsOutside_cons _ ?_
  unfold WsChar
  rw [isWhitespace_iff]
  omega

theorem ws_delim_follow {w s : List Nat} (hw : IsWs w) (hs : Delim s) :
    StartsOutside NumChar (w ++ s) := by
  cases w with
  | nil =>
    obtain ⟨c, t, rfl, hc⟩ := hs
    refine startsOutside_cons _ ?_
    unfold NumChar
    omega
  | cons x w1 =>
    exact startsOutside_cons _ (ws_not_numChar (hw x (List.mem_cons_self _ _)))

theorem ws_follow {w : List Nat} (hw : IsWs w) : StartsOutside NumChar w := by
  cases w with
  | nil => intro c t h; cases h
  | cons x w1 =>
    exact startsOutside_cons _ (ws_not_numChar (hw x (List.mem_cons_self _ _)))

theorem elem_unique {e e1 : Element} {d d1 : Nat} (hpre : IsWs e.pre) (hpost : IsWs e.post)
    (hv : Value d e.text e.val) (hu : UniqueAt e.text e.val)
    (hpre1 : IsWs e1.pre) (hpost1 : IsWs e1.post) (hv1 : Value d1 e1.text e1.val)
    {s s1 : List Nat} (hs : Delim s) (hs1 : Delim s1)
    (heq : e.bytes ++ s = e1.bytes ++ s1) :
    e.bytes = e1.bytes ∧ e.val = e1.val ∧ s = s1 := by
  simp only [Element.bytes, List.append_assoc] at heq
  obtain ⟨a1, h2⟩ := prefix_unique WsChar e.pre e1.pre _ _ hpre hpre1
    (startsOutside_value hv _) (startsOutside_value hv1 _) heq
  obtain ⟨a2, a3⟩ := hu d1 e1.text e1.val _ _ hv1 h2 (ws_delim_follow hpost hs)
    (ws_delim_follow hpost1 hs1)
  rw [a2] at h2
  have h3 := List.append_cancel_left h2
  obtain ⟨a4, a5⟩ := prefix_unique WsChar e.post e1.post s s1 hpost hpost1
    (delim_not_ws hs) (delim_not_ws hs1) h3
  exact ⟨by simp only [Element.bytes, a1, a2, a4], a3, a5⟩

theorem delim_commaElems (rest : List Element) (r : List Nat) :
    Delim (commaElems rest ++ 93 :: r) := by
  cases rest with
  | nil => exact ⟨93, r, rfl, by omega⟩
  | cons e2 r2 => exact ⟨44, _, rfl, by omega⟩

theorem elems_unique : ∀ (rest : List Element) (e e1 : Element) (rest1 : List Element)
    (r r1 : List Nat) (d d1 : Nat),
    (∀ x ∈ e :: rest, IsWs x.pre ∧ IsWs x.post) →
    (∀ x ∈ e :: rest, Value d x.text x.val) →
    (∀ x ∈ e :: rest, UniqueAt x.text x.val) →
    (∀ x ∈ e1 :: rest1, IsWs x.pre ∧ IsWs x.post) →
    (∀ x ∈ e1 :: rest1, Value d1 x.text x.val) →
    (e.bytes ++ commaElems rest) ++ 93 :: r = (e1.bytes ++ commaElems rest1) ++ 93 :: r1 →
    e.bytes ++ commaElems rest = e1.bytes ++ commaElems rest1 ∧
      (e :: rest).map Element.val = (e1 :: rest1).map Element.val ∧ r = r1 := by
  intro rest
  induction rest with
  | nil =>
    intro e e1 rest1 r r1 d d1 hws hv hu hws1 hv1 heq
    simp only [List.append_assoc] at heq
    obtain ⟨a1, a2, a3⟩ := elem_unique (hws e (List.mem_cons_self _ _)).1
      (hws e (List.mem_cons_self _ _)).2 (hv e (List.mem_cons_self _ _))
      (hu e (List.mem_cons_self _ _)) (hws1 e1 (List.mem_cons_self _ _)).1
      (hws1 e1 (List.mem_cons_self _ _)).2 (hv1 e1 (List.mem_cons_self _ _))
      (delim_commaElems [] r) (delim_commaElems rest1 r1) heq
    cases rest1 with
    | nil =>
      simp only [commaElems, List.nil_append, List.cons.injEq, true_and] at a3
      exact ⟨by simp only [commaElems, a1], by simp only [List.map_cons, a2], a3⟩
    | cons e2 r2 => simp [commaElems] at a3
  | cons e2 r2 ih =>
    intro e e1 rest1 r r1 d d1 hws hv hu hws1 hv1 heq
    simp only [List.append_assoc] at heq
    obtain ⟨a1, a2, a3⟩ := elem_unique (hws e (List.mem_cons_self _ _)).1
      (hws e (List.mem_cons_self _ _)).2 (hv e (List.mem_cons_self _ _))
      (hu e (List.mem_cons_self _ _)) (hws1 e1 (List.mem_cons_self _ _)).1
      (hws1 e1 (List.mem_cons_self _ _)).2 (hv1 e1 (List.mem_cons_self _ _))
      (delim_commaElems (e2 :: r2) r) (delim_commaElems rest1 r1) heq
    cases rest1 with
    | nil => simp [commaElems] at a3
    | cons e3 r3 =>
      simp only [commaElems, List.cons_append, List.cons.injEq, true_and] at a3
      obtain ⟨b1, b2, b3⟩ := ih e2 e3 r3 r r1 d d1
        (fun x hx => hws x (List.mem_cons_of_mem _ hx))
        (fun x hx => hv x (List.mem_cons_of_mem _ hx))
        (fun x hx => hu x (List.mem_cons_of_mem _ hx))
        (fun x hx => hws1 x (List.mem_cons_of_mem _ hx))
        (fun x hx => hv1 x (List.mem_cons_of_mem _ hx)) a3
      refine ⟨?_, ?_, b3⟩
      · simp only [commaElems, a1, b1]
      · simp only [List.map_cons, a2, List.cons.injEq, true_and]
        simpa using b2

theorem member_unique {m m1 : Member} {d d1 : Nat}
    (hws : IsWs m.pre ∧ IsWs m.mid ∧ IsWs m.pre2 ∧ IsWs m.post ∧ StringBody m.key)
    (hv : Value d m.text m.val) (hu : UniqueAt m.text m.val)
    (hws1 : IsWs m1.pre ∧ IsWs m1.mid ∧ IsWs m1.pre2 ∧ IsWs m1.post ∧ StringBody m1.key)
    (hv1 : Value d1 m1.text m1.val)
    {s s1 : List Nat} (hs : Delim s) (hs1 : Delim s1)
    (heq : m.bytes ++ s = m1.bytes ++ s1) :
    m.bytes = m1.bytes ∧ m.key = m1.key ∧ m.val = m1.val ∧ s = s1 := by
  obtain ⟨w1, w2, w3, w4, w5⟩ := hws
  obtain ⟨x1, x2, x3, x4, x5⟩ := hws1
  have nq : ¬ WsChar 34 := by unfold WsChar; decide
  have nc : ¬ WsChar 58 := by unfold WsChar; decide
  simp only [Member.bytes, List.append_assoc, List.cons_append] at heq
  obtain ⟨a1, h2⟩ := prefix_unique WsChar m.pre m1.pre _ _ w1 x1
    (startsOutside_cons _ nq) (startsOutside_cons _ nq) heq
  simp only [List.cons.injEq, true_and] at h2
  obtain ⟨a2, h3⟩ := stringBody_unique w5 _ _ x5 h2
  obtain ⟨a3, h4⟩ := prefix_unique WsChar m.mid m1.mid _ _ w2 x2
    (startsOutside_cons _ nc) (startsOutside_cons _ nc) h3
  simp only [List.cons.injEq, true_and] at h4
  obtain ⟨a4, h5⟩ := prefix_unique WsChar m.pre2 m1.pre2 _ _ w3 x3
    (startsOutside_value hv _) (startsOutside_value hv1 _) h4
  obtain ⟨a5, a6⟩ := hu d1 m1.text m1.val _ _ hv1 h5 (ws_delim_follow w4 hs)
    (ws_delim_follow x4 hs1)
  rw [a5] at h5
  have h6 := List.append_cancel_left h5
  obtain ⟨a7, a8⟩ := prefix_unique WsChar m.post m1.post s s1 w4 x4
    (delim_not_ws hs) (delim_not_ws hs1) h6
  exact ⟨by simp only [Member.bytes, a1, a2, a3, a4, a5, a7], a2, a6, a8⟩

theorem delim_commaMembers (rest : List Member) (r : List Nat) :
    Delim (commaMembers rest ++ 125 :: r) := by
  cases rest with
  | nil => exact ⟨125, r, rfl, by omega⟩
  | cons e2 r2 => exact ⟨44, _, rfl, by omega⟩

theorem members_unique : ∀ (rest : List Member) (m m1 : Member) (rest1 : List Member)
    (r r1 : List Nat) (d d1 : Nat),
    (∀ x ∈ m :: rest, IsWs x.pre ∧ IsWs x.mid ∧ IsWs x.pre2 ∧ IsWs x.post ∧
      StringBody x.key) →
    (∀ x ∈ m :: rest, Value d x.text x.val) →
    (∀ x ∈ m :: rest, UniqueAt x.text x.val) →
    (∀ x ∈ m1 :: rest1, IsWs x.pre ∧ IsWs x.mid ∧ IsWs x.pre2 ∧ IsWs x.post ∧
      StringBody x.key) →
    (∀ x ∈ m1 :: rest1, Value d1 x.text x.val) →
    (m.bytes ++ commaMembers rest) ++ 125 :: r =
      (m1.bytes ++ commaMembers rest1) ++ 125 :: r1 →
    m.bytes ++ commaMembers rest = m1.bytes ++ commaMembers rest1 ∧
      (m :: rest).map (fun x => (x.key, x.val)) =
        (m1 :: rest1).map (fun x => (x.key, x.val)) ∧ r = r1 := by
  intro rest
  induction rest with
  | nil =>
    intro m m1 rest1 r r1 d d1 hws hv hu hws1 hv1 heq
    simp only [List.append_assoc] at heq
    obtain ⟨a1, ak, a2, a3⟩ := member_unique (hws m (List.mem_cons_self _ _))
      (hv m (List.mem_cons_self _ _)) (hu m (List.mem_cons_self _ _))
      (hws1 m1 (List.mem_cons_self _ _)) (hv1 m1 (List.mem_cons_self _ _))
      (delim_commaMembers [] r) (delim_commaMembers rest1 r1) heq
    cases rest1 with
    | nil =>
      simp only [commaMembers, List.nil_append, List.cons.injEq, true_and] at a3
      exact ⟨by simp only [commaMembers, a1], by simp only [List.map_cons, ak, a2], a3⟩
    | cons e2 r2 => simp [commaMembers] at a3
  | cons e2 r2 ih =>
    intro m m1 rest1 r r1 d d1 hws hv hu hws1 hv1 heq
    simp only [List.append_assoc] at heq
    obtain ⟨a1, ak, a2, a3⟩ := member_unique (hws m (List.mem_cons_self _ _))
      (hv m (List.mem_cons_self _ _)) (hu m (List.mem_cons_self _ _))
      (hws1 m1 (List.mem_cons_self _ _)) (hv1 m1 (List.mem_cons_self _ _))
      (delim_commaMembers (e2 :: r2) r) (delim_commaMembers rest1 r1) heq
    cases rest1 with
    | nil => simp [commaMembers] at a3
    | cons e3 r3 =>
      simp only [commaMembers, List.cons_append, List.cons.injEq, true_and] at a3
      obtain ⟨b1, b2, b3⟩ := ih e2 e3 r3 r r1 d d1
        (fun x hx => hws x (List.mem_cons_of_mem _ hx))
        (fun x hx => hv x (List.mem_cons_of_mem _ hx))
        (fun x hx => hu x (List.mem_cons_of_mem _ hx))
        (fun x hx => hws1 x (List.mem_cons_of_mem _ hx))
        (fun x hx => hv1 x (List.mem_cons_of_mem _ hx)) a3
      refine ⟨?_, ?_, b3⟩
      · simp only [commaMembers, a1, b1]
      · simp only [List.map_cons, ak, a2, List.cons.injEq, true_and]
        simpa using b2

theorem ws_prefix_head {w w1 r r1 : List Nat} {a b : Nat} (hw : IsWs w) (hw1 : IsWs w1)
    (ha : ¬ WsChar a) (hb : ¬ WsChar b) (h : w ++ a :: r = w1 ++ b :: r1) :
    w = w1 ∧ a = b ∧ r = r1 := by
  obtain ⟨e1, e2⟩ := prefix_unique WsChar w w1 _ _ hw hw1 (startsOutside_cons _ ha)
    (startsOutside_cons _ hb) h
  simp only [List.cons.injEq] at e2
  exact ⟨e1, e2.1, e2.2⟩

theorem not_ws_close : ¬ WsChar 93 ∧ ¬ WsChar 125 ∧ ¬ WsChar 34 := by
  unfold WsChar
  decide

theorem empty_ne_elems {w r r1 : List Nat} (hw : IsWs w) {d1 : Nat} (e : Element)
    (rest : List Element) (hpre : IsWs e.pre) (hv : Value d1 e.text e.val)
    (h : w ++ 93 :: r = (e.bytes ++ commaElems rest) ++ 93 :: r1) : False := by
  obtain ⟨c, l, ht, hc⟩ := value_head hv
  simp only [Element.bytes, List.append_assoc, ht, List.cons_append] at h
  obtain ⟨_, e2, _⟩ := ws_prefix_head hw hpre not_ws_close.1 (valHead_not_ws hc) h
  unfold ValHead at hc
  omega

theorem empty_ne_members {w r r1 : List Nat} (hw : IsWs w) (m : Member)
    (rest : List Member) (hpre : IsWs m.pre)
    (h : w ++ 125 :: r = (m.bytes ++ commaMembers rest) ++ 125 :: r1) : False := by
  simp only [Member.bytes, List.append_assoc, List.cons_append] at h
  obtain ⟨_, e2, _⟩ := ws_prefix_head hw hpre not_ws_close.2.1 not_ws_close.2.2 h
  omega

/-- A text begins with at most one value text, and that text has one value. -/
theorem value_unique {d : Nat} {t : List Nat} {v : JValue} (h : Value d t v) :
    UniqueAt t v := by
  induction h with
  | null d =>
    intro d1 t1 v1 r r1 h1 heq hr hr1
    cases h1 with
    | null _ => exact ⟨rfl, rfl⟩
    | number _ _ hn =>
      obtain ⟨c, l, rfl, hc⟩ := number_head hn
      simp only [List.cons_append, List.cons.injEq] at heq
      obtain ⟨h0, _⟩ := heq
      omega
    | _ => simp at heq
  | true d =>
    intro d1 t1 v1 r r1 h1 heq hr hr1
    cases h1 with
    | true _ => exact ⟨rfl, rfl⟩
    | number _ _ hn =>
      obtain ⟨c, l, rfl, hc⟩ := number_head hn
      simp only [List.cons_append, List.cons.injEq] at heq
      obtain ⟨h0, _⟩ := heq
      omega
    | _ => simp at heq
  | false d =>
    intro d1 t1 v1 r r1 h1 heq hr hr1
    cases h1 with
    | false _ => exact ⟨rfl, rfl⟩
    | number _ _ hn =>
      obtain ⟨c, l, rfl, hc⟩ := number_head hn
      simp only [List.cons_append, List.cons.injEq] at heq
      obtain ⟨h0, _⟩ := heq
      omega
    | _ => simp at heq
  | number d n hn =>
    intro d1 t1 v1 r r1 h1 heq hr hr1
    cases h1 with
    | number _ _ hn1 =>
      obtain ⟨e1, _⟩ := prefix_unique NumChar n t1 r r1 (number_numChar hn)
        (number_numChar hn1) hr hr1 heq
      subst e1
      exact ⟨rfl, rfl⟩
    | _ =>
      obtain ⟨c, l, rfl, hc⟩ := number_head hn
      simp only [List.cons_append, List.cons.injEq] at heq
      obtain ⟨h0, _⟩ := heq
      omega
  | string d b hb =>
    intro d1 t1 v1 r r1 h1 heq hr hr1
    cases h1 with
    | string _ b1 hb1 =>
      simp only [List.cons_append, List.append_assoc, List.cons.injEq, true_and,
        List.nil_append] at heq
      obtain ⟨e1, _⟩ := stringBody_unique hb r r1 hb1 heq
      subst e1
      exact ⟨rfl, rfl⟩
    | number _ _ hn =>
      obtain ⟨c, l, rfl, hc⟩ := number_head hn
      simp only [List.cons_append, List.cons.injEq] at heq
      obtain ⟨h0, _⟩ := heq
      omega
    | _ => simp at heq
  | emptyArray d w hw =>
    intro d1 t1 v1 r r1 h1 heq hr hr1
    cases h1 with
    | emptyArray d2 w1 hw1 =>
      simp only [List.cons_append, List.append_assoc, List.cons.injEq, true_and,
        List.nil_append] at heq
      obtain ⟨e1, _⟩ := ws_prefix_head hw hw1 not_ws_close.1 not_ws_close.1 heq
      subst e1
      exact ⟨rfl, rfl⟩
    | array d2 es1 hne1 hws1 hv1 =>
      exfalso
      cases es1 with
      | nil => exact hne1 rfl
      | cons e rest =>
        rw [joinComma_elems] at heq
        simp only [List.cons_append, List.append_assoc, List.cons.injEq, true_and,
          List.nil_append] at heq
        exact empty_ne_elems hw e rest (hws1 e (List.mem_cons_self _ _)).1
          (hv1 e (List.mem_cons_self _ _)) (by simpa only [List.append_assoc] using heq)
    | number _ _ hn =>
      obtain ⟨c, l, rfl, hc⟩ := number_head hn
      simp only [List.cons_append, List.cons.injEq] at heq
      obtain ⟨h0, _⟩ := heq
      omega
    | _ => simp at heq
  | array d es hne hws hv ih =>
    intro d1 t1 v1 r r1 h1 heq hr hr1
    cases es with
    | nil => exact absurd rfl hne
    | cons e rest =>
      cases h1 with
      | emptyArray d2 w1 hw1 =>
        exfalso
        rw [joinComma_elems] at heq
        simp only [List.cons_append, List.append_assoc, List.cons.injEq, true_and,
          List.nil_append] at heq
        exact empty_ne_elems hw1 e rest (hws e (List.mem_cons_self _ _)).1
          (hv e (List.mem_cons_self _ _)) (by simpa only [List.append_assoc] using heq.symm)
      | array d2 es1 hne1 hws1 hv1 =>
        cases es1 with
        | nil => exact absurd rfl hne1
        | cons e1 rest1 =>
          rw [joinComma_elems, joinComma_elems] at heq
          simp only [List.cons_append, List.append_assoc, List.cons.injEq, true_and,
            List.nil_append] at heq
          obtain ⟨a1, a2, _⟩ := elems_unique rest e e1 rest1 r r1 d d2 hws hv ih hws1 hv1
            (by simpa only [List.append_assoc] using heq)
          rw [joinComma_elems, joinComma_elems, a1, a2]
          exact ⟨rfl, rfl⟩
      | number _ _ hn =>
        obtain ⟨c, l, rfl, hc⟩ := number_head hn
        simp only [List.cons_append, List.cons.injEq] at heq
        obtain ⟨h0, _⟩ := heq
        omega
      | _ => simp at heq
  | emptyObject d w hw =>
    intro d1 t1 v1 r r1 h1 heq hr hr1
    cases h1 with
    | emptyObject d2 w1 hw1 =>
      simp only [List.cons_append, List.append_assoc, List.cons.injEq, true_and,
        List.nil_append] at heq
      obtain ⟨e1, _⟩ := ws_prefix_head hw hw1 not_ws_close.2.1 not_ws_close.2.1 heq
      subst e1
      exact ⟨rfl, rfl⟩
    | object d2 ms1 hne1 hws1 hv1 =>
      exfalso
      cases ms1 with
      | nil => exact hne1 rfl
      | cons m rest =>
        rw [joinComma_members] at heq
        simp only [List.cons_append, List.append_assoc, List.cons.injEq, true_and,
          List.nil_append] at heq
        exact empty_ne_members hw m rest (hws1 m (List.mem_cons_self _ _)).1
          (by simpa only [List.append_assoc] using heq)
    | number _ _ hn =>
      obtain ⟨c, l, rfl, hc⟩ := number_head hn
      simp only [List.cons_append, List.cons.injEq] at heq
      obtain ⟨h0, _⟩ := heq
      omega
    | _ => simp at heq
  | object d ms hne hws hv ih =>
    intro d1 t1 v1 r r1 h1 heq hr hr1
    cases ms with
    | nil => exact absurd rfl hne
    | cons m rest =>
      cases h1 with
      | emptyObject d2 w1 hw1 =>
        exfalso
        rw [joinComma_members] at heq
        simp only [List.cons_append, List.append_assoc, List.cons.injEq, true_and,
          List.nil_append] at heq
        exact empty_ne_members hw1 m rest (hws m (List.mem_cons_self _ _)).1
          (by simpa only [List.append_assoc] using heq.symm)
      | object d2 ms1 hne1 hws1 hv1 =>
        cases ms1 with
        | nil => exact absurd rfl hne1
        | cons m1 rest1 =>
          rw [joinComma_members, joinComma_members] at heq
          simp only [List.cons_append, List.append_assoc, List.cons.injEq, true_and,
            List.nil_append] at heq
          obtain ⟨a1, a2, _⟩ := members_unique rest m m1 rest1 r r1 d d2 hws hv ih hws1 hv1
            (by simpa only [List.append_assoc] using heq)
          rw [joinComma_members, joinComma_members, a1, a2]
          exact ⟨rfl, rfl⟩
      | number _ _ hn =>
        obtain ⟨c, l, rfl, hc⟩ := number_head hn
        simp only [List.cons_append, List.cons.injEq] at heq
        obtain ⟨h0, _⟩ := heq
        omega
      | _ => simp at heq

/-- A JSON text has one value. -/
theorem document_unique {d d1 : Nat} {D : List Nat} {v v1 : JValue}
    (h : Document d D v) (h1 : Document d1 D v1) : v = v1 := by
  obtain ⟨pre, body, post, rfl, hpre, hpost, hv⟩ := h
  obtain ⟨pre1, body1, post1, heq, hpre1, hpost1, hv1⟩ := h1
  simp only [List.append_assoc] at heq
  obtain ⟨_, h2⟩ := prefix_unique WsChar pre pre1 _ _ hpre hpre1
    (startsOutside_value hv _) (startsOutside_value hv1 _) heq
  exact (value_unique hv d1 body1 v1 post post1 hv1 h2 (ws_follow hpost)
    (ws_follow hpost1)).2

theorem isPathSeparator_dot (windows : Bool) : IsPathSeparator windows 46 = false := by
  cases windows <;> decide

theorem extLoop_suffix (windows : Bool) (p : List Nat) :
    ∀ k, k ≤ p.length → ∃ stem, p = stem ++ extLoop windows p k := by
  intro k
  induction k with
  | zero => intro _; exact ⟨p, by simp [extLoop]⟩
  | succ k ih =>
    intro hk
    unfold extLoop
    by_cases h1 : IsPathSeparator windows (p.getD k 0) = true
    · rw [if_pos h1]; exact ⟨p, by simp⟩
    · rw [if_neg h1]
      by_cases h2 : (p.getD k 0 == 46) = true
      · rw [if_pos h2]; exact ⟨p.take k, by simp⟩
      · rw [if_neg h2]
        exact ih (by omega)

theorem extLoop_spec (windows : Bool) (p : List Nat) :
    ∀ k, k ≤ p.length →
      (∀ c ∈ p.drop k, IsPathSeparator windows c = false ∧ c ≠ 46) →
      IsExtensionOf windows p (extLoop windows p k) := by
  intro k
  induction k with
  | zero =>
    intro _ hinv
    refine ⟨⟨p, by simp [extLoop]⟩, Or.inl ⟨by simp [extLoop], ?_⟩⟩
    intro dir el hp _ hmem
    have : (46 : Nat) ∈ p.drop 0 := by rw [List.drop_zero, hp]; exact List.mem_append_right _ hmem
    exact (hinv 46 this).2 rfl
  | succ k ih =>
    intro hk hinv
    have hk1 : k < p.length := by omega
    have hget : p.getD k 0 = p[k] := by
      rw [List.getD_eq_getElem?_getD, List.getElem?_eq_getElem hk1]; rfl
    have hdrop : p.drop k = p[k] :: p.drop (k + 1) := List.drop_eq_getElem_cons hk1
    unfold extLoop
    rw [hget]
    by_cases h1 : IsPathSeparator windows p[k] = true
    · simp only [h1, if_true]
      refine ⟨⟨p, by simp⟩, Or.inl ⟨rfl, ?_⟩⟩
      intro dir el hp hel hmem
      have hlen : p.length = dir.length + el.length := by rw [hp]; simp
      by_cases hd : dir.length ≤ k
      · have hidx : k - dir.length < el.length := by omega
        have e1 : p[k] = el[k - dir.length] := by
          have : p[k]? = el[k - dir.length]? := by
            conv_lhs => rw [hp]
            rw [List.getElem?_append_right hd]
          rw [List.getElem?_eq_getElem hk1, List.getElem?_eq_getElem hidx] at this
          exact Option.some.inj this
        have := hel _ (List.getElem_mem hidx)
        rw [← e1, h1] at this
        exact Bool.noConfusion this
      · have hd1 : k + 1 ≤ dir.length := by omega
        have e2 : el = (p.drop (k + 1)).drop (dir.length - (k + 1)) := by
          rw [List.drop_drop]
          have : dir.length - (k + 1) + (k + 1) = dir.length := by omega
          rw [show k + 1 + (dir.length - (k + 1)) = dir.length by omega, hp]
          simp
        have hm : (46 : Nat) ∈ p.drop (k + 1) := by
          rw [e2] at hmem
          exact List.mem_of_mem_drop hmem
        exact (hinv 46 hm).2 rfl
    · by_cases h2 : (p[k] == 46) = true
      · simp only [h1, h2, if_true, if_false, Bool.false_eq_true]
        have e46 : p[k] = 46 := by simpa using h2
        refine ⟨⟨p.take k, by simp⟩, Or.inr ⟨p.drop (k + 1), ?_, ?_, ?_⟩⟩
        · rw [hdrop, e46]
        · intro hm; exact (hinv 46 hm).2 rfl
        · intro c hc; exact (hinv c hc).1
      · simp only [h1, h2, if_false, Bool.false_eq_true]
        refine ih (by omega) ?_
        intro c hc
        rw [hdrop] at hc
        rcases List.mem_cons.1 hc with rfl | hc
        · exact ⟨by simpa using h1, by simpa using h2⟩
        · exact hinv c hc

/-- The function `filepath.Ext` gives the extension the specification
describes. -/
theorem Ext_spec (windows : Bool) (p : List Nat) : IsExtensionOf windows p (Ext windows p) :=
  extLoop_spec windows p p.length (le_refl _) (by simp)

/-- The output path is the path with `_output` put in front of the
extension. -/
theorem outputName_eq (windows : Bool) (p : List Nat) :
    ∃ stem, p = stem ++ Ext windows p ∧
      outputName windows p = stem ++ bytesOf "_output" ++ Ext windows p := by
  obtain ⟨stem, hs⟩ := extLoop_suffix windows p p.length (le_refl _)
  refine ⟨stem, hs, ?_⟩
  have hlen : p.length = stem.length + (Ext windows p).length := by
    conv_lhs => rw [hs]
    simp [Ext]
  have : slice p 0 (p.length - (Ext windows p).length) = stem := by
    have e : p.length - (Ext windows p).length = stem.length := by omega
    rw [e, slice, List.drop_zero]
    conv_lhs => rw [hs]
    simp [Ext]
  rw [outputName, this]

theorem outputName_length (windows : Bool) (p : List Nat) :
    (outputName windows p).length = p.length + 7 := by
  obtain ⟨stem, hs, ho⟩ := outputName_eq windows p
  rw [ho]
  conv_rhs => rw [hs]
  simp [bytesOf]
  omega

theorem outputName_ne (windows : Bool) (p : List Nat) : outputName windows p ≠ p := by
  intro h
  have := outputName_length windows p
  rw [h] at this
  omega

theorem outputName_ne_nil (windows : Bool) (p : List Nat) : outputName windows p ≠ [] := by
  intro h
  have := outputName_length windows p
  rw [h] at this
  simp at this

theorem outputName_not_above (windows : Bool) (p : List Nat) :
    beneath windows (outputName windows p) p = false := by
  have := outputName_length windows p
  simp [beneath]
  intro h
  omega

theorem components_ne_nil (windows : Bool) (p : List Nat) : components windows p ≠ [] := by
  cases p with
  | nil => simp [components]
  | cons c rest =>
    unfold components
    by_cases h : IsPathSeparator windows c = true
    · simp [h]
    · simp only [h, if_false, Bool.false_eq_true]
      cases components windows rest <;> simp

theorem components_sepfree (windows : Bool) : ∀ (b : List Nat),
    (∀ c ∈ b, IsPathSeparator windows c = false) → components windows b = [b] := by
  intro b
  induction b with
  | nil => intro _; rfl
  | cons c rest ih =>
    intro h
    have h1 := h c (List.mem_cons_self _ _)
    have h2 := ih (fun x hx => h x (List.mem_cons_of_mem _ hx))
    unfold components
    simp [h1, h2]

theorem lastLen_components (windows : Bool) (b : List Nat)
    (hb : ∀ c ∈ b, IsPathSeparator windows c = false) :
    ∀ a : List Nat, b.length ≤ lastLen (components windows (a ++ b)) := by
  intro a
  induction a with
  | nil =>
    rw [List.nil_append, components_sepfree windows b hb]
    exact le_refl _
  | cons c rest ih =>
    rw [List.cons_append]
    unfold components
    have hne := components_ne_nil windows (rest ++ b)
    by_cases h : IsPathSeparator windows c = true
    · simp only [h, if_true]
      cases hX : components windows (rest ++ b) with
      | nil => exact absurd hX hne
      | cons y r =>
        rw [hX] at ih
        exact ih
    · simp only [h, if_false, Bool.false_eq_true]
      cases hX : components windows (rest ++ b) with
      | nil => exact absurd hX hne
      | cons y r =>
        rw [hX] at ih
        cases r with
        | nil =>
          simp only [lastLen, List.length_cons] at ih ⊢
          omega
        | cons z r2 => exact ih

theorem properLast_of_lastLen : ∀ (comps : List (List Nat)), 3 ≤ lastLen comps →
    properLast comps = true := by
  intro comps
  induction comps with
  | nil => intro h; simp [lastLen] at h
  | cons c rest ih =>
    intro h
    cases rest with
    | nil =>
      simp only [lastLen] at h
      have h1 : c ≠ [] := by intro e; rw [e] at h; simp at h
      have h2 : c ≠ [46] := by intro e; rw [e] at h; simp at h
      have h3 : c ≠ [46, 46] := by intro e; rw [e] at h; simp at h
      simp [properLast, h1, h2, h3]
    | cons y r => exact ih h

theorem properLast_ne_nil {comps : List (List Nat)} (h : properLast comps = true) :
    comps ≠ [] := by
  intro e
  rw [e] at h
  exact Bool.noConfusion h

theorem properLast_tail {c : List Nat} {rest : List (List Nat)}
    (h : properLast (c :: rest) = true) (hr : rest ≠ []) : properLast rest = true := by
  cases rest with
  | nil => exact absurd rfl hr
  | cons y r => exact h

theorem properLast_special {c : List Nat} {rest : List (List Nat)}
    (h : properLast (c :: rest) = true)
    (hc : (c == [] || c == [46]) = true ∨ (c == [46, 46]) = true) :
    properLast rest = true := by
  cases rest with
  | nil =>
    exfalso
    have hc1 : (c == [] || c == [46] || c == [46, 46]) = true := by
      rcases hc with hc | hc
      · rw [hc]; rfl
      · rw [hc]; simp
    simp only [properLast, hc1] at h
    exact Bool.noConfusion h
  | cons y r => exact h

theorem properLast_append : ∀ (pre rest : List (List Nat)), properLast rest = true →
    properLast (pre ++ rest) = true := by
  intro pre
  induction pre with
  | nil => intro rest h; exact h
  | cons c p ih =>
    intro rest h
    have h1 := ih rest h
    have h2 := properLast_ne_nil h1
    cases hX : p ++ rest with
    | nil => exact absurd hX h2
    | cons y r =>
      rw [List.cons_append, hX]
      rw [hX] at h1
      exact h1

theorem ext_sepfree (windows : Bool) (p : List Nat) :
    ∀ c ∈ Ext windows p, IsPathSeparator windows c = false := by
  obtain ⟨_, h⟩ := Ext_spec windows p
  rcases h with ⟨e, _⟩ | ⟨rest, e, _, hr⟩
  · rw [e]; simp
  · rw [e]
    intro c hc
    rcases List.mem_cons.1 hc with rfl | hc
    · exact isPathSeparator_dot windows
    · exact hr c hc

theorem output_sepfree : ∀ (windows : Bool), ∀ c ∈ bytesOf "_output",
    IsPathSeparator windows c = false := by
  decide

/-- The last component of the output path is a name. -/
theorem outputName_properLast (windows : Bool) (p : List Nat) :
    properLast (components windows (outputName windows p)) = true := by
  obtain ⟨stem, _, ho⟩ := outputName_eq windows p
  rw [ho, List.append_assoc]
  apply properLast_of_lastLen
  have hb : ∀ c ∈ bytesOf "_output" ++ Ext windows p, IsPathSeparator windows c = false := by
    intro c hc
    rcases List.mem_append.1 hc with hc | hc
    · exact output_sepfree windows c hc
    · exact ext_sepfree windows p c hc
  have := lastLen_components windows _ hb stem
  have h7 : 7 ≤ (bytesOf "_output" ++ Ext windows p).length := by
    simp [bytesOf]
  omega

theorem outputName_not_empty (windows : Bool) (p : List Nat) :
    (outputName windows p).isEmpty = false := by
  have := outputName_ne_nil windows p
  cases h : outputName windows p with
  | nil => exact absurd h this
  | cons c r => rfl

theorem walkList_follow {E : Loc → Option Entry} {fold : List Nat → List Nat}
    {onLink onLink1 : Loc → List Nat → List (List Nat) → Except OSError Resolved}
    (hon : ∀ cur t rest, onLink cur t rest = onLink1 cur t rest ∨
      IsLinkResult (onLink cur t rest)) :
    ∀ (comps : List (List Nat)) (cur : Loc),
      walkList E fold false onLink cur comps = walkList E fold true onLink1 cur comps ∨
        IsLinkResult (walkList E fold false onLink cur comps) := by
  intro comps
  induction comps with
  | nil => intro cur; exact Or.inl rfl
  | cons c rest ih =>
    intro cur
    simp only [walkList]
    by_cases hd : isDirAt E cur = true
    swap
    · simp only [hd, Bool.not_false, if_true]
      exact Or.inl trivial
    simp only [hd, Bool.not_true, Bool.false_eq_true, if_false]
    by_cases hc1 : (c == [] || c == [46]) = true
    · simp only [hc1, if_true]
      exact ih cur
    simp only [hc1, Bool.false_eq_true, if_false]
    by_cases hc2 : (c == [46, 46]) = true
    · simp only [hc2, if_true]
      exact ih cur.dropLast
    simp only [hc2, Bool.false_eq_true, if_false]
    cases hE : E (cur ++ [fold c]) with
    | none => exact Or.inl rfl
    | some en =>
      cases en with
      | file d => exact Or.inl rfl
      | dir => exact ih (cur ++ [fold c])
      | symlink t =>
        simp only [Bool.not_false, Bool.and_true, Bool.not_true, Bool.and_false,
          Bool.false_eq_true, if_false]
        by_cases hr : rest.isEmpty = true
        · simp only [hr, if_true]
          exact Or.inr ⟨_, _, rfl⟩
        · simp only [hr, Bool.false_eq_true, if_false]
          exact hon cur t rest

theorem walkN_follow (windows : Bool) (E : Loc → Option Entry) (fold : List Nat → List Nat) :
    ∀ (n : Nat) (cur : Loc) (comps : List (List Nat)),
      walkN windows E fold false n cur comps = walkN windows E fold true n cur comps ∨
        IsLinkResult (walkN windows E fold false n cur comps) := by
  intro n
  induction n with
  | zero =>
    intro cur comps
    exact walkList_follow (fun _ _ _ => Or.inl rfl) comps cur
  | succ n ih =>
    intro cur comps
    refine walkList_follow (fun cur t rest => ?_) comps cur
    by_cases ht : t.isEmpty = true
    · simp only [ht, if_true]
      exact Or.inl trivial
    · simp only [ht, Bool.false_eq_true, if_false]
      exact ih _ _

theorem isPrefixOf_self (L : Loc) : L.isPrefixOf L = true := by
  induction L with
  | nil => rfl
  | cons a r ih => simp [List.isPrefixOf, ih]

theorem walkList_removed {E E1 : Loc → Option Entry} {fold : List Nat → List Nat} {L : Loc}
    (hE1 : ∀ q, E1 q = if L.isPrefixOf q then none else E q)
    {onLink onLink1 : Loc → List Nat → List (List Nat) → Except OSError Resolved}
    (hon : ∀ cur t rest, properLast rest = true → FoundAt L (onLink cur t rest) →
      FailsOrAbsent L (onLink1 cur t rest)) :
    ∀ (comps : List (List Nat)) (cur : Loc), properLast comps = true →
      FoundAt L (walkList E fold false onLink cur comps) →
      FailsOrAbsent L (walkList E1 fold true onLink1 cur comps) := by
  intro comps
  induction comps with
  | nil => intro cur hp; exact absurd hp (by simp [properLast])
  | cons c rest ih =>
    intro cur hp h
    simp only [walkList] at h ⊢
    by_cases hd : isDirAt E cur = true
    swap
    · simp only [hd, Bool.not_false, if_true] at h
      obtain ⟨e, he⟩ := h
      cases he
    simp only [hd, Bool.not_true, Bool.false_eq_true, if_false] at h
    by_cases hd1 : isDirAt E1 cur = true
    swap
    · simp only [hd1, Bool.not_false, if_true]
      exact Or.inl ⟨_, rfl⟩
    simp only [hd1, Bool.not_true, Bool.false_eq_true, if_false]
    by_cases hc1 : (c == [] || c == [46]) = true
    · simp only [hc1, if_true] at h ⊢
      exact ih cur (properLast_special hp (Or.inl hc1)) h
    simp only [hc1, Bool.false_eq_true, if_false] at h ⊢
    by_cases hc2 : (c == [46, 46]) = true
    · simp only [hc2, if_true] at h ⊢
      exact ih cur.dropLast (properLast_special hp (Or.inr hc2)) h
    simp only [hc2, Bool.false_eq_true, if_false] at h ⊢
    by_cases hr : rest.isEmpty = true
    · -- the last component
      have hrest : rest = [] := List.isEmpty_iff.1 hr
      subst hrest
      have hL : cur ++ [fold c] = L := by
        cases hE : E (cur ++ [fold c]) with
        | none =>
          rw [hE] at h
          obtain ⟨e, he⟩ := h
          simp at he
        | some en =>
          rw [hE] at h
          obtain ⟨e, he⟩ := h
          cases en with
          | file d =>
            simp only [List.isEmpty_nil, if_true, Except.ok.injEq, Resolved.found.injEq] at he
            exact he.1
          | dir =>
            simp only [walkList] at he
            by_cases hd2 : isDirAt E (cur ++ [fold c]) = true
            · simp only [hd2, if_true, Except.ok.injEq, Resolved.found.injEq] at he
              exact he.1
            · simp only [hd2, Bool.false_eq_true, if_false] at he
              cases he
          | symlink t =>
            simp only [List.isEmpty_nil, Bool.not_false, Bool.and_true, if_true,
              Except.ok.injEq, Resolved.found.injEq] at he
            exact he.1
      have e1 : E1 (cur ++ [fold c]) = none := by
        rw [hE1, hL, isPrefixOf_self]
        rfl
      rw [e1]
      simp only [List.isEmpty_nil, if_true, hL]
      exact Or.inr rfl
    · -- more components follow
      have hrne : rest ≠ [] := fun e => hr (by rw [e]; rfl)
      have hpr := properLast_tail hp hrne
      by_cases hin : L.isPrefixOf (cur ++ [fold c]) = true
      · have e1 : E1 (cur ++ [fold c]) = none := by
          rw [hE1, hin]
          rfl
        rw [e1]
        simp only [hr, Bool.false_eq_true, if_false]
        exact Or.inl ⟨_, rfl⟩
      · have e1 : E1 (cur ++ [fold c]) = E (cur ++ [fold c]) := by
          rw [hE1]
          simp only [hin, Bool.false_eq_true, if_false]
        rw [e1]
        cases hE : E (cur ++ [fold c]) with
        | none =>
          simp only [hr, Bool.false_eq_true, if_false]
          exact Or.inl ⟨_, rfl⟩
        | some en =>
          rw [hE] at h
          cases en with
          | file d =>
            simp only [hr, Bool.false_eq_true, if_false]
            exact Or.inl ⟨_, rfl⟩
          | dir => exact ih (cur ++ [fold c]) hpr h
          | symlink t =>
            simp only [hr, Bool.false_and, Bool.false_eq_true, if_false] at h ⊢
            exact hon cur t rest hpr h

theorem walkN_removed (windows : Bool) {E E1 : Loc → Option Entry}
    (fold : List Nat → List Nat) {L : Loc}
    (hE1 : ∀ q, E1 q = if L.isPrefixOf q then none else E q) :
    ∀ (n : Nat) (cur : Loc) (comps : List (List Nat)), properLast comps = true →
      FoundAt L (walkN windows E fold false n cur comps) →
      FailsOrAbsent L (walkN windows E1 fold true n cur comps) := by
  intro n
  induction n with
  | zero =>
    intro cur comps hp h
    refine walkList_removed hE1 (fun _ _ _ _ h1 => ?_) comps cur hp h
    obtain ⟨e, he⟩ := h1
    cases he
  | succ n ih =>
    intro cur comps hp h
    refine walkList_removed hE1 (fun cur t rest hpr h1 => ?_) comps cur hp h
    by_cases ht : t.isEmpty = true
    · simp only [ht, if_true] at h1
      obtain ⟨e, he⟩ := h1
      cases he
    · simp only [ht, Bool.false_eq_true, if_false] at h1 ⊢
      exact ih _ _ (properLast_append _ _ hpr) h1

theorem truthful_error (E : Loc → Option Entry) (err : OSError) :
    Truthful E (.error err) :=
  ⟨fun _ _ h => (by cases h), fun _ h => by cases h⟩

theorem walkList_truthful {E : Loc → Option Entry} {fold : List Nat → List Nat}
    {follow : Bool}
    {onLink : Loc → List Nat → List (List Nat) → Except OSError Resolved}
    (hon : ∀ cur t rest, Truthful E (onLink cur t rest)) :
    ∀ (comps : List (List Nat)) (cur : Loc),
      Truthful E (walkList E fold follow onLink cur comps) := by
  intro comps
  induction comps with
  | nil =>
    intro cur
    simp only [walkList]
    by_cases hd : isDirAt E cur = true
    · simp only [hd, if_true]
      exact ⟨fun _ _ h => (by cases h), fun _ h => by cases h⟩
    · simp only [hd, Bool.false_eq_true, if_false]
      exact truthful_error E _
  | cons c rest ih =>
    intro cur
    simp only [walkList]
    by_cases hd : isDirAt E cur = true
    swap
    · simp only [hd, Bool.not_false, if_true]
      exact truthful_error E _
    simp only [hd, Bool.not_true, Bool.false_eq_true, if_false]
    by_cases hc1 : (c == [] || c == [46]) = true
    · simp only [hc1, if_true]
      exact ih cur
    simp only [hc1, Bool.false_eq_true, if_false]
    by_cases hc2 : (c == [46, 46]) = true
    · simp only [hc2, if_true]
      exact ih cur.dropLast
    simp only [hc2, Bool.false_eq_true, if_false]
    have hne : cur ++ [fold c] ≠ [] := by simp
    cases hE : E (cur ++ [fold c]) with
    | none =>
      by_cases hr : rest.isEmpty = true
      · simp only [hr, if_true]
        refine ⟨fun _ _ h => (by cases h), fun l h => ?_⟩
        cases h
        exact ⟨hE, hne⟩
      · simp only [hr, Bool.false_eq_true, if_false]
        exact truthful_error E _
    | some en =>
      cases en with
      | file d =>
        by_cases hr : rest.isEmpty = true
        · simp only [hr, if_true]
          refine ⟨fun l d1 h => ?_, fun _ h => by cases h⟩
          cases h
          exact ⟨hE, hne⟩
        · simp only [hr, Bool.false_eq_true, if_false]
          exact truthful_error E _
      | dir => exact ih (cur ++ [fold c])
      | symlink t =>
        by_cases hr : (rest.isEmpty && !follow) = true
        · simp only [hr, if_true]
          exact ⟨fun _ _ h => (by cases h), fun _ h => by cases h⟩
        · simp only [hr, Bool.false_eq_true, if_false]
          exact hon cur t rest

theorem walkN_truthful (windows : Bool) (E : Loc → Option Entry)
    (fold : List Nat → List Nat) (follow : Bool) :
    ∀ (n : Nat) (cur : Loc) (comps : List (List Nat)),
      Truthful E (walkN windows E fold follow n cur comps) := by
  intro n
  induction n with
  | zero =>
    intro cur comps
    exact walkList_truthful (fun _ _ _ => truthful_error E _) comps cur
  | succ n ih =>
    intro cur comps
    refine walkList_truthful (fun cur t rest => ?_) comps cur
    by_cases ht : t.isEmpty = true
    · simp only [ht, if_true]
      exact truthful_error E _
    · simp only [ht, Bool.false_eq_true, if_false]
      exact ih _ _

theorem isDirAt_written {E E1 : Loc → Option Entry} {loc0 : Loc} {m : List Nat}
    (hE1 : ∀ q, E1 q = if q = loc0 then some (.file m) else E q)
    (h0 : E loc0 = none ∨ ∃ d, E loc0 = some (.file d)) (hne : loc0 ≠ [])
    {cur : Loc} (hd : isDirAt E cur = true) : isDirAt E1 cur = true ∧ cur ≠ loc0 := by
  unfold isDirAt at hd ⊢
  by_cases hc : cur = []
  · subst hc
    exact ⟨rfl, fun e => hne e.symm⟩
  · have hb : (cur == []) = false := by simpa using hc
    rw [hb, Bool.false_or] at hd ⊢
    have hdir : E cur = some .dir := by simpa using hd
    have hne2 : cur ≠ loc0 := by
      intro e
      subst e
      rcases h0 with h0 | ⟨d, h0⟩
      · rw [h0] at hdir; cases hdir
      · rw [h0] at hdir; cases hdir
    refine ⟨?_, hne2⟩
    rw [hE1, if_neg hne2, hdir]
    rfl

theorem walkList_written {E E1 : Loc → Option Entry} {fold : List Nat → List Nat}
    {loc0 : Loc} {m : List Nat}
    (hE1 : ∀ q, E1 q = if q = loc0 then some (.file m) else E q)
    (h0 : E loc0 = none ∨ ∃ d, E loc0 = some (.file d)) (hne : loc0 ≠ [])
    {onLink onLink1 : Loc → List Nat → List (List Nat) → Except OSError Resolved}
    (hon : ∀ cur t rest, AfterWrite loc0 m (onLink cur t rest) (onLink1 cur t rest)) :
    ∀ (comps : List (List Nat)) (cur : Loc),
      AfterWrite loc0 m (walkList E fold true onLink cur comps)
        (walkList E1 fold true onLink1 cur comps) := by
  intro comps
  induction comps with
  | nil =>
    intro cur res h
    simp only [walkList] at h ⊢
    by_cases hd : isDirAt E cur = true
    · obtain ⟨hd1, hcur⟩ := isDirAt_written hE1 h0 hne hd
      simp only [hd, if_true, Except.ok.injEq] at h
      subst h
      simp only [hd1, if_true, adjust, Resolved.loc, if_neg hcur]
    · simp only [hd, Bool.false_eq_true, if_false] at h
      cases h
  | cons c rest ih =>
    intro cur res h
    simp only [walkList] at h ⊢
    by_cases hd : isDirAt E cur = true
    swap
    · simp only [hd, Bool.not_false, if_true] at h
      cases h
    obtain ⟨hd1, hcur⟩ := isDirAt_written hE1 h0 hne hd
    simp only [hd, Bool.not_true, Bool.false_eq_true, if_false] at h
    simp only [hd1, Bool.not_true, Bool.false_eq_true, if_false]
    by_cases hc1 : (c == [] || c == [46]) = true
    · simp only [hc1, if_true] at h ⊢
      exact ih cur res h
    simp only [hc1, Bool.false_eq_true, if_false] at h ⊢
    by_cases hc2 : (c == [46, 46]) = true
    · simp only [hc2, if_true] at h ⊢
      exact ih cur.dropLast res h
    simp only [hc2, Bool.false_eq_true, if_false] at h ⊢
    by_cases hl : cur ++ [fold c] = loc0
    · have e1 : E1 (cur ++ [fold c]) = some (.file m) := by rw [hE1, if_pos hl]
      rw [e1]
      rw [hl] at h ⊢
      rcases h0 with h0 | ⟨d, h0⟩
      · rw [h0] at h
        by_cases hr : rest.isEmpty = true
        · simp only [hr, if_true, Except.ok.injEq] at h ⊢
          subst h
          simp only [adjust, Resolved.loc, if_true]
        · simp only [hr, Bool.false_eq_true, if_false] at h
          cases h
      · rw [h0] at h
        by_cases hr : rest.isEmpty = true
        · simp only [hr, if_true, Except.ok.injEq] at h ⊢
          subst h
          simp only [adjust, Resolved.loc, if_true]
        · simp only [hr, Bool.false_eq_true, if_false] at h
          cases h
    · have e1 : E1 (cur ++ [fold c]) = E (cur ++ [fold c]) := by rw [hE1, if_neg hl]
      rw [e1]
      cases hE : E (cur ++ [fold c]) with
      | none =>
        rw [hE] at h
        by_cases hr : rest.isEmpty = true
        · simp only [hr, if_true, Except.ok.injEq] at h ⊢
          subst h
          simp only [adjust, Resolved.loc, if_neg hl]
        · simp only [hr, Bool.false_eq_true, if_false] at h
          cases h
      | some en =>
        rw [hE] at h
        cases en with
        | file d =>
          by_cases hr : rest.isEmpty = true
          · simp only [hr, if_true, Except.ok.injEq] at h ⊢
            subst h
            simp only [adjust, Resolved.loc, if_neg hl]
          · simp only [hr, Bool.false_eq_true, if_false] at h
            cases h
        | dir => exact ih (cur ++ [fold c]) res h
        | symlink t =>
          simp only [Bool.not_true, Bool.and_false, Bool.false_eq_true, if_false] at h ⊢
          exact hon cur t rest res h

theorem walkN_written (windows : Bool) {E E1 : Loc → Option Entry}
    (fold : List Nat → List Nat) {loc0 : Loc} {m : List Nat}
    (hE1 : ∀ q, E1 q = if q = loc0 then some (.file m) else E q)
    (h0 : E loc0 = none ∨ ∃ d, E loc0 = some (.file d)) (hne : loc0 ≠ []) :
    ∀ (n : Nat) (cur : Loc) (comps : List (List Nat)),
      AfterWrite loc0 m (walkN windows E fold true n cur comps)
        (walkN windows E1 fold true n cur comps) := by
  intro n
  induction n with
  | zero =>
    intro cur comps
    refine walkList_written hE1 h0 hne (fun _ _ _ res h => ?_) comps cur
    cases h
  | succ n ih =>
    intro cur comps
    refine walkList_written hE1 h0 hne (fun cur t rest res h => ?_) comps cur
    by_cases ht : t.isEmpty = true
    · simp only [ht, if_true] at h
      cases h
    · simp only [ht, Bool.false_eq_true, if_false] at h ⊢
      exact ih _ _ res h

theorem resolve_follow (windows : Bool) (fs : FileSystem) (p : List Nat) :
    resolve windows fs false p = resolve windows fs true p ∨
      IsLinkResult (resolve windows fs false p) := by
  unfold resolve
  by_cases hp : p.isEmpty = true
  · simp only [hp, if_true]
    exact Or.inl trivial
  · simp only [hp, Bool.false_eq_true, if_false]
    exact walkN_follow windows fs.entries fs.fold fs.linkLimit _ _

theorem resolve_removed (windows : Bool) (fs : FileSystem) (p : List Nat) (L : Loc)
    (hp : properLast (components windows p) = true)
    (h : FoundAt L (resolve windows fs false p)) :
    FailsOrAbsent L (resolve windows (without fs L) true p) := by
  unfold resolve at h ⊢
  by_cases he : p.isEmpty = true
  · simp only [he, if_true]
    exact Or.inl ⟨_, rfl⟩
  · simp only [he, Bool.false_eq_true, if_false] at h ⊢
    exact walkN_removed windows fs.fold (fun q => rfl) fs.linkLimit _ _ hp h

theorem WriteFile_inv {windows : Bool} {fs fs2 : FileSystem} {name data : List Nat}
    (h : WriteFile windows fs name data = .ok fs2) :
    ∃ res, resolve windows fs true name = .ok res ∧
      (res = .absent res.loc ∨ ∃ d, res = .found res.loc (.file d)) ∧
      fs2 = withFile fs res.loc data := by
  unfold WriteFile at h
  cases hres : resolve windows fs true name with
  | error err =>
    rw [hres] at h
    cases h
  | ok res =>
    rw [hres] at h
    cases res with
    | absent loc =>
      simp only [Except.ok.injEq] at h
      exact ⟨_, rfl, Or.inl rfl, h.symm⟩
    | found loc e =>
      cases e with
      | file d =>
        simp only [Except.ok.injEq] at h
        exact ⟨_, rfl, Or.inr ⟨d, rfl⟩, h.symm⟩
      | dir => cases h
      | symlink t => cases h

/-- What `os.WriteFile` wrote is what `os.ReadFile` reads under the same
name. -/
theorem WriteFile_read {windows : Bool} {fs fs2 : FileSystem} {name data : List Nat}
    (h : WriteFile windows fs name data = .ok fs2) :
    ReadFile windows fs2 name = .ok data := by
  obtain ⟨res, hres, hkind, rfl⟩ := WriteFile_inv h
  have hE1 : ∀ q, (withFile fs res.loc data).entries q =
      if q = res.loc then some (.file data) else fs.entries q := by
    intro q
    simp only [withFile, beq_iff_eq]
  unfold resolve at hres
  by_cases he : name.isEmpty = true
  · simp only [he, if_true] at hres
    cases hres
  simp only [he, Bool.false_eq_true, if_false] at hres
  have ht := walkN_truthful windows fs.entries fs.fold true fs.linkLimit
    (startOf windows fs.cwd name) (components windows name)
  rw [hres] at ht
  have h0 : (fs.entries res.loc = none ∨ ∃ d, fs.entries res.loc = some (.file d)) ∧
      res.loc ≠ [] := by
    rcases hkind with hk | ⟨d, hk⟩
    · have := ht.2 res.loc (by rw [← hk])
      exact ⟨Or.inl this.1, this.2⟩
    · have := ht.1 res.loc d (by rw [← hk])
      exact ⟨Or.inr ⟨d, this.1⟩, this.2⟩
  have hw := walkN_written windows fs.fold hE1 h0.1 h0.2 fs.linkLimit
    (startOf windows fs.cwd name) (components windows name) res hres
  have hr : resolve windows (withFile fs res.loc data) true name =
      .ok (.found res.loc (.file data)) := by
    unfold resolve
    simp only [he, Bool.false_eq_true, if_false]
    have e : adjust res.loc data res = .found res.loc (.file data) := by
      simp only [adjust, if_true]
    rw [← e]
    exact hw
  unfold ReadFile
  rw [hr]

theorem RemoveAll_inv {windows : Bool} {fs fs1 : FileSystem} {name : List Nat}
    (h : RemoveAll windows fs name = .ok fs1) (hne : name.isEmpty = false) :
    (fs1 = fs ∧ (resolve windows fs false name = .error .notExist ∨
        ∃ L, resolve windows fs false name = .ok (.absent L))) ∨
      ∃ L e, resolve windows fs false name = .ok (.found L e) ∧ fs1 = without fs L := by
  unfold RemoveAll at h
  simp only [hne, Bool.false_eq_true, if_false] at h
  by_cases hd : endsWithDot windows name = true
  · simp only [hd, if_true] at h
    cases h
  simp only [hd, Bool.false_eq_true, if_false] at h
  cases hres : resolve windows fs false name with
  | error err =>
    rw [hres] at h
    cases err <;> first
      | (simp only [Except.ok.injEq] at h; exact Or.inl ⟨h.symm, Or.inl rfl⟩)
      | cases h
  | ok res =>
    rw [hres] at h
    cases res with
    | absent loc =>
      simp only [Except.ok.injEq] at h
      exact Or.inl ⟨h.symm, Or.inr ⟨loc, rfl⟩⟩
    | found loc e =>
      simp only [Except.ok.injEq] at h
      exact Or.inr ⟨loc, e, rfl, h.symm⟩

theorem withFile_entries (fs : FileSystem) (loc : Loc) (data : List Nat) (q : Loc)
    (h : q ≠ loc) : (withFile fs loc data).entries q = fs.entries q := by
  simp only [withFile, beq_iff_eq, if_neg h]

theorem without_entries (fs : FileSystem) (L q : Loc) (h : L.isPrefixOf q = false) :
    (without fs L).entries q = fs.entries q := by
  simp only [without, h, Bool.false_eq_true, if_false]

theorem ne_of_not_isPrefixOf {L q : Loc} (h : L.isPrefixOf q = false) : q ≠ L := by
  intro e
  rw [e, isPrefixOf_self] at h
  exact Bool.noConfusion h

/-- Removing a name and then writing a file under it changes nothing outside
the location the name stands for and what lies beneath it. -/
theorem remove_write_frame {windows : Bool} {fs fs1 : FileSystem} {name : List Nat}
    (hne : name.isEmpty = false) (hp : properLast (components windows name) = true)
    (hrm : RemoveAll windows fs name = .ok fs1) (q : Loc)
    (hq : ∀ L, entryNamed windows fs name = some L → L.isPrefixOf q = false) :
    fs1.entries q = fs.entries q ∧
      ∀ data fs2, WriteFile windows fs1 name data = .ok fs2 →
        fs2.entries q = fs.entries q := by
  rcases RemoveAll_inv hrm hne with ⟨rfl, hres⟩ | ⟨L, e, hres, rfl⟩
  · refine ⟨rfl, fun data fs2 hw => ?_⟩
    obtain ⟨res, hres2, _, rfl⟩ := WriteFile_inv hw
    rcases resolve_follow windows fs1 name with hf | ⟨l, t, hl⟩
    · rcases hres with hres | ⟨L, hres⟩
      · rw [hres] at hf
        rw [← hf] at hres2
        cases hres2
      · rw [hres] at hf
        rw [← hf] at hres2
        cases hres2
        have hL := hq L (by simp only [entryNamed, hres, Resolved.loc])
        exact withFile_entries _ _ _ _ (ne_of_not_isPrefixOf hL)
    · rcases hres with hres | ⟨L, hres⟩
      · rw [hres] at hl
        cases hl
      · rw [hres] at hl
        cases hl
  · have hL := hq L (by simp only [entryNamed, hres, Resolved.loc])
    refine ⟨without_entries fs L q hL, fun data fs2 hw => ?_⟩
    obtain ⟨res, hres2, _, rfl⟩ := WriteFile_inv hw
    rcases resolve_removed windows fs name L hp ⟨e, hres⟩ with ⟨err, he⟩ | ha
    · rw [he] at hres2
      cases hres2
    · rw [ha] at hres2
      cases hres2
      exact (withFile_entries _ _ _ _ (ne_of_not_isPrefixOf hL)).trans
        (without_entries fs L q hL)

theorem not_isPrefixOf_dropLast {L cur : Loc} (h : L.isPrefixOf cur = false) :
    L.isPrefixOf cur.dropLast = false := by
  cases hb : L.isPrefixOf cur.dropLast with
  | false => rfl
  | true =>
    have h1 : L <+: cur.dropLast := List.isPrefixOf_iff_prefix.1 hb
    have h2 : L <+: cur := h1.trans (List.dropLast_prefix cur)
    rw [List.isPrefixOf_iff_prefix.2 h2] at h
    exact Bool.noConfusion h

theorem eq_of_isPrefixOf_concat {L cur : Loc} {x : List Nat}
    (h : L.isPrefixOf cur = false) (h1 : L.isPrefixOf (cur ++ [x]) = true) :
    L = cur ++ [x] := by
  have h2 : L <+: cur ++ [x] := List.isPrefixOf_iff_prefix.1 h1
  rcases List.prefix_concat_iff.1 h2 with e | h3
  · exact e
  · rw [List.isPrefixOf_iff_prefix.2 h3] at h
    exact Bool.noConfusion h

theorem isDirAt_outside {E E1 : Loc → Option Entry} {L cur : Loc}
    (hagree : ∀ q, L.isPrefixOf q = false → E1 q = E q) (h : L.isPrefixOf cur = false) :
    isDirAt E1 cur = isDirAt E cur := by
  unfold isDirAt
  rw [hagree cur h]

theorem walkList_outside {E E1 : Loc → Option Entry} {fold : List Nat → List Nat}
    {follow : Bool} {L : Loc}
    (hagree : ∀ q, L.isPrefixOf q = false → E1 q = E q)
    (hL : E L = none ∨ ∃ d, E L = some (.file d))
    {onLink onLink1 : Loc → List Nat → List (List Nat) → Except OSError Resolved}
    (hon : ∀ t rest, SameOutside L (fun cur => onLink cur t rest)
      (fun cur => onLink1 cur t rest)) :
    ∀ (comps : List (List Nat)),
      SameOutside L (fun cur => walkList E fold follow onLink cur comps)
        (fun cur => walkList E1 fold follow onLink1 cur comps) := by
  intro comps
  induction comps with
  | nil =>
    intro cur res hcur h hres
    simp only [walkList] at h ⊢
    rw [isDirAt_outside hagree hcur]
    exact h
  | cons c rest ih =>
    intro cur res hcur h hres
    simp only [walkList] at h ⊢
    rw [isDirAt_outside hagree hcur]
    by_cases hd : isDirAt E cur = true
    swap
    · simp only [hd, Bool.not_false, if_true] at h
      cases h
    simp only [hd, Bool.not_true, Bool.false_eq_true, if_false] at h ⊢
    by_cases hc1 : (c == [] || c == [46]) = true
    · simp only [hc1, if_true] at h ⊢
      exact ih cur res hcur h hres
    simp only [hc1, Bool.false_eq_true, if_false] at h ⊢
    by_cases hc2 : (c == [46, 46]) = true
    · simp only [hc2, if_true] at h ⊢
      exact ih cur.dropLast res (not_isPrefixOf_dropLast hcur) h hres
    simp only [hc2, Bool.false_eq_true, if_false] at h ⊢
    cases hin : L.isPrefixOf (cur ++ [fold c]) with
    | true =>
      exfalso
      have hl := eq_of_isPrefixOf_concat hcur hin
      rw [← hl] at h
      rcases hL with hL | ⟨d, hL⟩
      · rw [hL] at h
        by_cases hr : rest.isEmpty = true
        · simp only [hr, if_true, Except.ok.injEq] at h
          subst h
          rw [Resolved.loc, isPrefixOf_self] at hres
          exact Bool.noConfusion hres
        · simp only [hr, Bool.false_eq_true, if_false] at h
          cases h
      · rw [hL] at h
        by_cases hr : rest.isEmpty = true
        · simp only [hr, if_true, Except.ok.injEq] at h
          subst h
          rw [Resolved.loc, isPrefixOf_self] at hres
          exact Bool.noConfusion hres
        · simp only [hr, Bool.false_eq_true, if_false] at h
          cases h
    | false =>
      rw [hagree _ hin]
      cases hE : E (cur ++ [fold c]) with
      | none =>
        rw [hE] at h
        exact h
      | some en =>
        rw [hE] at h
        cases en with
        | file d => exact h
        | dir => exact ih (cur ++ [fold c]) res hin h hres
        | symlink t =>
          by_cases hr : (rest.isEmpty && !follow) = true
          · simp only [hr, if_true] at h ⊢
            exact h
          · simp only [hr, Bool.false_eq_true, if_false] at h ⊢
            exact hon t rest cur res hcur h hres

theorem startOf_outside (windows : Bool) {L cur : Loc} (t : List Nat) (hne : L ≠ [])
    (h : L.isPrefixOf cur = false) : L.isPrefixOf (startOf windows cur t) = false := by
  have hnil : L.isPrefixOf ([] : Loc) = false := by
    cases L with
    | nil => exact absurd rfl hne
    | cons a r => rfl
  unfold startOf
  cases t with
  | nil => exact h
  | cons c r =>
    by_cases hc : IsPathSeparator windows c = true
    · simp only [hc, if_true]
      exact hnil
    · simp only [hc, Bool.false_eq_true, if_false]
      exact h

theorem walkN_outside (windows : Bool) {E E1 : Loc → Option Entry}
    (fold : List Nat → List Nat) (follow : Bool) {L : Loc}
    (hagree : ∀ q, L.isPrefixOf q = false → E1 q = E q)
    (hL : E L = none ∨ ∃ d, E L = some (.file d)) (hne : L ≠ []) :
    ∀ (n : Nat) (start : Loc → Loc) (comps : List (List Nat)),
      (∀ cur, L.isPrefixOf cur = false → L.isPrefixOf (start cur) = false) →
      SameOutside L (fun cur => walkN windows E fold follow n (start cur) comps)
        (fun cur => walkN windows E1 fold follow n (start cur) comps) := by
  intro n
  induction n with
  | zero =>
    intro start comps hstart cur res hcur h hres
    refine walkList_outside hagree hL (fun _ _ _ res _ h _ => ?_) comps (start cur) res
      (hstart cur hcur) h hres
    cases h
  | succ n ih =>
    intro start comps hstart cur res hcur h hres
    refine walkList_outside hagree hL (fun t rest cur res hcur h hres => ?_) comps
      (start cur) res (hstart cur hcur) h hres
    by_cases ht : t.isEmpty = true
    · simp only [ht, if_true] at h
      cases h
    · simp only [ht, Bool.false_eq_true, if_false] at h ⊢
      exact ih (fun cur => startOf windows cur t) _
        (fun cur hc => startOf_outside windows t hne hc) cur res hcur h hres

/-- A path that resolves away from the entry at `L`, which is no directory and
no link, resolves to the same in every file system that differs only at `L` and
beneath it. -/
theorem resolve_outside (windows : Bool) (fs fs1 : FileSystem) (follow : Bool) (L : Loc)
    (p : List Nat) (res : Resolved)
    (hcwd : fs1.cwd = fs.cwd) (hfold : fs1.fold = fs.fold)
    (hlimit : fs1.linkLimit = fs.linkLimit)
    (hagree : ∀ q, L.isPrefixOf q = false → fs1.entries q = fs.entries q)
    (hL : fs.entries L = none ∨ ∃ d, fs.entries L = some (.file d))
    (hstart : L.isPrefixOf fs.cwd = false)
    (h : resolve windows fs follow p = .ok res) (hres : L.isPrefixOf res.loc = false) :
    resolve windows fs1 follow p = .ok res := by
  have hne : L ≠ [] := by
    intro e
    rw [e] at hstart
    simp at hstart
  unfold resolve at h ⊢
  by_cases he : p.isEmpty = true
  · simp only [he, if_true] at h
    cases h
  simp only [he, Bool.false_eq_true, if_false] at h ⊢
  rw [hcwd, hfold, hlimit]
  exact walkN_outside windows fs.fold follow hagree hL hne fs.linkLimit
    (fun cur => startOf windows cur p) (components windows p)
    (fun cur hc => startOf_outside windows p hne hc) fs.cwd res hstart h hres

theorem isNumber_digit (c : Nat) (h1 : 49 ≤ c) (h2 : c ≤ 57) : IsNumber [c] :=
  ⟨[], [c], [], [], rfl, Or.inl rfl, Or.inr ⟨c, [], rfl, h1, h2, isDigits_nil⟩,
    Or.inl rfl, Or.inl rfl⟩

theorem isWs_of_all (w : List Nat) (h : w.all isWhitespace = true) : IsWs w := by
  intro c hc
  exact List.all_eq_true.1 h c hc

theorem stringBody_letter (c : Nat) (h1 : 32 ≤ c) (h2 : c ≠ 34) (h3 : c ≠ 92) :
    StringBody [c] :=
  .byte c [] h1 h2 h3 .nil

theorem sampleElements_value : Value 1 (bytesOf "[1, 2, 3]")
    (.array [.number [49], .number [50], .number [51]]) := by
  have h := Value.array 0 sampleElements (by simp [sampleElements])
    (fun e he => by
      simp [sampleElements] at he
      rcases he with rfl | rfl | rfl <;>
        exact ⟨isWs_of_all _ (by decide), isWs_of_all _ (by decide)⟩)
    (fun e he => by
      simp [sampleElements] at he
      rcases he with rfl | rfl | rfl <;>
        exact .number 0 _ (isNumber_digit _ (by decide) (by decide)))
  exact h

theorem sampleText_document : Document 2 sampleText sampleValue := by
  refine ⟨[], sampleText, [], by simp, isWs_nil, isWs_nil, ?_⟩
  have h := Value.object 1 sampleMembers (by simp [sampleMembers])
    (fun m hm => by
      simp [sampleMembers] at hm
      rcases hm with rfl | rfl <;>
        exact ⟨isWs_of_all _ (by decide), isWs_of_all _ (by decide),
          isWs_of_all _ (by decide), isWs_of_all _ (by decide),
          stringBody_letter _ (by decide) (by decide) (by decide)⟩)
    (fun m hm => by
      simp [sampleMembers] at hm
      rcases hm with rfl | rfl
      · exact .number 1 _ (isNumber_digit _ (by decide) (by decide))
      · exact sampleElements_value)
  exact h

theorem minifyJSON_of_document {d : Nat} {D : List Nat} {v : JValue}
    (h : Document d D v) (hd : d ≤ maxNestingDepth) :
    minifyJSON D = .ok (stripWhitespace D) := by
  obtain ⟨out, ho⟩ := minifyJSON_complete h hd
  rw [ho, minifyJSON_eq_strip ho]

theorem not_ok_of_error {D : List Nat} (h : ∃ e, minifyJSON D = .error e) (out : List Nat) :
    minifyJSON D ≠ .ok out := by
  obtain ⟨e, he⟩ := h
  rw [he]
  intro h2
  cases h2

/-- C1, as amended: for every byte sequence `D` that is valid JSON nested at
most `maxNestingDepth` (10000) deep, `minifyJSON D` succeeds and returns `D`
with exactly the whitespace bytes outside string literals deleted. -/
theorem minifyJSON_deletes_outer_whitespace (d : Nat) (D : List Nat) (v : JValue)
    (h : Document d D v) (hd : d ≤ maxNestingDepth) :
    minifyJSON D = .ok (stripWhitespace D) :=
  minifyJSON_of_document h hd

/-- C1, an instance: the four-line sample object is valid JSON of depth 2 and
is minified to itself without the whitespace outside its strings. -/
theorem minifyJSON_deletes_outer_whitespace_witness :
    Document 2 sampleText sampleValue ∧ 2 ≤ maxNestingDepth ∧
      minifyJSON sampleText = .ok (stripWhitespace sampleText) :=
  ⟨sampleText_document, by decide,
    minifyJSON_deletes_outer_whitespace 2 sampleText sampleValue sampleText_document
      (by decide)⟩

/-- C1 as stated fails: 10001 opening brackets followed by 10001 closing
brackets are valid JSON, and `minifyJSON` returns an error on them instead of
the text without whitespace. -/
theorem minifyJSON_rejects_deep_valid_json :
    ValidJSON (nestedArrays 10000) ∧
      (∃ e, minifyJSON (nestedArrays 10000) = .error e) ∧
      minifyJSON (nestedArrays 10000) ≠ .ok (stripWhitespace (nestedArrays 10000)) :=
  ⟨nestedArrays_valid 10000, nestedArrays_rejected 10000 (by decide),
    not_ok_of_error (nestedArrays_rejected 10000 (by decide)) _⟩

/-- C2, as amended: for every JSON document `D` nested at most
`maxNestingDepth` deep that parses to the value `v`, `minifyJSON D` succeeds
and its output parses to the same value `v` (same members in the same order,
same elements, same strings, numbers, booleans and nulls); `v` is the only
value that `D` parses to and the only value that the output parses to. -/
theorem minifyJSON_preserves_value (d : Nat) (D : List Nat) (v : JValue)
    (h : Document d D v) (hd : d ≤ maxNestingDepth) :
    ∃ out, minifyJSON D = .ok out ∧ Document d out v ∧
      (∀ d1 v1, Document d1 D v1 → v1 = v) ∧
      (∀ d1 v1, Document d1 out v1 → v1 = v) :=
  ⟨stripWhitespace D, minifyJSON_of_document h hd, document_strip h,
    fun _ _ h1 => document_unique h1 h,
    fun _ _ h1 => document_unique h1 (document_strip h)⟩

/-- C2, an instance: the output for the sample object parses to the value of
the sample object, and to no other. -/
theorem minifyJSON_preserves_value_witness :
    Document 2 sampleText sampleValue ∧ 2 ≤ maxNestingDepth ∧
      ∃ out, minifyJSON sampleText = .ok out ∧ Document 2 out sampleValue ∧
        (∀ d1 v1, Document d1 sampleText v1 → v1 = sampleValue) ∧
        (∀ d1 v1, Document d1 out v1 → v1 = sampleValue) :=
  ⟨sampleText_document, by decide,
    minifyJSON_preserves_value 2 sampleText sampleValue sampleText_document (by decide)⟩

/-- C2 as stated fails: 10001 nested arrays are a valid document with a
value, and `minifyJSON` gives no output that parses to that value. -/
theorem minifyJSON_deep_value_lost :
    Document 10001 (nestedArrays 10000) (nestedValue 10000) ∧
      ¬ ∃ out, minifyJSON (nestedArrays 10000) = .ok out ∧
        Document 10001 out (nestedValue 10000) :=
  ⟨⟨[], nestedArrays 10000, [], by simp, isWs_nil, isWs_nil, nestedArrays_value 10000⟩,
    fun ⟨out, ho, _⟩ => not_ok_of_error (nestedArrays_rejected 10000 (by decide)) out ho⟩

/-- C5, as amended: for every valid JSON document `D` nested at most
`maxNestingDepth` deep, `minifyJSON D` succeeds with an output `m`, and
`minifyJSON m` succeeds and equals `m`. -/
theorem minifyJSON_idempotent (d : Nat) (D : List Nat) (v : JValue)
    (h : Document d D v) (hd : d ≤ maxNestingDepth) :
    ∃ m, minifyJSON D = .ok m ∧ minifyJSON m = .ok m := by
  refine ⟨stripWhitespace D, minifyJSON_of_document h hd, ?_⟩
  have h2 := minifyJSON_of_document (document_strip h) hd
  rw [h2, stripWhitespace, stripWhitespace, stripFrom_idem]

/-- C5, an instance: minifying the sample object twice gives what minifying it
once gives. -/
theorem minifyJSON_idempotent_witness :
    Document 2 sampleText sampleValue ∧ 2 ≤ maxNestingDepth ∧
      ∃ m, minifyJSON sampleText = .ok m ∧ minifyJSON m = .ok m :=
  ⟨sampleText_document, by decide,
    minifyJSON_idempotent 2 sampleText sampleValue sampleText_document (by decide)⟩

/-- C5 as stated fails: on the valid document of 10001 nested arrays
`minifyJSON` does not succeed, so there is no output to minify again. -/
theorem minifyJSON_deep_not_idempotent :
    ValidJSON (nestedArrays 10000) ∧
      ¬ ∃ m, minifyJSON (nestedArrays 10000) = .ok m ∧ minifyJSON m = .ok m :=
  ⟨nestedArrays_valid 10000,
    fun ⟨m, hm, _⟩ => not_ok_of_error (nestedArrays_rejected 10000 (by decide)) m hm⟩

theorem error_of_not_valid {D : List Nat} (h : ¬ ValidJSON D) :
    ∃ e, minifyJSON D = .error e := by
  cases hm : minifyJSON D with
  | error e => exact ⟨e, rfl⟩
  | ok out => exact absurd (minifyJSON_sound hm) h

theorem not_valid_of_error {D : List Nat} (hlen : D.length ≤ maxNestingDepth)
    (h : ∃ e, minifyJSON D = .error e) : ¬ ValidJSON D := by
  intro hv
  obtain ⟨out, ho⟩ := (validJSON_iff_of_short hlen).1 hv
  exact not_ok_of_error h out ho

theorem invalidNoValue_error : ∃ e, minifyJSON invalidNoValue = .error e := ⟨_, rfl⟩

theorem invalidCutOff_error : ∃ e, minifyJSON invalidCutOff = .error e := ⟨_, rfl⟩

theorem invalidSpaceValue_error : ∃ e, minifyJSON invalidSpaceValue = .error e := ⟨_, rfl⟩

theorem empty_error : ∃ e, minifyJSON [] = .error e := ⟨_, rfl⟩

/-- C3: for every byte sequence that is not valid JSON, `minifyJSON` returns
an error (and so no bytes); `FormatJson` on a file holding it ends the process
with status 1 having only logged the error, the file system and standard
output being what they were; and `FromStdin` on it ends the process with
status 1 with standard output and the file system what they were. -/
theorem invalid_json_rejected (D : List Nat) (h : ¬ ValidJSON D) :
    (∃ e, minifyJSON D = .error e) ∧
    (∀ (windows : Bool) (w : World) (p : List Nat), ReadFile windows w.fs p = .ok D →
      ∃ e, FormatJson windows w p =
        ({ w with stderr := w.stderr ++ [.minifyFailed e] }, .exited 1)) ∧
    (∀ w : World, ∃ e, FromStdin w (.ok D) =
        ({ w with stderr := w.stderr ++ [.minifyFailed e] }, .exited 1)) := by
  obtain ⟨e, he⟩ := error_of_not_valid h
  refine ⟨⟨e, he⟩, ?_, ?_⟩
  · intro windows w p hp
    exact ⟨e, by simp only [FormatJson, hp, he, logFatalf]⟩
  · intro w
    exact ⟨e, by simp [FromStdin, he, logFatalf]⟩

/-- C3, instances: the inputs `{"a":}`, `[1,2,`, `{"a": }` and the empty input
are not valid JSON, and each is rejected with no write and status 1. -/
theorem invalid_json_rejected_witness :
    (¬ ValidJSON invalidNoValue ∧ ¬ ValidJSON invalidCutOff ∧
      ¬ ValidJSON invalidSpaceValue ∧ ¬ ValidJSON []) ∧
    (∃ e, minifyJSON invalidNoValue = .error e) ∧
    (∃ e, minifyJSON invalidCutOff = .error e) ∧
    (∃ e, minifyJSON invalidSpaceValue = .error e) ∧
    (∃ e, minifyJSON [] = .error e) ∧
    (∃ e, FromStdin emptyWorld (.ok invalidSpaceValue) =
      ({ emptyWorld with stderr := emptyWorld.stderr ++ [.minifyFailed e] }, .exited 1)) :=
  ⟨⟨not_valid_of_error (by decide) invalidNoValue_error,
      not_valid_of_error (by decide) invalidCutOff_error,
      not_valid_of_error (by decide) invalidSpaceValue_error,
      not_valid_of_error (by decide) empty_error⟩,
    (invalid_json_rejected invalidNoValue
      (not_valid_of_error (by decide) invalidNoValue_error)).1,
    (invalid_json_rejected invalidCutOff
      (not_valid_of_error (by decide) invalidCutOff_error)).1,
    (invalid_json_rejected invalidSpaceValue
      (not_valid_of_error (by decide) invalidSpaceValue_error)).1,
    (invalid_json_rejected [] (not_valid_of_error (by decide) empty_error)).1,
    (invalid_json_rejected invalidSpaceValue
      (not_valid_of_error (by decide) invalidSpaceValue_error)).2.2 emptyWorld⟩

/-- C4: the output path of `FormatJson` for a path `p` is `p` with its
extension removed, then `_output`, then that extension, the extension being
the one the specification describes (from the last dot of the final path
element, empty when that element has no dot); with the four examples. -/
theorem FormatJson_output_path (windows : Bool) (p : List Nat) :
    IsExtensionOf windows p (Ext windows p) ∧
    (∃ stem, p = stem ++ Ext windows p ∧
      outputName windows p = stem ++ bytesOf "_output" ++ Ext windows p) ∧
    outputName windows (bytesOf "report.json") = bytesOf "report_output.json" ∧
    outputName windows (bytesOf "data") = bytesOf "data_output" ∧
    outputName windows (bytesOf "a/b/c.min.json") = bytesOf "a/b/c.min_output.json" ∧
    outputName windows (bytesOf "a/b.json") = bytesOf "a/b_output.json" :=
  ⟨Ext_spec windows p, outputName_eq windows p,
    by cases windows <;> decide, by cases windows <;> decide,
    by cases windows <;> decide, by cases windows <;> decide⟩

/-- Every location other than the one the output path names and those
beneath it holds after `FormatJson` what it held before. -/
theorem FormatJson_entries_frame (windows : Bool) (w : World) (p : List Nat) (q : Loc)
    (hq : ∀ L, entryNamed windows w.fs (outputName windows p) = some L →
      L.isPrefixOf q = false) :
    (FormatJson windows w p).1.fs.entries q = w.fs.entries q := by
  cases hr : ReadFile windows w.fs p with
  | error err => simp only [FormatJson, hr]
  | ok data =>
    cases hm : minifyJSON data with
    | error err => simp only [FormatJson, hr, hm, logFatalf]
    | ok minified =>
      cases hrm : RemoveAll windows w.fs (outputName windows p) with
      | error err => simp only [FormatJson, hr, hm, logPrintf, hrm]
      | ok fs1 =>
        obtain ⟨f1, f2⟩ := remove_write_frame (outputName_not_empty windows p)
          (outputName_properLast windows p) hrm q hq
        cases hw : WriteFile windows fs1 (outputName windows p) minified with
        | error err =>
          simp only [FormatJson, hr, hm, logPrintf, hrm, hw]
          exact f1
        | ok fs2 =>
          simp only [FormatJson, hr, hm, logPrintf, hrm, hw]
          exact f2 minified fs2 hw

theorem FormatJson_ok_inv {windows : Bool} {w : World} {p name : List Nat}
    (h : (FormatJson windows w p).2 = .returned (.ok name)) :
    ∃ D m, ReadFile windows w.fs p = .ok D ∧ minifyJSON D = .ok m ∧
      name = outputName windows p ∧
      ReadFile windows (FormatJson windows w p).1.fs name = .ok m := by
  cases hr : ReadFile windows w.fs p with
  | error err =>
    simp only [FormatJson, hr] at h
    cases h
  | ok data =>
    cases hm : minifyJSON data with
    | error err =>
      simp only [FormatJson, hr, hm, logFatalf] at h
      cases h
    | ok minified =>
      cases hrm : RemoveAll windows w.fs (outputName windows p) with
      | error err =>
        simp only [FormatJson, hr, hm, logPrintf, hrm] at h
        cases h
      | ok fs1 =>
        cases hw : WriteFile windows fs1 (outputName windows p) minified with
        | error err =>
          simp only [FormatJson, hr, hm, logPrintf, hrm, hw] at h
          cases h
        | ok fs2 =>
          simp only [FormatJson, hr, hm, logPrintf, hrm, hw] at h ⊢
          have hn : name = outputName windows p := by
            simp only [Outcome.returned.injEq, Except.ok.injEq] at h
            exact h.symm
          subst hn
          exact ⟨data, minified, rfl, hm, rfl, WriteFile_read hw⟩

/-- C6: when the file at `p` holds `D` and `FormatJson` returns a name without
an error, `minifyJSON D` succeeded with some `m`, the name is the derived
output path, and the file at that path holds exactly `m`, whatever was there
before. -/
theorem FormatJson_writes_minified (windows : Bool) (w : World) (p D name : List Nat)
    (hD : ReadFile windows w.fs p = .ok D)
    (hret : (FormatJson windows w p).2 = .returned (.ok name)) :
    ∃ m, minifyJSON D = .ok m ∧ name = outputName windows p ∧
      ReadFile windows (FormatJson windows w p).1.fs name = .ok m := by
  obtain ⟨D1, m, h1, h2, h3, h4⟩ := FormatJson_ok_inv hret
  rw [hD] at h1
  cases h1
  exact ⟨m, h2, h3, h4⟩

/-- C6, the example: with `x.json` holding `{"k": "v"}` and `x_output.json`
holding earlier content, `FormatJson` returns `x_output.json`, which then holds
`{"k":"v"}`. -/
theorem FormatJson_writes_minified_witness :
    ReadFile false sampleWorld.fs (bytesOf "x.json") =
      .ok (bytesOf "\x7b\"k\": \"v\"\x7d") ∧
    (FormatJson false sampleWorld (bytesOf "x.json")).2 =
      .returned (.ok (bytesOf "x_output.json")) ∧
    ReadFile false (FormatJson false sampleWorld (bytesOf "x.json")).1.fs
      (bytesOf "x_output.json") = .ok (bytesOf "\x7b\"k\":\"v\"\x7d") ∧
    ∃ m, minifyJSON (bytesOf "\x7b\"k\": \"v\"\x7d") = .ok m ∧
      bytesOf "x_output.json" = outputName false (bytesOf "x.json") ∧
      ReadFile false (FormatJson false sampleWorld (bytesOf "x.json")).1.fs
        (bytesOf "x_output.json") = .ok m :=
  ⟨rfl, rfl, rfl,
    FormatJson_writes_minified false sampleWorld (bytesOf "x.json")
      (bytesOf "\x7b\"k\": \"v\"\x7d") (bytesOf "x_output.json") rfl rfl⟩

theorem RemoveAll_params {windows : Bool} {fs fs1 : FileSystem} {name : List Nat}
    (h : RemoveAll windows fs name = .ok fs1) :
    fs1.cwd = fs.cwd ∧ fs1.fold = fs.fold ∧ fs1.linkLimit = fs.linkLimit := by
  cases hne : name.isEmpty with
  | true =>
    unfold RemoveAll at h
    simp only [hne, if_true, Except.ok.injEq] at h
    subst h
    exact ⟨rfl, rfl, rfl⟩
  | false =>
    rcases RemoveAll_inv h hne with ⟨rfl, _⟩ | ⟨L, e, _, rfl⟩
    · exact ⟨rfl, rfl, rfl⟩
    · exact ⟨rfl, rfl, rfl⟩

/-- The working directory and the parameters of the file system are the same
after `FormatJson`. -/
theorem FormatJson_params (windows : Bool) (w : World) (p : List Nat) :
    (FormatJson windows w p).1.fs.cwd = w.fs.cwd ∧
      (FormatJson windows w p).1.fs.fold = w.fs.fold ∧
      (FormatJson windows w p).1.fs.linkLimit = w.fs.linkLimit := by
  cases hr : ReadFile windows w.fs p with
  | error err =>
    simp only [FormatJson, hr]
    exact ⟨trivial, trivial, trivial⟩
  | ok data =>
    cases hm : minifyJSON data with
    | error err =>
      simp only [FormatJson, hr, hm, logFatalf]
      exact ⟨trivial, trivial, trivial⟩
    | ok minified =>
      cases hrm : RemoveAll windows w.fs (outputName windows p) with
      | error err =>
        simp only [FormatJson, hr, hm, logPrintf, hrm]
        exact ⟨trivial, trivial, trivial⟩
      | ok fs1 =>
        have f1 := RemoveAll_params hrm
        cases hw : WriteFile windows fs1 (outputName windows p) minified with
        | error err =>
          simp only [FormatJson, hr, hm, logPrintf, hrm, hw]
          exact f1
        | ok fs2 =>
          simp only [FormatJson, hr, hm, logPrintf, hrm, hw]
          obtain ⟨res, _, _, rfl⟩ := WriteFile_inv hw
          exact f1

theorem fileSystem_eq {a b : FileSystem} (h1 : ∀ q, a.entries q = b.entries q)
    (h2 : a.cwd = b.cwd) (h3 : a.fold = b.fold) (h4 : a.linkLimit = b.linkLimit) :
    a = b := by
  cases a
  cases b
  simp only [FileSystem.mk.injEq]
  exact ⟨funext h1, h2, h3, h4⟩

/-- When the output path names nothing or a regular file and the working
directory is not beneath it, a path that resolves away from it resolves to the
same after `FormatJson`. -/
theorem FormatJson_resolve_same (windows : Bool) (w : World) (p r : List Nat)
    (res : Resolved)
    (hr : resolve windows w.fs true r = .ok res)
    (hsep : ∀ L, entryNamed windows w.fs (outputName windows p) = some L →
      L.isPrefixOf res.loc = false)
    (hplain : ∀ L, entryNamed windows w.fs (outputName windows p) = some L →
      (w.fs.entries L = none ∨ ∃ d, w.fs.entries L = some (.file d)) ∧
        L.isPrefixOf w.fs.cwd = false) :
    resolve windows (FormatJson windows w p).1.fs true r = .ok res := by
  obtain ⟨c1, c2, c3⟩ := FormatJson_params windows w p
  cases hen : entryNamed windows w.fs (outputName windows p) with
  | none =>
    have e : (FormatJson windows w p).1.fs = w.fs :=
      fileSystem_eq (fun q => FormatJson_entries_frame windows w p q
        (fun L hL => by rw [hen] at hL; cases hL)) c1 c2 c3
    rw [e]
    exact hr
  | some L =>
    obtain ⟨hL, hcwd⟩ := hplain L hen
    refine resolve_outside windows w.fs _ true L r res c1 c2 c3 (fun q hq => ?_) hL hcwd hr
      (hsep L hen)
    exact FormatJson_entries_frame windows w p q
      (fun L1 hL1 => by rw [hen] at hL1; cases hL1; exact hq)

/-- C7, as amended: the derived output path differs from the input path and is
not a directory above it as a string; when the input path resolves to a file
at a location that is neither the location the output path names nor beneath
it, that file is at its location with the same content after `FormatJson`,
however the call ends; and when moreover the output path names nothing or a
regular file, and the working directory is not beneath it, reading the input
path gives that content after the call as before. -/
theorem FormatJson_keeps_input (windows : Bool) (w : World) (p D : List Nat) (Lp : Loc)
    (hp : resolve windows w.fs true p = .ok (.found Lp (.file D)))
    (hsep : ∀ L, entryNamed windows w.fs (outputName windows p) = some L →
      L.isPrefixOf Lp = false) :
    outputName windows p ≠ p ∧ beneath windows (outputName windows p) p = false ∧
      w.fs.entries Lp = some (.file D) ∧
      (FormatJson windows w p).1.fs.entries Lp = some (.file D) ∧
      ((∀ L, entryNamed windows w.fs (outputName windows p) = some L →
          (w.fs.entries L = none ∨ ∃ d, w.fs.entries L = some (.file d)) ∧
            L.isPrefixOf w.fs.cwd = false) →
        ReadFile windows w.fs p = .ok D ∧
          ReadFile windows (FormatJson windows w p).1.fs p = .ok D) := by
  have ht : w.fs.entries Lp = some (.file D) := by
    unfold resolve at hp
    by_cases he : p.isEmpty = true
    · simp only [he, if_true] at hp
      cases hp
    · simp only [he, Bool.false_eq_true, if_false] at hp
      have := walkN_truthful windows w.fs.entries w.fs.fold true w.fs.linkLimit
        (startOf windows w.fs.cwd p) (components windows p)
      rw [hp] at this
      exact (this.1 Lp D rfl).1
  refine ⟨outputName_ne windows p, outputName_not_above windows p, ht, ?_, ?_⟩
  · rw [FormatJson_entries_frame windows w p Lp hsep]
    exact ht
  · intro hplain
    have h2 := FormatJson_resolve_same windows w p p _ hp hsep hplain
    constructor
    · unfold ReadFile
      rw [hp]
    · unfold ReadFile
      rw [h2]

/-- C7, an instance: in the sample world `x.json` resolves to a file that is
not the output entry, the output entry is a regular file, and `FormatJson`
leaves the input as it was: the same entry, and the same content read. -/
theorem FormatJson_keeps_input_witness :
    resolve false sampleWorld.fs true (bytesOf "x.json") =
      .ok (.found [bytesOf "x.json"] (.file (bytesOf "\x7b\"k\": \"v\"\x7d"))) ∧
    entryNamed false sampleWorld.fs (outputName false (bytesOf "x.json")) =
      some [bytesOf "x_output.json"] ∧
    (FormatJson false sampleWorld (bytesOf "x.json")).1.fs.entries [bytesOf "x.json"] =
      some (.file (bytesOf "\x7b\"k\": \"v\"\x7d")) ∧
    ReadFile false (FormatJson false sampleWorld (bytesOf "x.json")).1.fs (bytesOf "x.json") =
      .ok (bytesOf "\x7b\"k\": \"v\"\x7d") :=
  have e : entryNamed false sampleWorld.fs (outputName false (bytesOf "x.json")) =
      some [bytesOf "x_output.json"] := rfl
  have h := FormatJson_keeps_input false sampleWorld (bytesOf "x.json")
    (bytesOf "\x7b\"k\": \"v\"\x7d") [bytesOf "x.json"] rfl
    (fun L hL => by
      rw [e] at hL
      cases hL
      rfl)
  ⟨rfl, e, h.2.2.2.1,
    (h.2.2.2.2 (fun L hL => by
      rw [e] at hL
      cases hL
      exact ⟨Or.inr ⟨_, rfl⟩, rfl⟩)).2⟩

/-- C7 as stated fails. When `x.json` is a symbolic link to `x_output.json`,
which holds `[ 1 ]`, `FormatJson` on `x.json` returns without an error and the
content read at `x.json` is `[1]` afterwards. And when `x_output.json` is a
directory, the input path `x_output.json/../x.json` reads `1` before the call
and does not resolve after it. -/
theorem FormatJson_changes_linked_input :
    ReadFile false linkWorld.fs (bytesOf "x.json") = .ok (bytesOf "[ 1 ]") ∧
    (FormatJson false linkWorld (bytesOf "x.json")).2 =
      .returned (.ok (bytesOf "x_output.json")) ∧
    ReadFile false (FormatJson false linkWorld (bytesOf "x.json")).1.fs (bytesOf "x.json") =
      .ok (bytesOf "[1]") ∧
    ReadFile false dirWorld.fs (bytesOf "x_output.json/../x.json") = .ok [49] ∧
    ReadFile false (FormatJson false dirWorld (bytesOf "x_output.json/../x.json")).1.fs
      (bytesOf "x_output.json/../x.json") = .error .notExist :=
  ⟨rfl, rfl, rfl, rfl, rfl⟩

/-- C10, as amended: `FormatJson` changes nothing at any location other than
the one the derived output path names and those beneath it. -/
theorem FormatJson_changes_only_output (windows : Bool) (w : World) (p : List Nat)
    (q : Loc)
    (hq : ∀ L, entryNamed windows w.fs (outputName windows p) = some L →
      L.isPrefixOf q = false) :
    (FormatJson windows w p).1.fs.entries q = w.fs.entries q :=
  FormatJson_entries_frame windows w p q hq

/-- C10, an instance: in the world where `x_output.json` is a directory, the
file `notes.txt` is as before after `FormatJson` on `./x.json`, while the
output entry is replaced. -/
theorem FormatJson_changes_only_output_witness :
    entryNamed false dirWorld.fs (outputName false (bytesOf "./x.json")) =
      some [bytesOf "x_output.json"] ∧
    dirWorld.fs.entries [bytesOf "notes.txt"] = some (.file [51]) ∧
    (FormatJson false dirWorld (bytesOf "./x.json")).1.fs.entries [bytesOf "x_output.json"] =
      some (.file [49]) ∧
    (FormatJson false dirWorld (bytesOf "./x.json")).1.fs.entries [bytesOf "notes.txt"] =
      dirWorld.fs.entries [bytesOf "notes.txt"] :=
  ⟨rfl, rfl, rfl,
    FormatJson_changes_only_output false dirWorld (bytesOf "./x.json") [bytesOf "notes.txt"]
      (fun L hL => by
        have e : entryNamed false dirWorld.fs (outputName false (bytesOf "./x.json")) =
            some [bytesOf "x_output.json"] := rfl
        rw [e] at hL
        cases hL
        rfl)⟩

/-- C10 as stated fails: when `x_output.json` is a directory holding the file
`keep`, `FormatJson` on `x.json` returns without an error and the file
`x_output.json/keep`, which is not the output path, is gone. -/
theorem FormatJson_removes_beneath_output :
    ReadFile false dirWorld.fs (bytesOf "x_output.json/keep") = .ok [50] ∧
    outputName false (bytesOf "x.json") = bytesOf "x_output.json" ∧
    (FormatJson false dirWorld (bytesOf "x.json")).2 =
      .returned (.ok (bytesOf "x_output.json")) ∧
    (FormatJson false dirWorld (bytesOf "x.json")).1.fs.entries
      [bytesOf "x_output.json", bytesOf "keep"] = none ∧
    ReadFile false (FormatJson false dirWorld (bytesOf "x.json")).1.fs
      (bytesOf "x_output.json/keep") = .error .notDirectory :=
  ⟨rfl, rfl, rfl, rfl, rfl⟩

/-- C8, as amended: for every standard input `D` that is valid JSON nested at
most `maxNestingDepth` deep, `FromStdin` returns having added to standard
output exactly the output of `minifyJSON D` and one line feed, and nothing
else is changed. -/
theorem FromStdin_prints_minified (w : World) (d : Nat) (D : List Nat) (v : JValue)
    (h : Document d D v) (hd : d ≤ maxNestingDepth) :
    ∃ m, minifyJSON D = .ok m ∧
      FromStdin w (.ok D) = ({ w with stdout := w.stdout ++ m ++ [10] }, .returned ()) := by
  have hm := minifyJSON_of_document h hd
  exact ⟨stripWhitespace D, hm, by simp only [FromStdin, hm, Println]⟩

/-- C8, the example: for the four-line sample object on standard input the
output is `{"a":1,"b":[1,2,3]}` and one line feed. -/
theorem FromStdin_prints_minified_witness :
    Document 2 sampleText sampleValue ∧ 2 ≤ maxNestingDepth ∧
    (FromStdin emptyWorld (.ok sampleText)).1.stdout = sampleCompact ++ [10] ∧
    ∃ m, minifyJSON sampleText = .ok m ∧
      FromStdin emptyWorld (.ok sampleText) =
        ({ emptyWorld with stdout := emptyWorld.stdout ++ m ++ [10] }, .returned ()) :=
  ⟨sampleText_document, by decide, rfl,
    FromStdin_prints_minified emptyWorld 2 sampleText sampleValue sampleText_document
      (by decide)⟩

theorem FromStdin_of_error (w : World) (D : List Nat) (e : SyntaxError)
    (h : minifyJSON D = .error e) :
    FromStdin w (.ok D) = ({ w with stderr := w.stderr ++ [.minifyFailed e] }, .exited 1) := by
  simp only [FromStdin, h, logFatalf]

/-- C8 as stated fails: with the valid document of 10001 nested arrays on
standard input, `FromStdin` writes nothing to standard output and ends the
process with status 1. -/
theorem FromStdin_deep_prints_nothing :
    ValidJSON (nestedArrays 10000) ∧
      (FromStdin emptyWorld (.ok (nestedArrays 10000))).1.stdout = [] ∧
      (FromStdin emptyWorld (.ok (nestedArrays 10000))).2 = .exited 1 := by
  obtain ⟨e, he⟩ := nestedArrays_rejected 10000 (by decide)
  rw [FromStdin_of_error emptyWorld (nestedArrays 10000) e he]
  exact ⟨nestedArrays_valid 10000, rfl, rfl⟩

/-- C9, as amended: when there are arguments, the parser is built, and
`parser.Parse` reports an error that is neither the help nor the version
request, `main` panics (exit status 2) with the file system, standard output
and the log as they were: no usage text is printed and no file is read,
removed or written. -/
theorem main_panics_on_parse_error (env : Env) (w : World) (osArgs : List (List Nat))
    (stdin : Except OSError (List Nat)) (err : String)
    (hlen : osArgs.length ≠ 1) (hnew : env.newParserErr = none)
    (hparse : env.parse (osArgs.drop 1) = .error err)
    (h1 : err ≠ errHelp) (h2 : err ≠ errVersion) :
    main env w osArgs stdin = (w, .panicked) ∧
      (main env w osArgs stdin).2.status = 2 := by
  have e : main env w osArgs stdin = (w, .panicked) := by
    simp only [main, hnew, hparse, beq_iff_eq, hlen, h1, h2, if_false]
  rw [e]
  exact ⟨rfl, rfl⟩

/-- C9, an instance: with a parser that rejects `--frobnicate`, `main` panics
and leaves the world as it was. -/
theorem main_panics_on_parse_error_witness :
    main rejectingEnv sampleWorld [bytesOf "jsonminify", bytesOf "--frobnicate"] (.ok []) =
      (sampleWorld, .panicked) ∧
    (main rejectingEnv sampleWorld [bytesOf "jsonminify", bytesOf "--frobnicate"]
      (.ok [])).2.status = 2 :=
  main_panics_on_parse_error rejectingEnv sampleWorld
    [bytesOf "jsonminify", bytesOf "--frobnicate"] (.ok []) errUnknown (by decide) rfl rfl
    (by decide) (by decide)

/-- C9 as stated fails: on an argument the parser rejects, `main` prints
nothing on standard output, although the usage text is not empty, and panics
instead of exiting through `ShowHelp`. -/
theorem main_prints_no_usage_on_parse_error :
    rejectingEnv.parse [bytesOf "--frobnicate"] = .error errUnknown ∧
    rejectingEnv.helpText = bytesOf "Usage: jsonminify" ∧
    (main rejectingEnv emptyWorld [bytesOf "jsonminify", bytesOf "--frobnicate"]
      (.ok [])).1.stdout = [] ∧
    (main rejectingEnv emptyWorld [bytesOf "jsonminify", bytesOf "--frobnicate"]
      (.ok [])).2 = .panicked :=
  ⟨rfl, rfl, rfl, rfl⟩

end JsonMinify
